import Mathlib

/-!
# Verification of the virtex sparse virtual texture cache

A shallow embedding of the core data structures of the `virtex` repository
(`src/texture.rs`, `src/manager2d.rs`): the bit-packed tile descriptor, the
32-bit multiplicative finaliser hash, the growable two-subtable cuckoo hash
directory (`TileHashTable`), and the `VirtualTexture` slot table with its LRU
eviction and tile lifecycle.

Machine integers (`u32`, `i32`, `i8`) are modelled as `Nat`/`Int` with explicit
`% 2^32` reductions where wrap-around occurs.  Code that can panic
(out-of-bounds indexing, `unwrap`, `unreachable!`) is modelled with `Option`,
`none` standing for a panic.  The random number generator used for hash-table
seeds (`rand::thread_rng`) is modelled as an ambient seed oracle
`σ : Nat → Nat` together with a draw counter that is threaded through the
operations.
-/

set_option maxHeartbeats 1600000

/-- Two to the 32, the modulus of `u32` arithmetic. -/
def U32 : Nat := 4294967296

/-- Bit length of a natural number, with explicit recursion fuel so that the
kernel can evaluate it (a fuel of 32 is exact for all `u32` values). -/
def bitLen : Nat → Nat → Nat
  | 0, _ => 0
  | f + 1, n => if n = 0 then 0 else bitLen f (n / 2) + 1

/-- `u32::leading_zeros`: number of leading zero bits in the 32-bit
representation. Total on `Nat`; agrees with Rust on `n < 2^32`. -/
def leadingZeros32 (n : Nat) : Nat := 32 - bitLen 32 n

/-- `i32 as u32` / cast of a signed 32-bit value to `u32` (two's complement). -/
def intToU32 (x : Int) : Nat := (x % (U32 : Int)).toNat

/-- Interpret the low 8 bits `b < 256` as a signed `i8` (two's complement). -/
def i8OfBits (b : Nat) : Int := if b < 128 then (b : Int) else (b : Int) - 256

namespace TileDescriptor

/-!
`TileDescriptor` (src/texture.rs:400-433).  The descriptor itself is a `u32`,
modelled as a `Nat` below `2^32`, with bit layout
`yyyyyyyyyyyyyxxxxxxxxxxxxxLlllll`: 13 bits of Y, 13 bits of X, 6 bits of
two's-complement LOD.
-/

/-- `TileDescriptor::new(tile_position, lod)` (src/texture.rs:402-411):
`((y as u32) << 19) | ((x as u32) << 6) | ((lod as u32) & 0x3f)`.
The coordinates are `i32` and the LOD is an `i8`; the shifts wrap mod `2^32`
as in Rust. `lod as u32` sign-extends, so `& 0x3f` keeps `lod mod 64`. -/
def new (x y lod : Int) : Nat :=
  (intToU32 y <<< 19) % U32 ||| (intToU32 x <<< 6) % U32 |||
    (intToU32 lod &&& 0x3f)

/-- `TileDescriptor::tile_position` (src/texture.rs:414-416):
`Vector2I::new(((self.0 >> 6) & ((1 << 13) - 1)) as i32, (self.0 >> 19) as i32)`. -/
def tilePosition (d : Nat) : Int × Int :=
  (((d >>> 6) &&& ((1 <<< 13) - 1) : Nat), ((d >>> 19 : Nat) : Int))

/-- `TileDescriptor::lod` (src/texture.rs:419-422): `((self.0 << 2) as i8) >> 2`,
a sign extension of the low 6 bits.  The `u32` shift wraps mod `2^32`, the cast
to `i8` keeps the low 8 bits as a signed value, and `>> 2` on `i8` is an
arithmetic shift, i.e. floor division by 4. -/
def lod (d : Nat) : Int :=
  Int.fdiv (i8OfBits ((d <<< 2) % U32 % 256)) 4

/-- `TileDescriptor::hash(seed)` (src/texture.rs:425-433): the 32-bit
multiplicative finaliser followed by xor with the seed.  All multiplications
wrap mod `2^32`. -/
def hash (d seed : Nat) : Nat :=
  let h1 := d ^^^ (d >>> 16)
  let h2 := (h1 * 0x85ebca6b) % U32
  let h3 := h2 ^^^ (h2 >>> 13)
  let h4 := (h3 * 0xc2b2ae35) % U32
  let h5 := h4 ^^^ (h4 >>> 16)
  h5 ^^^ seed

end TileDescriptor

/-! ### Bit-arithmetic helpers -/

lemma testBit_false_of_lt {x i j : Nat} (h : x < 2 ^ i) (hij : i ≤ j) :
    x.testBit j = false := by
  apply Nat.testBit_lt_two_pow
  calc x < 2 ^ i := h
    _ ≤ 2 ^ j := Nat.pow_le_pow_right (by norm_num) hij

/-- Bitwise or of values with disjoint bit ranges is addition. -/
lemma or_eq_add_of_lt {i a b : Nat} (hb : b < 2 ^ i) :
    (2 ^ i * a) ||| b = 2 ^ i * a + b := by
  apply Nat.eq_of_testBit_eq
  intro j
  rw [Nat.testBit_or, Nat.testBit_mul_pow_two_add a hb j]
  rcases lt_or_le j i with hj | hj
  · have ha : (2 ^ i * a).testBit j = false := by
      have : 2 ^ i * a = 2 ^ i * a + 0 := by ring
      rw [this, Nat.testBit_mul_pow_two_add a (by positivity) j, if_pos hj]
      simp
    simp [ha, if_pos hj]
  · have hbf : b.testBit j = false := testBit_false_of_lt hb hj
    have ha : (2 ^ i * a).testBit j = a.testBit (j - i) := by
      have : 2 ^ i * a = 2 ^ i * a + 0 := by ring
      rw [this, Nat.testBit_mul_pow_two_add a (by positivity) j,
        if_neg (by omega)]
    simp [ha, hbf, if_neg (Nat.not_lt.mpr hj)]

namespace TileDescriptor

/-- Under the documented bounds, the encoder produces the linear bit packing
`y·2^19 + x·2^6 + (lod mod 64)`. -/
lemma new_eq_linear {x y lod : Int} (hx0 : 0 ≤ x) (hx : x < 8192)
    (hy0 : 0 ≤ y) (hy : y < 8192) (hl0 : -32 ≤ lod) (hl : lod < 32) :
    new x y lod = y.toNat * 2 ^ 19 + x.toNat * 2 ^ 6 + (lod % 64).toNat := by
  have hxu : intToU32 x = x.toNat := by unfold intToU32 U32; omega
  have hyu : intToU32 y = y.toNat := by unfold intToU32 U32; omega
  have hlu : intToU32 lod &&& 0x3f = (lod % 64).toNat := by
    rw [show (0x3f : Nat) = 2 ^ 6 - 1 from rfl, Nat.and_pow_two_sub_one_eq_mod]
    unfold intToU32 U32
    omega
  have hxn : x.toNat < 8192 := by omega
  have hyn : y.toNat < 8192 := by omega
  have hln : (lod % 64).toNat < 64 := by omega
  unfold new
  rw [hxu, hyu, hlu, Nat.shiftLeft_eq, Nat.shiftLeft_eq]
  have hymod : y.toNat * 2 ^ 19 % U32 = y.toNat * 2 ^ 19 := by
    apply Nat.mod_eq_of_lt; unfold U32; omega
  have hxmod : x.toNat * 2 ^ 6 % U32 = x.toNat * 2 ^ 6 := by
    apply Nat.mod_eq_of_lt; unfold U32; omega
  rw [hymod, hxmod]
  have h1 : y.toNat * 2 ^ 19 ||| x.toNat * 2 ^ 6 =
      y.toNat * 2 ^ 19 + x.toNat * 2 ^ 6 := by
    rw [show y.toNat * 2 ^ 19 = 2 ^ 19 * y.toNat by ring]
    rw [or_eq_add_of_lt (by omega)]
  rw [h1]
  have h2 : y.toNat * 2 ^ 19 + x.toNat * 2 ^ 6 =
      2 ^ 6 * (y.toNat * 2 ^ 13 + x.toNat) := by ring
  rw [h2, or_eq_add_of_lt (by omega)]

/-- C6, position part: decoding the packed descriptor recovers the tile
position. -/
lemma tilePosition_new {x y lod : Int} (hx0 : 0 ≤ x) (hx : x < 8192)
    (hy0 : 0 ≤ y) (hy : y < 8192) (hl0 : -32 ≤ lod) (hl : lod < 32) :
    tilePosition (new x y lod) = (x, y) := by
  rw [new_eq_linear hx0 hx hy0 hy hl0 hl]
  unfold tilePosition
  have hln : (lod % 64).toNat < 64 := by omega
  have hd6 : (y.toNat * 2 ^ 19 + x.toNat * 2 ^ 6 + (lod % 64).toNat) >>> 6 =
      y.toNat * 2 ^ 13 + x.toNat := by
    rw [Nat.shiftRight_eq_div_pow]
    have : y.toNat * 2 ^ 19 + x.toNat * 2 ^ 6 + (lod % 64).toNat =
        2 ^ 6 * (y.toNat * 2 ^ 13 + x.toNat) + (lod % 64).toNat := by ring
    rw [this, Nat.mul_add_div (by norm_num)]
    omega
  have hd19 : (y.toNat * 2 ^ 19 + x.toNat * 2 ^ 6 + (lod % 64).toNat) >>> 19 =
      y.toNat := by
    rw [Nat.shiftRight_eq_div_pow]
    have : y.toNat * 2 ^ 19 + x.toNat * 2 ^ 6 + (lod % 64).toNat =
        2 ^ 19 * y.toNat + (x.toNat * 2 ^ 6 + (lod % 64).toNat) := by ring
    rw [this, Nat.mul_add_div (by norm_num)]
    omega
  rw [hd6, hd19]
  have hmask : (y.toNat * 2 ^ 13 + x.toNat) &&& (1 <<< 13) - 1 = x.toNat := by
    rw [show (1 <<< 13 : Nat) = 2 ^ 13 from rfl, Nat.and_pow_two_sub_one_eq_mod]
    rw [show y.toNat * 2 ^ 13 + x.toNat = 2 ^ 13 * y.toNat + x.toNat by ring]
    rw [Nat.mul_add_mod, Nat.mod_eq_of_lt (by omega)]
  rw [hmask]
  rw [Int.toNat_of_nonneg hx0, Int.toNat_of_nonneg hy0]

/-- C6, LOD part: decoding the packed descriptor recovers the signed LOD. -/
lemma lod_new {x y lod : Int} (hx0 : 0 ≤ x) (hx : x < 8192)
    (hy0 : 0 ≤ y) (hy : y < 8192) (hl0 : -32 ≤ lod) (hl : lod < 32) :
    TileDescriptor.lod (new x y lod) = lod := by
  rw [new_eq_linear hx0 hx hy0 hy hl0 hl]
  unfold TileDescriptor.lod
  have hln : (lod % 64).toNat < 64 := by omega
  have hsh : (y.toNat * 2 ^ 19 + x.toNat * 2 ^ 6 + (lod % 64).toNat) <<< 2 =
      (y.toNat * 2 ^ 19 + x.toNat * 2 ^ 6 + (lod % 64).toNat) * 4 := by
    rw [Nat.shiftLeft_eq]
  rw [hsh]
  have hmod : (y.toNat * 2 ^ 19 + x.toNat * 2 ^ 6 + (lod % 64).toNat) * 4
      % U32 % 256 = (lod % 64).toNat * 4 := by
    rw [show U32 = 2 ^ 32 from rfl]
    rw [Nat.mod_mod_of_dvd _ (by norm_num)]
    rw [show (y.toNat * 2 ^ 19 + x.toNat * 2 ^ 6 + (lod % 64).toNat) * 4 =
      256 * (y.toNat * 2 ^ 13 + x.toNat) + (lod % 64).toNat * 4 by ring]
    rw [Nat.mul_add_mod, Nat.mod_eq_of_lt (by omega)]
  rw [hmod]
  unfold i8OfBits
  rcases le_or_lt 0 lod with hpos | hneg
  · have hsmall : (lod % 64).toNat = lod.toNat := by omega
    rw [hsmall, if_pos (by omega)]
    rw [show ((lod.toNat * 4 : Nat) : Int) = 4 * lod by
      push_cast; rw [Int.toNat_of_nonneg hpos]; ring]
    exact Int.mul_fdiv_cancel_left lod (by norm_num)
  · have hbig : (lod % 64).toNat = (lod + 64).toNat := by omega
    rw [hbig, if_neg (by omega)]
    rw [show (((lod + 64).toNat * 4 : Nat) : Int) - 256 = 4 * lod by
      push_cast; rw [Int.toNat_of_nonneg (by omega)]; ring]
    exact Int.mul_fdiv_cancel_left lod (by norm_num)

end TileDescriptor

/-- **C6** (key encoding round-trip): for every tile position `(x, y)` with
`0 ≤ x < 8192`, `0 ≤ y < 8192` and every LOD with `-32 ≤ lod < 32`, the
descriptor built by `TileDescriptor::new((x, y), lod)` decodes back exactly:
`tile_position()` returns `(x, y)` and `lod()` returns `lod`. -/
theorem c6_key_encoding_round_trip (x y lod : Int) (hx0 : 0 ≤ x)
    (hx : x < 8192) (hy0 : 0 ≤ y) (hy : y < 8192) (hl0 : -32 ≤ lod)
    (hl : lod < 32) :
    TileDescriptor.tilePosition (TileDescriptor.new x y lod) = (x, y) ∧
      TileDescriptor.lod (TileDescriptor.new x y lod) = lod :=
  ⟨TileDescriptor.tilePosition_new hx0 hx hy0 hy hl0 hl,
    TileDescriptor.lod_new hx0 hx hy0 hy hl0 hl⟩

/-- Witness for C6 at the concrete input `x = 17`, `y = 42`, `lod = -3`. -/
theorem c6_key_encoding_round_trip_witness :
    TileDescriptor.tilePosition (TileDescriptor.new 17 42 (-3)) = (17, 42) ∧
      TileDescriptor.lod (TileDescriptor.new 17 42 (-3)) = -3 :=
  c6_key_encoding_round_trip 17 42 (-3) (by norm_num) (by norm_num)
    (by norm_num) (by norm_num) (by norm_num) (by norm_num)

/-! ### C10: injectivity of the 32-bit multiplicative finaliser hash -/

/-- One xorshift step `h ^= h >> s` of the finaliser. -/
def xorShift (s x : Nat) : Nat := x ^^^ (x >>> s)

/-- One wrapping-multiply step `h = h.wrapping_mul(c)` of the finaliser. -/
def mulWrap (c x : Nat) : Nat := (x * c) % U32

/-- The hash is the composition of the five finaliser steps followed by the
seed xor. -/
lemma hash_eq_comp (d seed : Nat) :
    TileDescriptor.hash d seed =
      xorShift 16 (mulWrap 0xc2b2ae35 (xorShift 13
        (mulWrap 0x85ebca6b (xorShift 16 d)))) ^^^ seed := rfl

lemma shiftRight_xor_distrib (a b i : Nat) :
    (a ^^^ b) >>> i = (a >>> i) ^^^ (b >>> i) := by
  apply Nat.eq_of_testBit_eq
  intro j
  simp [Nat.testBit_shiftRight, Nat.testBit_xor]

lemma xor_cancel_right (a b : Nat) : (a ^^^ b) ^^^ b = a := by
  rw [Nat.xor_assoc, Nat.xor_self, Nat.xor_zero]

lemma shiftRight_eq_zero_of_lt {x i : Nat} (h : x < 2 ^ i) : x >>> i = 0 := by
  rw [Nat.shiftRight_eq_div_pow]
  exact Nat.div_eq_of_lt h

lemma xorShift_lt {s x : Nat} (h : x < U32) : xorShift s x < U32 := by
  have h2 : x >>> s < U32 := by
    rw [Nat.shiftRight_eq_div_pow]
    exact lt_of_le_of_lt (Nat.div_le_self _ _) h
  exact Nat.xor_lt_two_pow (show x < 2 ^ 32 from h) (show x >>> s < 2 ^ 32 from h2)

lemma xor_shuffle (x a b : Nat) : ((x ^^^ a) ^^^ (a ^^^ b)) ^^^ b = x := by
  rw [Nat.xor_assoc x a, ← Nat.xor_assoc a a, Nat.xor_self, Nat.zero_xor,
    Nat.xor_assoc, Nat.xor_self, Nat.xor_zero]

lemma mulWrap_lt (c x : Nat) : mulWrap c x < U32 := by
  unfold mulWrap U32
  exact Nat.mod_lt _ (by norm_num)

/-- `h ^= h >> 16` is an involution on 32-bit values, hence injective. -/
lemma xorShift16_invol {x : Nat} (h : x < U32) :
    xorShift 16 (xorShift 16 x) = x := by
  unfold xorShift
  rw [shiftRight_xor_distrib]
  rw [show (x >>> 16) >>> 16 = x >>> 32 from (Nat.shiftRight_add x 16 16).symm]
  rw [shiftRight_eq_zero_of_lt (show x < 2 ^ 32 from h), Nat.xor_zero]
  rw [Nat.xor_assoc, Nat.xor_self, Nat.xor_zero]

/-- Explicit inverse of `h ^= h >> 13` on 32-bit values. -/
lemma xorShift13_leftInverse {x : Nat} :
    xorShift 13 (xorShift 13 x) ^^^ (x >>> 26) = x := by
  unfold xorShift
  rw [shiftRight_xor_distrib]
  rw [show (x >>> 13) >>> 13 = x >>> 26 from (Nat.shiftRight_add x 13 13).symm]
  exact xor_shuffle x (x >>> 13) (x >>> 26)

lemma xorShift16_inj {x y : Nat} (hx : x < U32) (hy : y < U32)
    (h : xorShift 16 x = xorShift 16 y) : x = y := by
  have := congrArg (xorShift 16) h
  rwa [xorShift16_invol hx, xorShift16_invol hy] at this

lemma xorShift13_inj {x y : Nat} (hx : x < U32) (hy : y < U32)
    (h : xorShift 13 x = xorShift 13 y) : x = y := by
  have h26 : x >>> 26 = y >>> 26 := by
    have hsh : xorShift 13 x >>> 26 = xorShift 13 y >>> 26 := by rw [h]
    unfold xorShift at hsh
    rw [shiftRight_xor_distrib, shiftRight_xor_distrib] at hsh
    rw [show (x >>> 13) >>> 26 = x >>> 39 from (Nat.shiftRight_add x 13 26).symm,
      show (y >>> 13) >>> 26 = y >>> 39 from (Nat.shiftRight_add y 13 26).symm]
      at hsh
    have hx39 : x >>> 39 = 0 := shiftRight_eq_zero_of_lt
      (lt_of_lt_of_le hx (by norm_num [U32]))
    have hy39 : y >>> 39 = 0 := shiftRight_eq_zero_of_lt
      (lt_of_lt_of_le hy (by norm_num [U32]))
    rwa [hx39, hy39, Nat.xor_zero, Nat.xor_zero] at hsh
  have := congrArg (xorShift 13) h
  have hx' := xorShift13_leftInverse (x := x)
  have hy' := xorShift13_leftInverse (x := y)
  rw [← hx', ← hy', this, h26]

lemma mulWrap_inj {c x y : Nat} (hodd : c % 2 = 1) (hx : x < U32) (hy : y < U32)
    (h : mulWrap c x = mulWrap c y) : x = y := by
  have hcop : Nat.Coprime c U32 := by
    have h2 : Nat.Coprime c 2 := Nat.coprime_two_right.mpr (Nat.odd_iff.mpr hodd)
    exact (show U32 = 2 ^ 32 from rfl) ▸ h2.pow_right 32
  unfold mulWrap at h
  have hmod : c * x ≡ c * y [MOD U32] := by
    unfold Nat.ModEq
    rw [Nat.mul_comm c x, Nat.mul_comm c y]
    exact h
  have := Nat.ModEq.cancel_left_of_coprime (by rwa [Nat.coprime_comm] at hcop)
    hmod
  unfold Nat.ModEq at this
  rwa [Nat.mod_eq_of_lt hx, Nat.mod_eq_of_lt hy] at this

/-- The tile hash with a fixed seed is injective on 32-bit keys. -/
lemma hash_inj {k1 k2 seed : Nat} (h1 : k1 < U32) (h2 : k2 < U32)
    (heq : TileDescriptor.hash k1 seed = TileDescriptor.hash k2 seed) :
    k1 = k2 := by
  rw [hash_eq_comp, hash_eq_comp] at heq
  have e1 := xor_cancel_right (xorShift 16 (mulWrap 0xc2b2ae35 (xorShift 13
    (mulWrap 0x85ebca6b (xorShift 16 k1))))) seed
  have e2 := xor_cancel_right (xorShift 16 (mulWrap 0xc2b2ae35 (xorShift 13
    (mulWrap 0x85ebca6b (xorShift 16 k2))))) seed
  have heq5 : xorShift 16 (mulWrap 0xc2b2ae35 (xorShift 13
      (mulWrap 0x85ebca6b (xorShift 16 k1)))) =
      xorShift 16 (mulWrap 0xc2b2ae35 (xorShift 13
      (mulWrap 0x85ebca6b (xorShift 16 k2)))) := by
    rw [← e1, ← e2, heq]
  have heq4 := xorShift16_inj (mulWrap_lt _ _) (mulWrap_lt _ _) heq5
  have heq3 := mulWrap_inj (show 0xc2b2ae35 % 2 = 1 by norm_num)
    (xorShift_lt (mulWrap_lt _ _)) (xorShift_lt (mulWrap_lt _ _)) heq4
  have heq2 := xorShift13_inj (mulWrap_lt _ _) (mulWrap_lt _ _) heq3
  have heq1 := mulWrap_inj (show 0x85ebca6b % 2 = 1 by norm_num)
    (xorShift_lt h1) (xorShift_lt h2) heq2
  exact xorShift16_inj h1 h2 heq1

/-- The hash of 32-bit inputs is a 32-bit value. -/
lemma hash_lt {d seed : Nat} (hs : seed < U32) :
    TileDescriptor.hash d seed < U32 := by
  rw [hash_eq_comp]
  exact Nat.xor_lt_two_pow
    (show _ < 2 ^ 32 from xorShift_lt (mulWrap_lt _ _)) hs

/-- **C10** (hash injectivity): for every fixed 32-bit seed, the tile hash
function is injective on 32-bit keys: `hash(k1, seed) = hash(k2, seed)`
implies `k1 = k2`, because each of its steps (xor with a right shift,
wrapping multiplication by an odd constant, xor with the seed) is invertible
modulo `2^32`.  Hence distinct tile descriptors never share a hash value and
bucket collisions arise only from the modulo-`n` reduction. -/
theorem c10_hash_injective (k1 k2 seed : Nat) (h1 : k1 < U32) (h2 : k2 < U32)
    (heq : TileDescriptor.hash k1 seed = TileDescriptor.hash k2 seed) :
    k1 = k2 :=
  hash_inj h1 h2 heq

/-- Witness for C10 at concrete keys `3`, `5` and seed `12345`. -/
theorem c10_hash_injective_witness :
    (3 : Nat) < U32 ∧ (5 : Nat) < U32 ∧
      (TileDescriptor.hash 3 12345 = TileDescriptor.hash 5 12345 → (3 : Nat) = 5) :=
  ⟨by norm_num [U32], by norm_num [U32],
    fun h => c10_hash_injective 3 5 12345 (by norm_num [U32])
      (by norm_num [U32]) h⟩

/-! ### C9: analytical LOD bracket (src/manager2d.rs) -/

namespace VirtualTextureManager2D

/-- `current_scale` (src/manager2d.rs:33-36):
`f32::max(self.transform.m11(), self.transform.m22())` — note: no absolute
values.  The `f32` matrix entries are modelled as rationals (the claim's
failing inputs are exactly representable and all operations on them are
exact in `f32`). -/
def currentScale (m11 m22 : ℚ) : ℚ := max m11 m22

/-- The Rust `f32` to `u32` saturating cast of `scale.floor()`: negative
values clamp to `0`, values at or above `2^32` clamp to `u32::MAX`. -/
def floorToU32 (q : ℚ) : Nat := if ⌊q⌋ < 0 then 0 else min ⌊q⌋.toNat (U32 - 1)

/-- `current_lods` (src/manager2d.rs:38-50):
`lower_lod = 31 - (scale.floor() as u32).leading_zeros() as i8`, push
`lower_lod`, and if `2.0.powf(lower_lod) != scale` also push `lower_lod + 1`.
`2.0.powf` of a small integer is exact in `f32` and is modelled as `zpow`. -/
def currentLods (scale : ℚ) : List Int :=
  let lowerLod : Int := 31 - (leadingZeros32 (floorToU32 scale) : Int)
  if (2 : ℚ) ^ lowerLod ≠ scale then [lowerLod, lowerLod + 1] else [lowerLod]

end VirtualTextureManager2D

/-- **C9** (analytical LOD bracket) — the code disagrees with the claim, as
its own `FIXME(pcwalton): This is wrong for negative LODs!` comment admits.
At scale `1/4` the claim demands the single LOD `floor(log2(1/4)) = -2`
(since `2^(-2)` equals the scale exactly), but `current_lods` returns
`[-1, 0]`; and `current_scale` on a transform with `m11 = -2`, `m22 = 1`
returns `1`, not `max(|m11|, |m22|) = 2`. -/
theorem c9_analytical_lod_bracket_bug :
    VirtualTextureManager2D.currentLods (1 / 4) = [-1, 0] ∧
      (2 : ℚ) ^ (-2 : Int) = 1 / 4 ∧
      VirtualTextureManager2D.currentScale (-2) 1 = 1 := by
  refine ⟨?_, ?_, ?_⟩
  · have h0 : ⌊(1 / 4 : ℚ)⌋ = 0 := by
      rw [Int.floor_eq_zero_iff, Set.mem_Ico]
      norm_num
    have hf : VirtualTextureManager2D.floorToU32 (1 / 4) = 0 := by
      unfold VirtualTextureManager2D.floorToU32
      rw [h0]
      norm_num
    have hlz : leadingZeros32 0 = 32 := rfl
    simp only [VirtualTextureManager2D.currentLods, hf, hlz]
    norm_num
  · norm_num [zpow_neg]
  · simp [VirtualTextureManager2D.currentScale]
    norm_num [max_def]

/-! ### TileHashTable: the growable two-subtable cuckoo directory
(src/texture.rs:236-398) -/

structure TileHashEntry where
  descriptor : Nat
  address : Nat
deriving DecidableEq, Repr

structure TileHashSubtable where
  buckets : List (Option TileHashEntry)
  seed : Nat
deriving DecidableEq, Repr

namespace TileHashSubtable

/-- `TileHashSubtable::new(seed, bucket_size)` (texture.rs:339-344). -/
def new (seed bucketSize : Nat) : TileHashSubtable :=
  ⟨List.replicate bucketSize none, seed⟩

/-- The bucket index `descriptor.hash(self.seed) as usize % self.buckets.len()`
used by get/insert/remove (texture.rs:347, 364, 384). -/
def bucketIndex (st : TileHashSubtable) (d : Nat) : Nat :=
  TileDescriptor.hash d st.seed % st.buckets.length

/-- `TileHashSubtable::get` (texture.rs:346-360). -/
def get (st : TileHashSubtable) (d : Nat) : Option Nat :=
  match st.buckets[st.bucketIndex d]? with
  | some (some e) => if e.descriptor = d then some e.address else none
  | _ => none

inductive SubinsertResult where
  | inserted
  | replaced
  | ejected (old : TileHashEntry)
deriving DecidableEq, Repr

/-- `TileHashSubtable::insert` (texture.rs:362-381): the bucket is always
overwritten with the new entry; an occupied bucket holding a different key
hands back the displaced occupant.  (In every reachable table `buckets` is
nonempty, so `bucketIndex` is in bounds and the out-of-range arm is dead.) -/
def insert (st : TileHashSubtable) (d a : Nat) :
    SubinsertResult × TileHashSubtable :=
  let i := st.bucketIndex d
  match st.buckets[i]? with
  | some none => (.inserted, ⟨st.buckets.set i (some ⟨d, a⟩), st.seed⟩)
  | some (some e) =>
      if e.descriptor = d then
        (.replaced, ⟨st.buckets.set i (some ⟨d, a⟩), st.seed⟩)
      else
        (.ejected e, ⟨st.buckets.set i (some ⟨d, a⟩), st.seed⟩)
  | none => (.inserted, st)

/-- `TileHashSubtable::remove` (texture.rs:383-397). -/
def remove (st : TileHashSubtable) (d : Nat) :
    Option Nat × TileHashSubtable :=
  let i := st.bucketIndex d
  match st.buckets[i]? with
  | some (some e) =>
      if e.descriptor = d then (some e.address, ⟨st.buckets.set i none, st.seed⟩)
      else (none, st)
  | _ => (none, st)

/-- All occupied buckets of a subtable, in index order. -/
def entriesList (st : TileHashSubtable) : List TileHashEntry :=
  st.buckets.filterMap id

end TileHashSubtable

structure TileHashTable where
  sub0 : TileHashSubtable
  sub1 : TileHashSubtable
deriving DecidableEq, Repr

inductive TileHashInsertResult where
  | inserted
  | replaced
deriving DecidableEq, Repr

namespace TileHashTable

/-- `TileHashTable::with_seeds(seeds, initial_bucket_size)`
(texture.rs:270-277). -/
def withSeeds (s0 s1 bucketSize : Nat) : TileHashTable :=
  ⟨TileHashSubtable.new s0 bucketSize, TileHashSubtable.new s1 bucketSize⟩

/-- `TileHashTable::new` (texture.rs:264-268): draws two fresh seeds from the
thread RNG, modelled by the seed oracle `σ` at draw counter `c`. -/
def new (σ : Nat → Nat) (c bucketSize : Nat) : TileHashTable :=
  withSeeds (σ c) (σ (c + 1)) bucketSize

/-- `TileHashTable::get` (texture.rs:279-286): probe sub0, then sub1. -/
def get (t : TileHashTable) (d : Nat) : Option Nat :=
  match t.sub0.get d with
  | some a => some a
  | none => t.sub1.get d

/-- `TileHashTable::remove` (texture.rs:316-323): try sub0, then sub1; only
the first matching bucket is cleared. -/
def remove (t : TileHashTable) (d : Nat) : Option Nat × TileHashTable :=
  match t.sub0.remove d with
  | (some a, s0') => (some a, ⟨s0', t.sub1⟩)
  | (none, _) =>
    match t.sub1.remove d with
    | (r, s1') => (r, ⟨t.sub0, s1'⟩)

/-- All occupied buckets, sub0 first then sub1, in index order — the
iteration order of `TileHashTable::rebuild` (texture.rs:328-334). -/
def entriesList (t : TileHashTable) : List TileHashEntry :=
  t.sub0.entriesList ++ t.sub1.entriesList

/-- `31 - bucket_size.leading_zeros()` (texture.rs:292), which is
`⌊log2 bucket_size⌋` for `1 ≤ bucket_size < 2^32`. -/
def maxChain (bucketSize : Nat) : Nat := 31 - leadingZeros32 bucketSize

/-- One pass of the inner `for subtable in &mut self.subtables` loop of
`TileHashTable::insert` (texture.rs:297-306): try sub0 with the homeless
entry, then sub1 with whatever sub0 ejected. -/
def insertRound (t : TileHashTable) (e : TileHashEntry) :
    (TileHashInsertResult ⊕ TileHashEntry) × TileHashTable :=
  match t.sub0.insert e.descriptor e.address with
  | (.inserted, s0') => (Sum.inl .inserted, ⟨s0', t.sub1⟩)
  | (.replaced, s0') => (Sum.inl .replaced, ⟨s0', t.sub1⟩)
  | (.ejected e1, s0') =>
    match (⟨s0', t.sub1⟩ : TileHashTable).sub1.insert e1.descriptor e1.address with
    | (.inserted, s1') => (Sum.inl .inserted, ⟨s0', s1'⟩)
    | (.replaced, s1') => (Sum.inl .replaced, ⟨s0', s1'⟩)
    | (.ejected e2, s1') => (Sum.inr e2, ⟨s0', s1'⟩)

/-- The bounded displacement loop `for _ in 0..max_chain`
(texture.rs:296-307), returning either the insert result or the still
homeless entry together with the mutated table. -/
def insertRounds : Nat → TileHashTable → TileHashEntry →
    (TileHashInsertResult ⊕ TileHashEntry) × TileHashTable
  | 0, t, e => (Sum.inr e, t)
  | n + 1, t, e =>
    match insertRound t e with
    | (Sum.inl r, t') => (Sum.inl r, t')
    | (Sum.inr e', t') => insertRounds n t' e'

/-- Re-insert a list of entries one by one with the given insert function,
threading the table and the RNG draw counter — the loop body of
`TileHashTable::rebuild` (texture.rs:328-334). -/
def reinsertList
    (ins : Nat → TileHashTable → Nat → Nat →
      Option (TileHashInsertResult × TileHashTable × Nat)) :
    Nat → TileHashTable → List TileHashEntry →
      Option (TileHashTable × Nat)
  | c, t, [] => some (t, c)
  | c, t, e :: rest =>
    match ins c t e.descriptor e.address with
    | none => none
    | some (_, t', c') => reinsertList ins c' t' rest

/-- `TileHashTable::insert` (texture.rs:288-314) together with the
`rebuild` it may trigger (texture.rs:325-335).  The mutual recursion of the
Rust code through `rebuild` is bounded by `fuel`, the maximal remaining
rebuild depth; `none` means the fuel ran out.  Theorem
`c8_insert_terminates` shows that fuel 34 suffices for every well-formed
table, so the bounded model agrees with the unbounded Rust recursion.
On failure of the displacement loop the code rebuilds at twice the bucket
count with two fresh random seeds and then re-inserts the *homeless* entry
(texture.rs:313: `self.insert(entry.descriptor, entry.address)`). -/
def insertGo (σ : Nat → Nat) : Nat → Nat → TileHashTable → Nat → Nat →
    Option (TileHashInsertResult × TileHashTable × Nat)
  | 0, c, t, d, a =>
    match insertRounds (maxChain t.sub0.buckets.length) t ⟨d, a⟩ with
    | (Sum.inl r, t') => some (r, t', c)
    | (Sum.inr _, _) => none
  | fuel + 1, c, t, d, a =>
    match insertRounds (maxChain t.sub0.buckets.length) t ⟨d, a⟩ with
    | (Sum.inl r, t') => some (r, t', c)
    | (Sum.inr e', t') =>
      match reinsertList (insertGo σ fuel) (c + 2)
          (new σ c (2 * t.sub0.buckets.length)) (entriesList t') with
      | none => none
      | some (t'', c') => insertGo σ fuel c' t'' e'.descriptor e'.address

/-- `TileHashTable::insert` at the fuel shown sufficient by C8. -/
def insert (σ : Nat → Nat) (c : Nat) (t : TileHashTable) (d a : Nat) :
    Option (TileHashInsertResult × TileHashTable × Nat) :=
  insertGo σ 34 c t d a

/-- A whole sequence of `insert` calls starting from
`TileHashTable::with_seeds(seeds, initial_bucket_size)`. -/
def insertSeq (σ : Nat → Nat) (s0 s1 n0 : Nat) (ops : List (Nat × Nat)) :
    Option (TileHashTable × Nat) :=
  ops.foldl
    (fun acc p => acc.bind fun tc =>
      (insert σ tc.2 tc.1 p.1 p.2).map fun rtc => (rtc.2.1, rtc.2.2))
    (some (withSeeds s0 s1 n0, 0))

end TileHashTable

example :
    (TileHashTable.insertSeq (fun _ => 0) 0 0 2 [(0, 10), (2, 20), (0, 30)]).map
      (fun tc => tc.1.get 0) = some (some 10) := by decide


/-! ### Toolkit: decomposing `filterMap id` over `List.set` -/

lemma filterMap_id_decomp {α : Type} {bs : List (Option α)} {i : Nat}
    {b : Option α} (hb : bs[i]? = some b) :
    bs.filterMap id =
      (bs.take i).filterMap id ++ b.toList ++ (bs.drop (i + 1)).filterMap id := by
  have hi : i < bs.length := by
    by_contra hlt
    rw [List.getElem?_eq_none (by omega)] at hb
    exact Option.noConfusion hb
  conv_lhs => rw [← List.take_append_drop i bs]
  rw [List.drop_eq_getElem_cons hi]
  have hget : bs[i] = b := by
    rw [List.getElem?_eq_getElem hi] at hb
    exact Option.some.inj hb
  rw [hget, List.filterMap_append, List.filterMap_cons]
  cases b with
  | none => simp
  | some e => simp

lemma filterMap_id_set {α : Type} {bs : List (Option α)} {i : Nat}
    (hi : i < bs.length) (b' : Option α) :
    (bs.set i b').filterMap id =
      (bs.take i).filterMap id ++ b'.toList ++ (bs.drop (i + 1)).filterMap id := by
  have hb' : (bs.set i b')[i]? = some b' := by
    rw [List.getElem?_set_self', List.getElem?_eq_getElem hi]
    rfl
  rw [filterMap_id_decomp hb']
  have ht : (bs.set i b').take i = bs.take i := by
    apply List.ext_getElem?
    intro j
    rcases lt_or_le j i with hj | hj
    · rw [List.getElem?_take_of_lt hj, List.getElem?_take_of_lt hj,
        List.getElem?_set_ne (by omega)]
    · rw [List.getElem?_eq_none, List.getElem?_eq_none]
      · simp [List.length_take]; omega
      · simp [List.length_take]; omega
  have hd : (bs.set i b').drop (i + 1) = bs.drop (i + 1) := by
    apply List.ext_getElem?
    intro j
    rw [List.getElem?_drop, List.getElem?_drop, List.getElem?_set_ne (by omega)]
  rw [ht, hd]

/-! ### Subtable invariants and operation specifications -/

namespace TileHashSubtable

/-- Every stored entry sits at the bucket selected by its own hash. -/
def Placement (st : TileHashSubtable) : Prop :=
  ∀ i e, st.buckets[i]? = some (some e) → st.bucketIndex e.descriptor = i

lemma bucketIndex_lt (st : TileHashSubtable) (d : Nat)
    (h : 1 ≤ st.buckets.length) : st.bucketIndex d < st.buckets.length :=
  Nat.mod_lt _ (by omega)

lemma bucketIndex_congr {st st' : TileHashSubtable} (hseed : st'.seed = st.seed)
    (hlen : st'.buckets.length = st.buckets.length) (d : Nat) :
    st'.bucketIndex d = st.bucketIndex d := by
  unfold bucketIndex
  rw [hseed, hlen]

lemma bucket_isSome (st : TileHashSubtable) (d : Nat)
    (h : 1 ≤ st.buckets.length) :
    ∃ b, st.buckets[st.bucketIndex d]? = some b := by
  rw [List.getElem?_eq_getElem (st.bucketIndex_lt d h)]
  exact ⟨_, rfl⟩

lemma mem_entriesList {st : TileHashSubtable} {e : TileHashEntry} :
    e ∈ st.entriesList ↔ ∃ i : Nat, st.buckets[i]? = some (some e) := by
  unfold entriesList
  rw [List.mem_filterMap]
  constructor
  · rintro ⟨o, ho, hoe⟩
    cases o with
    | none => exact Option.noConfusion hoe
    | some e' =>
      obtain ⟨i, hi⟩ := List.mem_iff_getElem?.mp ho
      exact ⟨i, by rw [hi, Option.some.inj hoe]⟩
  · rintro ⟨i, hi⟩
    exact ⟨some e, List.mem_iff_getElem?.mpr ⟨i, hi⟩, rfl⟩

/-- `get` unfolded at a known bucket. -/
lemma get_eq_of_bucket {st : TileHashSubtable} {d : Nat}
    {b : Option TileHashEntry}
    (hb : st.buckets[st.bucketIndex d]? = some b) :
    st.get d = match b with
      | none => none
      | some e => if e.descriptor = d then some e.address else none := by
  cases b with
  | none => simp [get, hb]
  | some e => by_cases he : e.descriptor = d <;> simp [get, hb, he]

lemma get_eq_none_of_oob {st : TileHashSubtable} {d : Nat}
    (hb : st.buckets[st.bucketIndex d]? = none) : st.get d = none := by
  simp [get, hb]

/-- The table component of `insert`: the key's bucket is overwritten. -/
lemma insert_snd_of_bucket {st : TileHashSubtable} {d a : Nat}
    {b : Option TileHashEntry}
    (hb : st.buckets[st.bucketIndex d]? = some b) :
    (st.insert d a).2 =
      ⟨st.buckets.set (st.bucketIndex d) (some ⟨d, a⟩), st.seed⟩ := by
  cases b with
  | none => simp [insert, hb]
  | some e => by_cases he : e.descriptor = d <;> simp [insert, hb, he]

/-- The result component of `insert`. -/
lemma insert_fst_of_bucket {st : TileHashSubtable} {d a : Nat}
    {b : Option TileHashEntry}
    (hb : st.buckets[st.bucketIndex d]? = some b) :
    (st.insert d a).1 =
      match b with
      | none => SubinsertResult.inserted
      | some e =>
        if e.descriptor = d then SubinsertResult.replaced
        else SubinsertResult.ejected e := by
  cases b with
  | none => simp [insert, hb]
  | some e => by_cases he : e.descriptor = d <;> simp [insert, hb, he]

/-- If an entry is stored in a well-placed subtable, `get` on its key
returns its address. -/
lemma get_of_mem {st : TileHashSubtable} (hp : st.Placement)
    {i : Nat} {e : TileHashEntry}
    (hi : st.buckets[i]? = some (some e)) :
    st.get e.descriptor = some e.address := by
  have hidx := hp i e hi
  rw [get_eq_of_bucket (hidx ▸ hi)]
  simp

/-- Whatever `get` returns is stored at the key's bucket. -/
lemma mem_of_get {st : TileHashSubtable} {d a : Nat} (h : st.get d = some a) :
    st.buckets[st.bucketIndex d]? = some (some ⟨d, a⟩) := by
  cases hb : st.buckets[st.bucketIndex d]? with
  | none =>
    rw [get_eq_none_of_oob hb] at h
    exact Option.noConfusion h
  | some b =>
    rw [get_eq_of_bucket hb] at h
    cases b with
    | none => exact Option.noConfusion h
    | some e =>
      by_cases he : e.descriptor = d
      · simp only [he, if_pos] at h
        cases e
        simp_all
      · simp only [he, if_neg, ite_false] at h
        exact Option.noConfusion h

/-- `remove` when the key's bucket holds a matching entry. -/
lemma remove_of_match {st : TileHashSubtable} {d : Nat} {e : TileHashEntry}
    (hb : st.buckets[st.bucketIndex d]? = some (some e))
    (he : e.descriptor = d) :
    st.remove d =
      (some e.address, ⟨st.buckets.set (st.bucketIndex d) none, st.seed⟩) := by
  simp [remove, hb, he]

/-- `remove` when the key's bucket is empty. -/
lemma remove_of_empty {st : TileHashSubtable} {d : Nat}
    (hb : st.buckets[st.bucketIndex d]? = some none) :
    st.remove d = (none, st) := by
  simp [remove, hb]

/-- `remove` when the key's bucket holds a different key. -/
lemma remove_of_ne {st : TileHashSubtable} {d : Nat} {e : TileHashEntry}
    (hb : st.buckets[st.bucketIndex d]? = some (some e))
    (he : e.descriptor ≠ d) :
    st.remove d = (none, st) := by
  simp [remove, hb, he]

/-- `remove` when the bucket index is out of range (empty bucket vector). -/
lemma remove_of_oob {st : TileHashSubtable} {d : Nat}
    (hb : st.buckets[st.bucketIndex d]? = none) :
    st.remove d = (none, st) := by
  simp [remove, hb]

/-- Replacing a bucket changes neither the seed nor the length, so bucket
indices are unchanged. -/
lemma bucketIndex_mk_set (st : TileHashSubtable) (i : Nat)
    (b : Option TileHashEntry) (d : Nat) :
    (⟨st.buckets.set i b, st.seed⟩ : TileHashSubtable).bucketIndex d =
      st.bucketIndex d := by
  unfold bucketIndex
  simp [List.length_set]

/-- Placement is preserved by `insert`. -/
lemma placement_insert {st : TileHashSubtable} {d a : Nat}
    (hp : st.Placement) (h1 : 1 ≤ st.buckets.length) :
    (st.insert d a).2.Placement := by
  obtain ⟨b, hb⟩ := st.bucket_isSome d h1
  rw [insert_snd_of_bucket hb]
  intro j e' hj
  rw [bucketIndex_mk_set]
  by_cases hji : j = st.bucketIndex d
  · subst hji
    rw [List.getElem?_set_self', hb] at hj
    simp at hj
    rw [← hj]
  · rw [List.getElem?_set_ne (by omega)] at hj
    exact hp j e' hj

/-- Placement is preserved by `remove`. -/
lemma placement_remove {st : TileHashSubtable} {d : Nat}
    (hp : st.Placement) :
    (st.remove d).2.Placement := by
  cases hb : st.buckets[st.bucketIndex d]? with
  | none => rw [remove_of_oob hb]; exact hp
  | some b =>
    cases b with
    | none => rw [remove_of_empty hb]; exact hp
    | some e =>
      by_cases he : e.descriptor = d
      · rw [remove_of_match hb he]
        intro j e' hj
        rw [bucketIndex_mk_set]
        by_cases hji : j = st.bucketIndex d
        · subst hji
          rw [List.getElem?_set_self', hb] at hj
          simp at hj
        · rw [List.getElem?_set_ne (by omega)] at hj
          exact hp j e' hj
      · rw [remove_of_ne hb he]
        exact hp

/-- The entries of the subtable after an `insert`, as a decomposition around
the overwritten bucket, paired with the matching decomposition before. -/
lemma entriesList_insert {st : TileHashSubtable} {d a : Nat}
    {b : Option TileHashEntry}
    (hb : st.buckets[st.bucketIndex d]? = some b) :
    (st.insert d a).2.entriesList =
      (st.buckets.take (st.bucketIndex d)).filterMap id ++ [⟨d, a⟩] ++
        (st.buckets.drop (st.bucketIndex d + 1)).filterMap id ∧
    st.entriesList =
      (st.buckets.take (st.bucketIndex d)).filterMap id ++ b.toList ++
        (st.buckets.drop (st.bucketIndex d + 1)).filterMap id := by
  have hi : st.bucketIndex d < st.buckets.length := by
    by_contra hlt
    rw [List.getElem?_eq_none (by omega)] at hb
    exact Option.noConfusion hb
  constructor
  · rw [insert_snd_of_bucket hb]
    have := @filterMap_id_set _ st.buckets _ hi (some ⟨d, a⟩)
    simpa [entriesList] using this
  · exact filterMap_id_decomp hb

/-- The entries of the subtable after a successful `remove`. -/
lemma entriesList_remove {st : TileHashSubtable} {d : Nat}
    {e : TileHashEntry}
    (hb : st.buckets[st.bucketIndex d]? = some (some e))
    (he : e.descriptor = d) :
    (st.remove d).2.entriesList =
      (st.buckets.take (st.bucketIndex d)).filterMap id ++
        (st.buckets.drop (st.bucketIndex d + 1)).filterMap id ∧
    st.entriesList =
      (st.buckets.take (st.bucketIndex d)).filterMap id ++ [e] ++
        (st.buckets.drop (st.bucketIndex d + 1)).filterMap id := by
  have hi : st.bucketIndex d < st.buckets.length := by
    by_contra hlt
    rw [List.getElem?_eq_none (by omega)] at hb
    exact Option.noConfusion hb
  constructor
  · rw [remove_of_match hb he]
    have := @filterMap_id_set _ st.buckets _ hi none
    simpa [entriesList] using this
  · exact filterMap_id_decomp hb

end TileHashSubtable

namespace TileHashSubtable

/-- Full specification of a single subtable `insert`: sizes and seed are
unchanged, placement is preserved, every new entry is the inserted pair or an
old entry, no key disappears except into the ejected entry, and the entries
change by exactly the inserted pair minus whatever the result reports. -/
lemma insert_spec (st : TileHashSubtable) (d a : Nat)
    (h1 : 1 ≤ st.buckets.length) :
    (st.insert d a).2.buckets.length = st.buckets.length ∧
    (st.insert d a).2.seed = st.seed ∧
    (st.Placement → (st.insert d a).2.Placement) ∧
    (∀ x ∈ (st.insert d a).2.entriesList, x = ⟨d, a⟩ ∨ x ∈ st.entriesList) ∧
    (∀ k, ((∃ x ∈ st.entriesList, x.descriptor = k) ∨ k = d) →
      ((∃ x ∈ (st.insert d a).2.entriesList, x.descriptor = k) ∨
        (∃ e0, (st.insert d a).1 = .ejected e0 ∧ e0.descriptor = k))) ∧
    (match (st.insert d a).1 with
      | .inserted => (↑(st.insert d a).2.entriesList : Multiset TileHashEntry) =
          ↑st.entriesList + {(⟨d, a⟩ : TileHashEntry)}
      | .replaced => ∃ eOld, eOld ∈ st.entriesList ∧ eOld.descriptor = d ∧
          (↑(st.insert d a).2.entriesList : Multiset TileHashEntry) + {eOld} =
          ↑st.entriesList + {(⟨d, a⟩ : TileHashEntry)}
      | .ejected e0 => e0 ∈ st.entriesList ∧ e0.descriptor ≠ d ∧
          (↑(st.insert d a).2.entriesList : Multiset TileHashEntry) + {e0} =
          ↑st.entriesList + {(⟨d, a⟩ : TileHashEntry)}) := by
  obtain ⟨b, hb⟩ := st.bucket_isSome d h1
  obtain ⟨hset, hold⟩ := entriesList_insert (a := a) hb
  have hsnd := insert_snd_of_bucket (a := a) hb
  have hfst := insert_fst_of_bucket (a := a) hb
  have hmemnew : (⟨d, a⟩ : TileHashEntry) ∈ (st.insert d a).2.entriesList := by
    rw [hset]
    simp
  refine ⟨?_, ?_, ?_, ?_, ?_, ?_⟩
  · rw [hsnd]
    exact List.length_set _ _ _
  · rw [hsnd]
  · exact fun hp => placement_insert hp h1
  · intro x hx
    rw [hset] at hx
    rw [hold]
    simp only [List.mem_append] at hx ⊢
    rcases hx with (hx | hx) | hx
    · exact Or.inr (Or.inl (Or.inl hx))
    · simp at hx
      exact Or.inl hx
    · exact Or.inr (Or.inr hx)
  · intro k hk
    rcases hk with ⟨x, hx, hxk⟩ | hk
    · rw [hold] at hx
      simp only [List.mem_append] at hx
      rcases hx with (hx | hx) | hx
      · refine Or.inl ⟨x, ?_, hxk⟩
        rw [hset]
        simp only [List.mem_append]
        exact Or.inl (Or.inl hx)
      · cases b with
        | none => simp at hx
        | some e0 =>
          simp at hx
          subst hx
          by_cases he0 : x.descriptor = d
          · exact Or.inl ⟨⟨d, a⟩, hmemnew, by rw [← hxk, he0]⟩
          · refine Or.inr ⟨x, ?_, hxk⟩
            rw [insert_fst_of_bucket hb]
            simp [he0]
      · refine Or.inl ⟨x, ?_, hxk⟩
        rw [hset]
        simp only [List.mem_append]
        exact Or.inr hx
    · exact Or.inl ⟨⟨d, a⟩, hmemnew, hk.symm⟩
  · cases b with
    | none =>
      have hfst' : (st.insert d a).1 = .inserted := by simp [insert, hb]
      rw [hfst']
      show (↑(st.insert d a).2.entriesList : Multiset TileHashEntry) =
          ↑st.entriesList + {(⟨d, a⟩ : TileHashEntry)}
      rw [hset, hold]
      simp only [Option.toList_none, List.append_nil]
      rw [← Multiset.coe_add, ← Multiset.coe_add, ← Multiset.coe_add]
      simp only [Multiset.coe_singleton]
      abel
    | some e0 =>
      by_cases he0 : e0.descriptor = d
      · have hfst' : (st.insert d a).1 = .replaced := by simp [insert, hb, he0]
        rw [hfst']
        show ∃ eOld, eOld ∈ st.entriesList ∧ eOld.descriptor = d ∧
            (↑(st.insert d a).2.entriesList : Multiset TileHashEntry) + {eOld} =
            ↑st.entriesList + {(⟨d, a⟩ : TileHashEntry)}
        refine ⟨e0, ?_, he0, ?_⟩
        · rw [hold]
          simp
        · rw [hset, hold]
          simp only [Option.toList_some]
          rw [← Multiset.coe_add, ← Multiset.coe_add, ← Multiset.coe_add,
            ← Multiset.coe_add]
          simp only [Multiset.coe_singleton]
          abel
      · have hfst' : (st.insert d a).1 = .ejected e0 := by simp [insert, hb, he0]
        rw [hfst']
        show e0 ∈ st.entriesList ∧ e0.descriptor ≠ d ∧
            (↑(st.insert d a).2.entriesList : Multiset TileHashEntry) + {e0} =
            ↑st.entriesList + {(⟨d, a⟩ : TileHashEntry)}
        refine ⟨?_, he0, ?_⟩
        · rw [hold]
          simp
        · rw [hset, hold]
          simp only [Option.toList_some]
          rw [← Multiset.coe_add, ← Multiset.coe_add, ← Multiset.coe_add,
            ← Multiset.coe_add]
          simp only [Multiset.coe_singleton]
          abel

end TileHashSubtable

namespace TileHashTable

/-- Well-formedness of the cuckoo table: nonempty equal-sized subtables whose
entries all sit at their hash buckets. -/
structure WF (t : TileHashTable) : Prop where
  len0 : 1 ≤ t.sub0.buckets.length
  lenEq : t.sub1.buckets.length = t.sub0.buckets.length
  p0 : t.sub0.Placement
  p1 : t.sub1.Placement

/-- All stored keys are pairwise distinct (across both subtables). -/
def KeysNodup (t : TileHashTable) : Prop :=
  (t.entriesList.map TileHashEntry.descriptor).Nodup

lemma entriesList_eq (t : TileHashTable) :
    t.entriesList = t.sub0.entriesList ++ t.sub1.entriesList := rfl

lemma wf_len1 {t : TileHashTable} (h : t.WF) : 1 ≤ t.sub1.buckets.length := by
  have := h.lenEq
  have := h.len0
  omega

/-- Whatever `get` returns is stored in the table. -/
lemma get_mem {t : TileHashTable} {d a : Nat} (h : t.get d = some a) :
    (⟨d, a⟩ : TileHashEntry) ∈ t.entriesList := by
  rw [entriesList_eq, List.mem_append]
  unfold get at h
  cases h0 : t.sub0.get d with
  | some a0 =>
    rw [h0] at h
    have : a0 = a := Option.some.inj h
    subst this
    left
    exact TileHashSubtable.mem_entriesList.mpr
      ⟨_, TileHashSubtable.mem_of_get h0⟩
  | none =>
    rw [h0] at h
    right
    exact TileHashSubtable.mem_entriesList.mpr
      ⟨_, TileHashSubtable.mem_of_get h⟩

/-- In a well-placed table, every stored key is found by `get` (possibly at
the address of a duplicate of that key). -/
lemma get_isSome_of_mem {t : TileHashTable} (hwf : t.WF) {e : TileHashEntry}
    (he : e ∈ t.entriesList) :
    ∃ a, t.get e.descriptor = some a ∧
      (⟨e.descriptor, a⟩ : TileHashEntry) ∈ t.entriesList := by
  rw [entriesList_eq, List.mem_append] at he
  cases h0 : t.sub0.get e.descriptor with
  | some a0 =>
    exact ⟨a0, by unfold get; rw [h0], get_mem (by unfold get; rw [h0])⟩
  | none =>
    rcases he with he | he
    · obtain ⟨i, hi⟩ := TileHashSubtable.mem_entriesList.mp he
      have := TileHashSubtable.get_of_mem hwf.p0 hi
      rw [h0] at this
      exact Option.noConfusion this
    · obtain ⟨i, hi⟩ := TileHashSubtable.mem_entriesList.mp he
      have h1 := TileHashSubtable.get_of_mem hwf.p1 hi
      refine ⟨e.address, by unfold get; rw [h0]; exact h1, ?_⟩
      rw [entriesList_eq, List.mem_append]
      right
      have : (⟨e.descriptor, e.address⟩ : TileHashEntry) = e := by
        cases e; rfl
      rw [this]
      exact he

/-- In a well-placed table with pairwise distinct keys, membership determines
`get` exactly. -/
lemma get_eq_of_mem_nodup {t : TileHashTable} (hwf : t.WF) (hnd : t.KeysNodup)
    {d a : Nat} (he : (⟨d, a⟩ : TileHashEntry) ∈ t.entriesList) :
    t.get d = some a := by
  have hnd' : ((t.sub0.entriesList ++ t.sub1.entriesList).map
      TileHashEntry.descriptor).Nodup := by
    rw [← entriesList_eq]
    exact hnd
  rw [List.map_append] at hnd'
  have hdisj := (List.nodup_append.mp hnd').2.2
  rw [entriesList_eq, List.mem_append] at he
  rcases he with he | he
  · obtain ⟨i, hi⟩ := TileHashSubtable.mem_entriesList.mp he
    have h0 := TileHashSubtable.get_of_mem hwf.p0 hi
    unfold get
    rw [h0]
  · obtain ⟨i, hi⟩ := TileHashSubtable.mem_entriesList.mp he
    have h1 := TileHashSubtable.get_of_mem hwf.p1 hi
    have h0 : t.sub0.get d = none := by
      cases h0 : t.sub0.get d with
      | none => rfl
      | some a' =>
        have hmem0 := TileHashSubtable.mem_of_get h0
        have hin0 : (⟨d, a'⟩ : TileHashEntry) ∈ t.sub0.entriesList :=
          TileHashSubtable.mem_entriesList.mpr ⟨_, hmem0⟩
        exact absurd (hdisj
          (List.mem_map.mpr ⟨⟨d, a'⟩, hin0, rfl⟩)
          (List.mem_map.mpr ⟨⟨d, a⟩, he, rfl⟩)) not_false
    unfold get
    rw [h0]
    exact h1

/-- In a well-placed table, `get` misses exactly the keys not stored. -/
lemma get_eq_none_iff {t : TileHashTable} (hwf : t.WF) {d : Nat} :
    t.get d = none ↔ ∀ x ∈ t.entriesList, x.descriptor ≠ d := by
  constructor
  · intro h x hx hxd
    subst hxd
    obtain ⟨a, ha, _⟩ := get_isSome_of_mem hwf hx
    rw [h] at ha
    exact Option.noConfusion ha
  · intro h
    cases hg : t.get d with
    | none => rfl
    | some a => exact absurd rfl (h _ (get_mem hg))

end TileHashTable

/-- Key-nodup transfers along multiset equality of entry lists. -/
lemma keysNodup_of_multiset_eq {l l' : List TileHashEntry}
    (h : (↑l' : Multiset TileHashEntry) = ↑l)
    (hn : (l.map TileHashEntry.descriptor).Nodup) :
    (l'.map TileHashEntry.descriptor).Nodup :=
  (((Multiset.coe_eq_coe.mp h).map TileHashEntry.descriptor).nodup_iff).mpr hn

namespace TileHashTable

/-- Full specification of one displacement round: sizes, seeds and placement
are preserved, entries only move, no key is lost except into the homeless
entry, and — when all keys including the new one are distinct — the entries
change by exactly the new entry minus the reported homeless one. -/
lemma insertRound_spec {t : TileHashTable} {e : TileHashEntry}
    {res : TileHashInsertResult ⊕ TileHashEntry} {t' : TileHashTable}
    (hr : insertRound t e = (res, t'))
    (h0 : 1 ≤ t.sub0.buckets.length) (h1 : 1 ≤ t.sub1.buckets.length) :
    t'.sub0.buckets.length = t.sub0.buckets.length ∧
    t'.sub1.buckets.length = t.sub1.buckets.length ∧
    t'.sub0.seed = t.sub0.seed ∧
    t'.sub1.seed = t.sub1.seed ∧
    (t.sub0.Placement → t'.sub0.Placement) ∧
    (t.sub1.Placement → t'.sub1.Placement) ∧
    (∀ x ∈ t'.entriesList, x = e ∨ x ∈ t.entriesList) ∧
    (∀ e2, res = Sum.inr e2 → e2 = e ∨ e2 ∈ t.entriesList) ∧
    (∀ k, ((∃ x ∈ t.entriesList, x.descriptor = k) ∨ k = e.descriptor) →
      ((∃ x ∈ t'.entriesList, x.descriptor = k) ∨
        ∃ e2, res = Sum.inr e2 ∧ e2.descriptor = k)) ∧
    (((t.entriesList ++ [e]).map TileHashEntry.descriptor).Nodup →
      (match res with
        | Sum.inl r => r = .inserted ∧
            (↑t'.entriesList : Multiset TileHashEntry) = ↑t.entriesList + {e}
        | Sum.inr e2 =>
            (↑t'.entriesList : Multiset TileHashEntry) + {e2} =
              ↑t.entriesList + {e})) := by
  have heta : (⟨e.descriptor, e.address⟩ : TileHashEntry) = e := by cases e; rfl
  obtain ⟨hl0, hs0, hpl0, hsub0, hpres0, hacc0⟩ :=
    t.sub0.insert_spec e.descriptor e.address h0
  cases hi0 : t.sub0.insert e.descriptor e.address with
  | mk r0 s0' =>
  simp only [hi0] at hl0 hs0 hpl0 hsub0 hpres0 hacc0
  unfold insertRound at hr
  rw [hi0] at hr
  cases r0 with
  | inserted =>
    simp only at hr hacc0
    injection hr with hres ht'
    subst hres
    subst ht'
    refine ⟨hl0, rfl, hs0, rfl, hpl0, id, ?_, ?_, ?_, ?_⟩
    · intro x hx
      rw [entriesList_eq] at hx
      rw [entriesList_eq]
      simp only [List.mem_append] at hx ⊢
      rcases hx with hx | hx
      · rcases hsub0 x hx with h | h
        · exact Or.inl (heta ▸ h)
        · exact Or.inr (Or.inl h)
      · exact Or.inr (Or.inr hx)
    · intro e2 h2
      exact Sum.noConfusion h2
    · intro k hk
      have hlift : ((∃ x ∈ t.sub0.entriesList, x.descriptor = k) ∨
          k = e.descriptor) →
          (∃ x ∈ entriesList ⟨s0', t.sub1⟩, x.descriptor = k) ∨
            ∃ e2, (Sum.inl (α := TileHashInsertResult) .inserted :
              TileHashInsertResult ⊕ TileHashEntry) = Sum.inr e2 ∧
              e2.descriptor = k := by
        intro hin
        rcases hpres0 k hin with ⟨y, hy, hyk⟩ | ⟨e0, hfst, _⟩
        · exact Or.inl ⟨y, by
            rw [entriesList_eq]
            exact List.mem_append_left _ hy, hyk⟩
        · exact absurd hfst (by simp)
      rcases hk with ⟨x, hx, hxk⟩ | hk
      · rw [entriesList_eq, List.mem_append] at hx
        rcases hx with hx | hx
        · exact hlift (Or.inl ⟨x, hx, hxk⟩)
        · refine Or.inl ⟨x, ?_, hxk⟩
          rw [entriesList_eq]
          exact List.mem_append_right _ hx
      · exact hlift (Or.inr hk)
    · intro _
      refine ⟨rfl, ?_⟩
      show (↑(entriesList ⟨s0', t.sub1⟩) : Multiset TileHashEntry) =
        ↑t.entriesList + {e}
      rw [entriesList_eq, entriesList_eq]
      show (↑(s0'.entriesList ++ t.sub1.entriesList) :
        Multiset TileHashEntry) = _
      rw [← Multiset.coe_add, ← Multiset.coe_add, hacc0, heta]
      abel
  | replaced =>
    simp only at hr hacc0
    injection hr with hres ht'
    subst hres
    subst ht'
    refine ⟨hl0, rfl, hs0, rfl, hpl0, id, ?_, ?_, ?_, ?_⟩
    · intro x hx
      rw [entriesList_eq] at hx
      rw [entriesList_eq]
      simp only [List.mem_append] at hx ⊢
      rcases hx with hx | hx
      · rcases hsub0 x hx with h | h
        · exact Or.inl (heta ▸ h)
        · exact Or.inr (Or.inl h)
      · exact Or.inr (Or.inr hx)
    · intro e2 h2
      exact Sum.noConfusion h2
    · intro k hk
      have hlift : ((∃ x ∈ t.sub0.entriesList, x.descriptor = k) ∨
          k = e.descriptor) →
          (∃ x ∈ entriesList ⟨s0', t.sub1⟩, x.descriptor = k) ∨
            ∃ e2, (Sum.inl (α := TileHashInsertResult) .replaced :
              TileHashInsertResult ⊕ TileHashEntry) = Sum.inr e2 ∧
              e2.descriptor = k := by
        intro hin
        rcases hpres0 k hin with ⟨y, hy, hyk⟩ | ⟨e0, hfst, _⟩
        · exact Or.inl ⟨y, by
            rw [entriesList_eq]
            exact List.mem_append_left _ hy, hyk⟩
        · exact absurd hfst (by simp)
      rcases hk with ⟨x, hx, hxk⟩ | hk
      · rw [entriesList_eq, List.mem_append] at hx
        rcases hx with hx | hx
        · exact hlift (Or.inl ⟨x, hx, hxk⟩)
        · refine Or.inl ⟨x, ?_, hxk⟩
          rw [entriesList_eq]
          exact List.mem_append_right _ hx
      · exact hlift (Or.inr hk)
    · intro hnd
      exfalso
      obtain ⟨eOld, hmem, hdesc, _⟩ := hacc0
      rw [List.map_append] at hnd
      have hdisj := (List.nodup_append.mp hnd).2.2
      refine hdisj (List.mem_map.mpr ⟨eOld, ?_, hdesc⟩) (by simp)
      rw [entriesList_eq]
      exact List.mem_append_left _ hmem
  | ejected e1 =>
    simp only at hr hacc0
    obtain ⟨hmem1, hne1, hacc0eq⟩ := hacc0
    have heta1 : (⟨e1.descriptor, e1.address⟩ : TileHashEntry) = e1 := by
      cases e1; rfl
    obtain ⟨hl1, hs1, hpl1, hsub1, hpres1, hacc1⟩ :=
      t.sub1.insert_spec e1.descriptor e1.address h1
    cases hi1 : t.sub1.insert e1.descriptor e1.address with
    | mk r1 s1' =>
    simp only [hi1] at hl1 hs1 hpl1 hsub1 hpres1 hacc1 hr
    have hsubsetAll : ∀ x ∈ entriesList ⟨s0', s1'⟩, x = e ∨ x ∈ t.entriesList := by
      intro x hx
      rw [entriesList_eq] at hx
      rw [entriesList_eq]
      simp only [List.mem_append] at hx ⊢
      rcases hx with hx | hx
      · rcases hsub0 x hx with h | h
        · exact Or.inl (heta ▸ h)
        · exact Or.inr (Or.inl h)
      · rcases hsub1 x hx with h | h
        · rw [heta1] at h
          subst h
          exact Or.inr (Or.inl hmem1)
        · exact Or.inr (Or.inr h)
    have hpresAll : ∀ k,
        ((∃ x ∈ t.entriesList, x.descriptor = k) ∨ k = e.descriptor) →
        ((∃ x ∈ entriesList ⟨s0', s1'⟩, x.descriptor = k) ∨
          ∃ e2, r1 = .ejected e2 ∧ e2.descriptor = k) := by
      intro k hk
      have hfrom1 : ((∃ x ∈ t.sub1.entriesList, x.descriptor = k) ∨
          k = e1.descriptor) →
          (∃ x ∈ entriesList ⟨s0', s1'⟩, x.descriptor = k) ∨
            ∃ e2, r1 = .ejected e2 ∧ e2.descriptor = k := by
        intro hin
        rcases hpres1 k hin with ⟨y, hy, hyk⟩ | ⟨e2, hfst, he2k⟩
        · exact Or.inl ⟨y, by
            rw [entriesList_eq]
            exact List.mem_append_right _ hy, hyk⟩
        · exact Or.inr ⟨e2, hfst, he2k⟩
      have hfrom0 : ((∃ x ∈ t.sub0.entriesList, x.descriptor = k) ∨
          k = e.descriptor) →
          (∃ x ∈ entriesList ⟨s0', s1'⟩, x.descriptor = k) ∨
            ∃ e2, r1 = .ejected e2 ∧ e2.descriptor = k := by
        intro hin
        rcases hpres0 k hin with ⟨y, hy, hyk⟩ | ⟨e0, hfst, he0k⟩
        · exact Or.inl ⟨y, by
            rw [entriesList_eq]
            exact List.mem_append_left _ hy, hyk⟩
        · have : e0 = e1 := by
            have := TileHashSubtable.SubinsertResult.ejected.inj hfst
            exact this.symm
          subst this
          exact hfrom1 (Or.inr he0k.symm)
      rcases hk with ⟨x, hx, hxk⟩ | hk
      · rw [entriesList_eq, List.mem_append] at hx
        rcases hx with hx | hx
        · exact hfrom0 (Or.inl ⟨x, hx, hxk⟩)
        · exact hfrom1 (Or.inl ⟨x, hx, hxk⟩)
      · exact hfrom0 (Or.inr hk)
    cases r1 with
    | inserted =>
      simp only at hr hacc1
      injection hr with hres ht'
      subst hres
      subst ht'
      refine ⟨hl0, hl1, hs0, hs1, hpl0, hpl1, hsubsetAll, ?_, ?_, ?_⟩
      · intro e2 h2
        exact Sum.noConfusion h2
      · intro k hk
        rcases hpresAll k hk with h | ⟨e2, hfst, _⟩
        · exact Or.inl h
        · exact absurd hfst (by simp)
      · intro _
        refine ⟨rfl, ?_⟩
        show (↑(entriesList ⟨s0', s1'⟩) : Multiset TileHashEntry) =
          ↑t.entriesList + {e}
        rw [entriesList_eq, entriesList_eq]
        show (↑(s0'.entriesList ++ s1'.entriesList) :
          Multiset TileHashEntry) = _
        rw [← Multiset.coe_add, ← Multiset.coe_add, hacc1, heta1]
        calc (↑s0'.entriesList : Multiset TileHashEntry) +
            (↑t.sub1.entriesList + {e1}) =
            (↑s0'.entriesList + {e1}) + ↑t.sub1.entriesList := by abel
          _ = (↑t.sub0.entriesList +
              {(⟨e.descriptor, e.address⟩ : TileHashEntry)}) +
              ↑t.sub1.entriesList := by rw [hacc0eq]
          _ = ↑t.sub0.entriesList + ↑t.sub1.entriesList + {e} := by
              rw [heta]; abel
    | replaced =>
      simp only at hr hacc1
      injection hr with hres ht'
      subst hres
      subst ht'
      refine ⟨hl0, hl1, hs0, hs1, hpl0, hpl1, hsubsetAll, ?_, ?_, ?_⟩
      · intro e2 h2
        exact Sum.noConfusion h2
      · intro k hk
        rcases hpresAll k hk with h | ⟨e2, hfst, _⟩
        · exact Or.inl h
        · exact absurd hfst (by simp)
      · intro hnd
        exfalso
        obtain ⟨eOld, hmemOld, hdescOld, _⟩ := hacc1
        rw [List.map_append] at hnd
        have hnd2 := (List.nodup_append.mp hnd).1
        rw [entriesList_eq, List.map_append] at hnd2
        have hdisj := (List.nodup_append.mp hnd2).2.2
        exact hdisj (List.mem_map.mpr ⟨e1, hmem1, rfl⟩)
          (List.mem_map.mpr ⟨eOld, hmemOld, hdescOld⟩)
    | ejected e2 =>
      simp only at hr hacc1
      obtain ⟨hmem2, hne2, hacc1eq⟩ := hacc1
      injection hr with hres ht'
      subst hres
      subst ht'
      refine ⟨hl0, hl1, hs0, hs1, hpl0, hpl1, hsubsetAll, ?_, ?_, ?_⟩
      · intro e2' h2
        have : e2 = e2' := Sum.inr.inj h2
        subst this
        right
        rw [entriesList_eq]
        exact List.mem_append_right _ hmem2
      · intro k hk
        rcases hpresAll k hk with h | ⟨e2', hfst, he2k⟩
        · exact Or.inl h
        · have : e2' = e2 :=
            (TileHashSubtable.SubinsertResult.ejected.inj hfst).symm
          subst this
          exact Or.inr ⟨e2', rfl, he2k⟩
      · intro _
        show (↑(entriesList ⟨s0', s1'⟩) : Multiset TileHashEntry) + {e2} =
          ↑t.entriesList + {e}
        rw [entriesList_eq, entriesList_eq]
        show (↑(s0'.entriesList ++ s1'.entriesList) :
          Multiset TileHashEntry) + {e2} = _
        rw [← Multiset.coe_add, ← Multiset.coe_add]
        calc (↑s0'.entriesList : Multiset TileHashEntry) +
            ↑s1'.entriesList + {e2} =
            ↑s0'.entriesList + (↑s1'.entriesList + {e2}) := by abel
          _ = ↑s0'.entriesList + (↑t.sub1.entriesList +
              {(⟨e1.descriptor, e1.address⟩ : TileHashEntry)}) := by
              rw [hacc1eq]
          _ = (↑s0'.entriesList + {e1}) + ↑t.sub1.entriesList := by
              rw [heta1]; abel
          _ = (↑t.sub0.entriesList +
              {(⟨e.descriptor, e.address⟩ : TileHashEntry)}) +
              ↑t.sub1.entriesList := by rw [hacc0eq]
          _ = ↑t.sub0.entriesList + ↑t.sub1.entriesList + {e} := by
              rw [heta]; abel

end TileHashTable

namespace TileHashTable

/-- The displacement-loop specification, lifted to any number of rounds by
induction. -/
lemma insertRounds_spec {n : Nat} {t : TileHashTable} {e : TileHashEntry}
    {res : TileHashInsertResult ⊕ TileHashEntry} {t' : TileHashTable}
    (hr : insertRounds n t e = (res, t'))
    (h0 : 1 ≤ t.sub0.buckets.length) (h1 : 1 ≤ t.sub1.buckets.length) :
    t'.sub0.buckets.length = t.sub0.buckets.length ∧
    t'.sub1.buckets.length = t.sub1.buckets.length ∧
    t'.sub0.seed = t.sub0.seed ∧
    t'.sub1.seed = t.sub1.seed ∧
    (t.sub0.Placement → t'.sub0.Placement) ∧
    (t.sub1.Placement → t'.sub1.Placement) ∧
    (∀ x ∈ t'.entriesList, x = e ∨ x ∈ t.entriesList) ∧
    (∀ e2, res = Sum.inr e2 → e2 = e ∨ e2 ∈ t.entriesList) ∧
    (∀ k, ((∃ x ∈ t.entriesList, x.descriptor = k) ∨ k = e.descriptor) →
      ((∃ x ∈ t'.entriesList, x.descriptor = k) ∨
        ∃ e2, res = Sum.inr e2 ∧ e2.descriptor = k)) ∧
    (((t.entriesList ++ [e]).map TileHashEntry.descriptor).Nodup →
      (match res with
        | Sum.inl r => r = .inserted ∧
            (↑t'.entriesList : Multiset TileHashEntry) = ↑t.entriesList + {e}
        | Sum.inr e2 =>
            (↑t'.entriesList : Multiset TileHashEntry) + {e2} =
              ↑t.entriesList + {e})) := by
  induction n generalizing t e with
  | zero =>
    unfold insertRounds at hr
    injection hr with hres ht'
    subst hres
    subst ht'
    refine ⟨rfl, rfl, rfl, rfl, id, id, ?_, ?_, ?_, ?_⟩
    · exact fun x hx => Or.inr hx
    · intro e2 h2
      exact Or.inl (Sum.inr.inj h2).symm
    · intro k hk
      rcases hk with ⟨x, hx, hxk⟩ | hk
      · exact Or.inl ⟨x, hx, hxk⟩
      · exact Or.inr ⟨e, rfl, hk.symm⟩
    · intro _
      rfl
  | succ n ih =>
    unfold insertRounds at hr
    cases hr0 : insertRound t e with
    | mk r01 t1 =>
    rw [hr0] at hr
    obtain ⟨L0a, L0b, S0a, S0b, P0a, P0b, SUB0, INR0, PRES0, ND0⟩ :=
      insertRound_spec hr0 h0 h1
    cases r01 with
    | inl r =>
      simp only at hr
      injection hr with hres ht'
      subst hres
      subst ht'
      exact ⟨L0a, L0b, S0a, S0b, P0a, P0b, SUB0, fun e2 h2 => Sum.noConfusion h2,
        fun k hk => (PRES0 k hk).elim Or.inl
          (fun ⟨e2, h2, _⟩ => Sum.noConfusion h2), ND0⟩
    | inr e' =>
      simp only at hr
      obtain ⟨L1a, L1b, S1a, S1b, P1a, P1b, SUB1, INR1, PRES1, ND1⟩ :=
        ih hr (by omega) (by omega)
      refine ⟨by omega, by omega, by rw [S1a, S0a], by rw [S1b, S0b],
        fun h => P1a (P0a h), fun h => P1b (P0b h), ?_, ?_, ?_, ?_⟩
      · intro x hx
        rcases SUB1 x hx with h | h
        · subst h
          exact INR0 x rfl
        · exact SUB0 x h
      · intro e2 h2
        rcases INR1 e2 h2 with h | h
        · subst h
          exact INR0 e2 rfl
        · exact SUB0 e2 h
      · intro k hk
        rcases PRES0 k hk with h | ⟨e2, h2, he2k⟩
        · exact PRES1 k (Or.inl h)
        · have he2 : e' = e2 := Sum.inr.inj h2
          subst he2
          exact PRES1 k (Or.inr he2k.symm)
      · intro hnd
        have hstep := ND0 hnd
        simp only at hstep
        have hndeq : (↑(t1.entriesList ++ [e']) : Multiset TileHashEntry) =
            ↑(t.entriesList ++ [e]) := by
          rw [← Multiset.coe_add, ← Multiset.coe_add]
          simp only [Multiset.coe_singleton]
          exact hstep
        have hnd1 : ((t1.entriesList ++ [e']).map
            TileHashEntry.descriptor).Nodup :=
          keysNodup_of_multiset_eq hndeq hnd
        have hrest := ND1 hnd1
        cases res with
        | inl r =>
          simp only at hrest ⊢
          refine ⟨hrest.1, ?_⟩
          rw [hrest.2]
          have : (↑t1.entriesList : Multiset TileHashEntry) + {e'} =
              ↑t.entriesList + {e} := hstep
          calc (↑t1.entriesList : Multiset TileHashEntry) + {e'} =
              ↑t.entriesList + {e} := this
        | inr e2 =>
          simp only at hrest ⊢
          calc (↑t'.entriesList : Multiset TileHashEntry) + {e2} =
              ↑t1.entriesList + {e'} := hrest
            _ = ↑t.entriesList + {e} := hstep

end TileHashTable

namespace TileHashSubtable

lemma new_length (seed n : Nat) : (new seed n).buckets.length = n := by
  simp [new]

lemma new_entriesList (seed n : Nat) : (new seed n).entriesList = [] := by
  unfold new entriesList
  induction n with
  | zero => rfl
  | succ n ih =>
    rw [List.replicate_succ, List.filterMap_cons]
    exact ih

lemma new_placement (seed n : Nat) : (new seed n).Placement := by
  intro i e hi
  unfold new at hi
  rcases lt_or_le i n with h | h
  · rw [List.getElem?_eq_getElem (by simpa using h)] at hi
    have := Option.some.inj hi
    rw [List.getElem_replicate] at this
    exact Option.noConfusion this
  · rw [List.getElem?_eq_none (by simpa using h)] at hi
    exact Option.noConfusion hi

end TileHashSubtable

namespace TileHashTable

lemma withSeeds_entriesList (s0 s1 n : Nat) :
    (withSeeds s0 s1 n).entriesList = [] := by
  rw [entriesList_eq]
  unfold withSeeds
  simp [TileHashSubtable.new_entriesList]

/-- The behaviour needed of a (fuelled) insert function to push the table
invariants through `rebuild`'s re-insertion loop. -/
def InsGoSpec
    (ins : Nat → TileHashTable → Nat → Nat →
      Option (TileHashInsertResult × TileHashTable × Nat)) : Prop :=
  ∀ c t d a r t' c', ins c t d a = some (r, t', c') →
    1 ≤ t.sub0.buckets.length →
    t.sub1.buckets.length = t.sub0.buckets.length →
    (t'.sub1.buckets.length = t'.sub0.buckets.length ∧
     t.sub0.buckets.length ≤ t'.sub0.buckets.length ∧
     (t.sub0.Placement → t.sub1.Placement →
       t'.sub0.Placement ∧ t'.sub1.Placement) ∧
     (t.sub0.seed < U32 → t.sub1.seed < U32 →
       t'.sub0.seed < U32 ∧ t'.sub1.seed < U32) ∧
     (∀ x ∈ t'.entriesList, x = ⟨d, a⟩ ∨ x ∈ t.entriesList) ∧
     (∀ k, ((∃ x ∈ t.entriesList, x.descriptor = k) ∨ k = d) →
       ∃ x ∈ t'.entriesList, x.descriptor = k) ∧
     (((t.entriesList ++ [(⟨d, a⟩ : TileHashEntry)]).map
         TileHashEntry.descriptor).Nodup →
       (↑t'.entriesList : Multiset TileHashEntry) =
         ↑t.entriesList + {(⟨d, a⟩ : TileHashEntry)}))

/-- `reinsertList` inherits the insert specification, entry by entry. -/
lemma reinsertList_spec
    {ins : Nat → TileHashTable → Nat → Nat →
      Option (TileHashInsertResult × TileHashTable × Nat)}
    (hins : InsGoSpec ins) :
    ∀ (l : List TileHashEntry) (c : Nat) (t t' : TileHashTable) (c' : Nat),
    reinsertList ins c t l = some (t', c') →
    1 ≤ t.sub0.buckets.length →
    t.sub1.buckets.length = t.sub0.buckets.length →
    (t'.sub1.buckets.length = t'.sub0.buckets.length ∧
     t.sub0.buckets.length ≤ t'.sub0.buckets.length ∧
     (t.sub0.Placement → t.sub1.Placement →
       t'.sub0.Placement ∧ t'.sub1.Placement) ∧
     (t.sub0.seed < U32 → t.sub1.seed < U32 →
       t'.sub0.seed < U32 ∧ t'.sub1.seed < U32) ∧
     (∀ x ∈ t'.entriesList, x ∈ l ∨ x ∈ t.entriesList) ∧
     (∀ k, ((∃ x ∈ t.entriesList, x.descriptor = k) ∨
        (∃ x ∈ l, x.descriptor = k)) →
       ∃ x ∈ t'.entriesList, x.descriptor = k) ∧
     (((t.entriesList ++ l).map TileHashEntry.descriptor).Nodup →
       (↑t'.entriesList : Multiset TileHashEntry) =
         ↑t.entriesList + ↑l)) := by
  intro l
  induction l with
  | nil =>
    intro c t t' c' hr hlen1 hlenEq
    unfold reinsertList at hr
    injection hr with hpair
    injection hpair with ht' hc'
    subst ht'
    refine ⟨hlenEq, le_refl _, fun a b => ⟨a, b⟩, fun a b => ⟨a, b⟩,
      fun x hx => Or.inr hx, ?_, ?_⟩
    · intro k hk
      rcases hk with hk | ⟨x, hx, _⟩
      · exact hk
      · exact absurd hx (List.not_mem_nil x)
    · intro _
      simp
  | cons e rest ih =>
    intro c t t' c' hr hlen1 hlenEq
    unfold reinsertList at hr
    cases hstep : ins c t e.descriptor e.address with
    | none => rw [hstep] at hr; exact Option.noConfusion hr
    | some rtc =>
      obtain ⟨r1, t1, c1⟩ := rtc
      rw [hstep] at hr
      simp only at hr
      have heta : (⟨e.descriptor, e.address⟩ : TileHashEntry) = e := by
        cases e; rfl
      obtain ⟨hE1, hM1, hP1, hS1, hSub1, hPres1, hAcc1⟩ :=
        hins c t e.descriptor e.address r1 t1 c1 hstep hlen1 hlenEq
      obtain ⟨hE2, hM2, hP2, hS2, hSub2, hPres2, hAcc2⟩ :=
        ih c1 t1 t' c' hr (by omega) hE1
      refine ⟨hE2, by omega, ?_, ?_, ?_, ?_, ?_⟩
      · intro hp0 hp1
        obtain ⟨hq0, hq1⟩ := hP1 hp0 hp1
        exact hP2 hq0 hq1
      · intro hs0 hs1
        obtain ⟨hq0, hq1⟩ := hS1 hs0 hs1
        exact hS2 hq0 hq1
      · intro x hx
        rcases hSub2 x hx with h | h
        · exact Or.inl (List.mem_cons_of_mem _ h)
        · rcases hSub1 x h with h' | h'
          · rw [heta] at h'
            exact Or.inl (h' ▸ List.mem_cons_self _ _)
          · exact Or.inr h'
      · intro k hk
        have hk1 : (∃ x ∈ t1.entriesList, x.descriptor = k) ∨
            (∃ x ∈ rest, x.descriptor = k) := by
          rcases hk with hk | ⟨x, hx, hxk⟩
          · exact Or.inl (hPres1 k (Or.inl hk))
          · rcases List.mem_cons.mp hx with h | h
            · subst h
              exact Or.inl (hPres1 k (Or.inr hxk.symm))
            · exact Or.inr ⟨x, h, hxk⟩
        exact hPres2 k hk1
      · intro hnd
        have hnd1 : ((t.entriesList ++
            [(⟨e.descriptor, e.address⟩ : TileHashEntry)]).map
            TileHashEntry.descriptor).Nodup := by
          rw [heta]
          rw [List.map_append] at hnd ⊢
          rw [List.nodup_append] at hnd ⊢
          refine ⟨hnd.1, ?_, ?_⟩
          · simp
          · intro x hx1 hx2
            have hx2' : x = e.descriptor := by simpa using hx2
            refine hnd.2.2 hx1 ?_
            rw [hx2']
            exact List.mem_map.mpr ⟨e, List.mem_cons_self _ _, rfl⟩
        have heq1 := hAcc1 hnd1
        have hndtrans : ((t1.entriesList ++ rest).map
            TileHashEntry.descriptor).Nodup := by
          have hmeq : (↑(t1.entriesList ++ rest) : Multiset TileHashEntry) =
              ↑(t.entriesList ++ (e :: rest)) := by
            rw [← Multiset.coe_add, ← Multiset.coe_add, heq1, heta]
            rw [show ((e :: rest : List TileHashEntry) : Multiset TileHashEntry)
              = {e} + ↑rest by simp]
            abel
          exact keysNodup_of_multiset_eq hmeq hnd
        have heq2 := hAcc2 hndtrans
        rw [heq2, heq1, heta]
        rw [show ((e :: rest : List TileHashEntry) : Multiset TileHashEntry)
          = {e} + ↑rest by simp]
        abel

end TileHashTable

namespace TileHashTable

/-- Common part of `insertGo_spec`: the displacement loop succeeded without a
rebuild. -/
lemma insertGo_spec_rounds {t tr : TileHashTable} {d a : Nat} {r0}
    (hrg : insertRounds (maxChain t.sub0.buckets.length) t ⟨d, a⟩ =
      (Sum.inl r0, tr))
    (hlen1 : 1 ≤ t.sub0.buckets.length)
    (hlenEq : t.sub1.buckets.length = t.sub0.buckets.length) :
    (tr.sub1.buckets.length = tr.sub0.buckets.length ∧
     t.sub0.buckets.length ≤ tr.sub0.buckets.length ∧
     (t.sub0.Placement → t.sub1.Placement →
       tr.sub0.Placement ∧ tr.sub1.Placement) ∧
     (t.sub0.seed < U32 → t.sub1.seed < U32 →
       tr.sub0.seed < U32 ∧ tr.sub1.seed < U32) ∧
     (∀ x ∈ tr.entriesList, x = ⟨d, a⟩ ∨ x ∈ t.entriesList) ∧
     (∀ k, ((∃ x ∈ t.entriesList, x.descriptor = k) ∨ k = d) →
       ∃ x ∈ tr.entriesList, x.descriptor = k) ∧
     (((t.entriesList ++ [(⟨d, a⟩ : TileHashEntry)]).map
         TileHashEntry.descriptor).Nodup →
       (↑tr.entriesList : Multiset TileHashEntry) =
         ↑t.entriesList + {(⟨d, a⟩ : TileHashEntry)})) := by
  obtain ⟨La, Lb, Sa, Sb, Pa, Pb, SUB, INR, PRES, ND⟩ :=
    insertRounds_spec hrg hlen1 (by omega)
  refine ⟨by omega, by omega, fun h0 h1 => ⟨Pa h0, Pb h1⟩,
    fun h0 h1 => ⟨by rw [Sa]; exact h0, by rw [Sb]; exact h1⟩, SUB, ?_, ?_⟩
  · intro k hk
    rcases PRES k hk with h | ⟨e2, h2, _⟩
    · exact h
    · exact Sum.noConfusion h2
  · intro hnd
    exact (ND hnd).2

/-- The fuelled `TileHashTable::insert` satisfies the insert specification:
structure is preserved, entries only move, no key is lost, and with pairwise
distinct keys the contents grow by exactly the inserted pair. -/
lemma insertGo_spec {σ : Nat → Nat} (hσ : ∀ i, σ i < U32) :
    ∀ fuel, InsGoSpec (insertGo σ fuel) := by
  intro fuel
  induction fuel with
  | zero =>
    intro c t d a r t' c' hg hlen1 hlenEq
    unfold insertGo at hg
    cases hrg : insertRounds (maxChain t.sub0.buckets.length) t ⟨d, a⟩ with
    | mk rr tr =>
    rw [hrg] at hg
    cases rr with
    | inl r0 =>
      simp only at hg
      injection hg with htrip
      injection htrip with hr0 hrest
      injection hrest with ht' hc'
      subst hr0
      subst ht'
      exact insertGo_spec_rounds hrg hlen1 hlenEq
    | inr e' =>
      simp only at hg
      exact Option.noConfusion hg
  | succ fuel ih =>
    intro c t d a r t' c' hg hlen1 hlenEq
    unfold insertGo at hg
    cases hrg : insertRounds (maxChain t.sub0.buckets.length) t ⟨d, a⟩ with
    | mk rr tr =>
    rw [hrg] at hg
    cases rr with
    | inl r0 =>
      simp only at hg
      injection hg with htrip
      injection htrip with hr0 hrest
      injection hrest with ht' hc'
      subst hr0
      subst ht'
      exact insertGo_spec_rounds hrg hlen1 hlenEq
    | inr e' =>
      simp only at hg
      cases hre : reinsertList (insertGo σ fuel) (c + 2)
          (new σ c (2 * t.sub0.buckets.length)) tr.entriesList with
      | none =>
        rw [hre] at hg
        exact Option.noConfusion hg
      | some tc2 =>
        obtain ⟨t2, c2⟩ := tc2
        rw [hre] at hg
        simp only at hg
        obtain ⟨La, Lb, Sa, Sb, Pa, Pb, SUBr, INRr, PRESr, NDr⟩ :=
          insertRounds_spec hrg hlen1 (by omega)
        have heta' : (⟨e'.descriptor, e'.address⟩ : TileHashEntry) = e' := by
          cases e'; rfl
        have hF0 : (new σ c (2 * t.sub0.buckets.length)).sub0.buckets.length =
            2 * t.sub0.buckets.length := TileHashSubtable.new_length _ _
        have hF1 : (new σ c (2 * t.sub0.buckets.length)).sub1.buckets.length =
            2 * t.sub0.buckets.length := TileHashSubtable.new_length _ _
        have hFE : (new σ c (2 * t.sub0.buckets.length)).entriesList = [] :=
          withSeeds_entriesList _ _ _
        obtain ⟨LE2, M2, P2, S2, SUB2, PRES2, ACC2⟩ :=
          reinsertList_spec ih tr.entriesList (c + 2) _ t2 c2 hre
            (by omega) (by omega)
        obtain ⟨LE3, M3, P3, S3, SUB3, PRES3, ACC3⟩ :=
          ih c2 t2 e'.descriptor e'.address r t' c' hg (by omega) LE2
        have hP2' := P2 (TileHashSubtable.new_placement _ _)
          (TileHashSubtable.new_placement _ _)
        have hS2' := S2 (hσ c) (hσ (c + 1))
        refine ⟨LE3, by omega, fun _ _ => P3 hP2'.1 hP2'.2,
          fun _ _ => S3 hS2'.1 hS2'.2, ?_, ?_, ?_⟩
        · intro x hx
          rcases SUB3 x hx with h | h
          · rw [heta'] at h
            subst h
            rcases INRr x rfl with h' | h'
            · exact Or.inl h'
            · exact Or.inr h'
          · rcases SUB2 x h with h' | h'
            · rcases SUBr x h' with h'' | h''
              · exact Or.inl h''
              · exact Or.inr h''
            · rw [hFE] at h'
              exact absurd h' (List.not_mem_nil x)
        · intro k hk
          rcases PRESr k hk with ⟨x, hx, hxk⟩ | ⟨e2, h2, he2k⟩
          · have h2 : ∃ x ∈ t2.entriesList, x.descriptor = k :=
              PRES2 k (Or.inr ⟨x, hx, hxk⟩)
            exact PRES3 k (Or.inl h2)
          · have he' : e2 = e' := Sum.inr.inj h2.symm
            subst he'
            exact PRES3 k (Or.inr he2k.symm)
        · intro hnd
          have hstep := NDr hnd
          simp only at hstep
          have hndeq : (↑(tr.entriesList ++ [e']) : Multiset TileHashEntry) =
              ↑(t.entriesList ++ [(⟨d, a⟩ : TileHashEntry)]) := by
            rw [← Multiset.coe_add, ← Multiset.coe_add]
            simp only [Multiset.coe_singleton]
            exact hstep
          have hndtr : ((tr.entriesList ++ [e']).map
              TileHashEntry.descriptor).Nodup :=
            keysNodup_of_multiset_eq hndeq hnd
          have hndtr' : (tr.entriesList.map TileHashEntry.descriptor).Nodup := by
            rw [List.map_append, List.nodup_append] at hndtr
            exact hndtr.1
          have hACC2' := ACC2 (by rw [hFE]; simpa using hndtr')
          rw [hFE] at hACC2'
          have ht2tr : (↑t2.entriesList : Multiset TileHashEntry) =
              ↑tr.entriesList := by
            rw [hACC2']
            simp
          have hnd2 : ((t2.entriesList ++
              [(⟨e'.descriptor, e'.address⟩ : TileHashEntry)]).map
              TileHashEntry.descriptor).Nodup := by
            rw [heta']
            refine keysNodup_of_multiset_eq ?_ hndtr
            rw [← Multiset.coe_add, ← Multiset.coe_add, ht2tr]
          have hACC3' := ACC3 hnd2
          rw [hACC3', ht2tr, heta']
          calc (↑tr.entriesList : Multiset TileHashEntry) + {e'} =
              ↑t.entriesList + {(⟨d, a⟩ : TileHashEntry)} := hstep

end TileHashTable

lemma bitLen_eq_of_ge : ∀ (f n : Nat), 2 ^ f ≤ n → bitLen f n = f := by
  intro f
  induction f with
  | zero => intro n _; rfl
  | succ f ih =>
    intro n hn
    have hnz : ¬n = 0 := by
      have : 0 < 2 ^ (f + 1) := Nat.pos_pow_of_pos _ (by norm_num)
      omega
    unfold bitLen
    rw [if_neg hnz, ih (n / 2) ?_]
    have h2 : 2 ^ (f + 1) = 2 * 2 ^ f := by ring
    rw [h2] at hn
    omega

namespace TileHashTable

lemma maxChain_big {n : Nat} (h : U32 ≤ n) : 1 ≤ maxChain n := by
  unfold maxChain leadingZeros32
  rw [bitLen_eq_of_ge 32 n (by
    rw [show (2 : Nat) ^ 32 = U32 from rfl]
    exact h)]
  omega

/-- When at least `2^32` buckets are available, the very first probe of the
displacement loop succeeds: bucket indices are the hashes themselves and the
hash is injective, so the key's bucket is either free or holds the key. -/
lemma insertRound_big {t : TileHashTable} {e : TileHashEntry}
    (hbig : U32 ≤ t.sub0.buckets.length)
    (hp0 : t.sub0.Placement) (hs0 : t.sub0.seed < U32)
    (hkb : ∀ x ∈ t.entriesList, x.descriptor < U32)
    (hd : e.descriptor < U32) :
    ∃ r0 tr, insertRound t e = (Sum.inl r0, tr) := by
  have hlen1 : 1 ≤ t.sub0.buckets.length := by unfold U32 at hbig; omega
  have hh : TileDescriptor.hash e.descriptor t.sub0.seed < U32 := hash_lt hs0
  obtain ⟨b, hb⟩ := t.sub0.bucket_isSome e.descriptor hlen1
  cases b with
  | none =>
    cases hins : t.sub0.insert e.descriptor e.address with
    | mk r0 s0' =>
      have hfst := TileHashSubtable.insert_fst_of_bucket (a := e.address) hb
      rw [hins] at hfst
      simp only at hfst
      subst hfst
      exact ⟨.inserted, ⟨s0', t.sub1⟩, by simp [insertRound, hins]⟩
  | some e0 =>
    have hmem0 : e0 ∈ t.entriesList := by
      rw [entriesList_eq]
      exact List.mem_append_left _
        (TileHashSubtable.mem_entriesList.mpr ⟨_, hb⟩)
    have hkb0 : e0.descriptor < U32 := hkb e0 hmem0
    have hh0 : TileDescriptor.hash e0.descriptor t.sub0.seed < U32 :=
      hash_lt hs0
    have hidx := hp0 _ e0 hb
    have hmod : ∀ k, TileDescriptor.hash k t.sub0.seed < U32 →
        t.sub0.bucketIndex k = TileDescriptor.hash k t.sub0.seed := by
      intro k hk
      unfold TileHashSubtable.bucketIndex
      exact Nat.mod_eq_of_lt (lt_of_lt_of_le hk hbig)
    rw [hmod _ hh0, hmod _ hh] at hidx
    have he0d : e0.descriptor = e.descriptor := hash_inj hkb0 hd hidx
    cases hins : t.sub0.insert e.descriptor e.address with
    | mk r0 s0' =>
      have hfst := TileHashSubtable.insert_fst_of_bucket (a := e.address) hb
      rw [hins] at hfst
      simp only [he0d, if_pos] at hfst
      subst hfst
      exact ⟨.replaced, ⟨s0', t.sub1⟩, by simp [insertRound, hins]⟩

/-- As a consequence, at size `≥ 2^32` the whole bounded displacement loop
reports success. -/
lemma insertRounds_big {t : TileHashTable} {e : TileHashEntry}
    (hbig : U32 ≤ t.sub0.buckets.length)
    (hp0 : t.sub0.Placement) (hs0 : t.sub0.seed < U32)
    (hkb : ∀ x ∈ t.entriesList, x.descriptor < U32)
    (hd : e.descriptor < U32) :
    ∃ r0 tr, insertRounds (maxChain t.sub0.buckets.length) t e =
      (Sum.inl r0, tr) := by
  obtain ⟨m, hm⟩ : ∃ m, maxChain t.sub0.buckets.length = m + 1 := by
    have := maxChain_big hbig
    exact ⟨maxChain t.sub0.buckets.length - 1, by omega⟩
  obtain ⟨r0, tr, hround⟩ := insertRound_big hbig hp0 hs0 hkb hd
  rw [hm]
  refine ⟨r0, tr, ?_⟩
  unfold insertRounds
  rw [hround]

end TileHashTable

namespace TileHashTable

/-- Totality of the re-insertion loop, given totality of the insert function
at the current fuel. -/
lemma reinsertList_total {σ : Nat → Nat} (hσ : ∀ i, σ i < U32) (fuel : Nat)
    (htot : ∀ c t d a,
      t.sub0.Placement → t.sub1.Placement →
      t.sub1.buckets.length = t.sub0.buckets.length →
      1 ≤ t.sub0.buckets.length →
      t.sub0.seed < U32 → t.sub1.seed < U32 →
      (∀ x ∈ t.entriesList, x.descriptor < U32) → d < U32 →
      U32 ≤ 2 ^ fuel * t.sub0.buckets.length →
      (insertGo σ fuel c t d a).isSome) :
    ∀ (l : List TileHashEntry) (c : Nat) (t : TileHashTable),
      t.sub0.Placement → t.sub1.Placement →
      t.sub1.buckets.length = t.sub0.buckets.length →
      1 ≤ t.sub0.buckets.length →
      t.sub0.seed < U32 → t.sub1.seed < U32 →
      (∀ x ∈ t.entriesList, x.descriptor < U32) →
      (∀ x ∈ l, x.descriptor < U32) →
      U32 ≤ 2 ^ fuel * t.sub0.buckets.length →
      (reinsertList (insertGo σ fuel) c t l).isSome := by
  intro l
  induction l with
  | nil =>
    intros
    simp [reinsertList]
  | cons e rest ih =>
    intro c t hp0 hp1 hlenEq hlen1 hs0 hs1 hkb hkl hthr
    have hstep := htot c t e.descriptor e.address hp0 hp1 hlenEq hlen1 hs0 hs1
      hkb (hkl e (List.mem_cons_self _ _)) hthr
    unfold reinsertList
    cases hins : insertGo σ fuel c t e.descriptor e.address with
    | none =>
      rw [hins] at hstep
      simp at hstep
    | some rtc =>
      obtain ⟨r1, t1, c1⟩ := rtc
      obtain ⟨LE1, M1, P1, S1, SUB1, PRES1, _⟩ :=
        insertGo_spec hσ fuel c t e.descriptor e.address r1 t1 c1 hins hlen1
          hlenEq
      have hp' := P1 hp0 hp1
      have hs' := S1 hs0 hs1
      have hkb1 : ∀ x ∈ t1.entriesList, x.descriptor < U32 := by
        intro x hx
        rcases SUB1 x hx with h | h
        · subst h
          exact hkl e (List.mem_cons_self _ _)
        · exact hkb x h
      have hrest := ih c1 t1 hp'.1 hp'.2 LE1 (by omega) hs'.1 hs'.2 hkb1
        (fun x hx => hkl x (List.mem_cons_of_mem _ hx))
        (le_trans hthr (Nat.mul_le_mul_left _ M1))
      simpa using hrest

/-- **Termination of `insert`**: from any well-formed table, fuel
`34 ≥ 33 - log2 n` rebuild levels always suffice, because each rebuild
doubles the bucket count and once it reaches `2^32` the first probe always
succeeds. -/
lemma insertGo_total {σ : Nat → Nat} (hσ : ∀ i, σ i < U32) :
    ∀ (fuel c : Nat) (t : TileHashTable) (d a : Nat),
      t.sub0.Placement → t.sub1.Placement →
      t.sub1.buckets.length = t.sub0.buckets.length →
      1 ≤ t.sub0.buckets.length →
      t.sub0.seed < U32 → t.sub1.seed < U32 →
      (∀ x ∈ t.entriesList, x.descriptor < U32) → d < U32 →
      U32 ≤ 2 ^ fuel * t.sub0.buckets.length →
      (insertGo σ fuel c t d a).isSome := by
  intro fuel
  induction fuel with
  | zero =>
    intro c t d a hp0 hp1 hlenEq hlen1 hs0 hs1 hkb hd hthr
    rw [pow_zero, one_mul] at hthr
    obtain ⟨r0, tr, hr⟩ := insertRounds_big (e := ⟨d, a⟩) hthr hp0 hs0 hkb hd
    unfold insertGo
    rw [hr]
    rfl
  | succ fuel ih =>
    intro c t d a hp0 hp1 hlenEq hlen1 hs0 hs1 hkb hd hthr
    unfold insertGo
    cases hrg : insertRounds (maxChain t.sub0.buckets.length) t ⟨d, a⟩ with
    | mk rr tr =>
    cases rr with
    | inl r0 => simp
    | inr e' =>
      obtain ⟨La, Lb, Sa, Sb, Pa, Pb, SUBr, INRr, PRESr, NDr⟩ :=
        insertRounds_spec hrg hlen1 (by omega)
      have hkbtr : ∀ x ∈ tr.entriesList, x.descriptor < U32 := by
        intro x hx
        rcases SUBr x hx with h | h
        · subst h
          exact hd
        · exact hkb x h
      have hkbe' : e'.descriptor < U32 := by
        rcases INRr e' rfl with h | h
        · rw [h]
          exact hd
        · exact hkb e' h
      have hF0 : (new σ c (2 * t.sub0.buckets.length)).sub0.buckets.length =
          2 * t.sub0.buckets.length := TileHashSubtable.new_length _ _
      have hF1 : (new σ c (2 * t.sub0.buckets.length)).sub1.buckets.length =
          2 * t.sub0.buckets.length := TileHashSubtable.new_length _ _
      have hFE : (new σ c (2 * t.sub0.buckets.length)).entriesList = [] :=
        withSeeds_entriesList _ _ _
      have hthr' : U32 ≤ 2 ^ fuel *
          (new σ c (2 * t.sub0.buckets.length)).sub0.buckets.length := by
        rw [hF0]
        calc U32 ≤ 2 ^ (fuel + 1) * t.sub0.buckets.length := hthr
          _ = 2 ^ fuel * (2 * t.sub0.buckets.length) := by ring
      have hrein := reinsertList_total hσ fuel ih tr.entriesList (c + 2)
        (new σ c (2 * t.sub0.buckets.length))
        (TileHashSubtable.new_placement _ _)
        (TileHashSubtable.new_placement _ _)
        (by rw [hF0, hF1]) (by omega) (hσ c) (hσ (c + 1))
        (by rw [hFE]; intro x hx; exact absurd hx (List.not_mem_nil x))
        hkbtr hthr'
      cases hre : reinsertList (insertGo σ fuel) (c + 2)
          (new σ c (2 * t.sub0.buckets.length)) tr.entriesList with
      | none =>
        rw [hre] at hrein
        simp at hrein
      | some tc2 =>
        obtain ⟨t2, c2⟩ := tc2
        obtain ⟨LE2, M2, P2, S2, SUB2, PRES2, ACC2⟩ :=
          reinsertList_spec (insertGo_spec hσ fuel) tr.entriesList (c + 2) _
            t2 c2 hre (by omega) (by rw [hF0, hF1])
        have hp2 := P2 (TileHashSubtable.new_placement _ _)
          (TileHashSubtable.new_placement _ _)
        have hs2 := S2 (hσ c) (hσ (c + 1))
        have hkb2 : ∀ x ∈ t2.entriesList, x.descriptor < U32 := by
          intro x hx
          rcases SUB2 x hx with h | h
          · exact hkbtr x h
          · rw [hFE] at h
            exact absurd h (List.not_mem_nil x)
        have hfin := ih c2 t2 e'.descriptor e'.address hp2.1 hp2.2 LE2
          (by rw [hF0] at M2; omega) hs2.1 hs2.2 hkb2 hkbe'
          (by
            rw [hF0] at M2
            calc U32 ≤ 2 ^ fuel * (2 * t.sub0.buckets.length) := by
                  calc U32 ≤ 2 ^ (fuel + 1) * t.sub0.buckets.length := hthr
                    _ = 2 ^ fuel * (2 * t.sub0.buckets.length) := by ring
              _ ≤ 2 ^ fuel * t2.sub0.buckets.length :=
                  Nat.mul_le_mul_left _ M2)
        simp only [hre]
        simpa using hfin

end TileHashTable

lemma bitLen_le : ∀ (f n : Nat), bitLen f n ≤ f := by
  intro f
  induction f with
  | zero => intro n; simp [bitLen]
  | succ f ih =>
    intro n
    unfold bitLen
    by_cases h : n = 0
    · simp [h]
    · rw [if_neg h]
      have := ih (n / 2)
      omega

lemma bitLen_eq_log2 : ∀ (f n : Nat), 1 ≤ n → n < 2 ^ f →
    bitLen f n = Nat.log2 n + 1 := by
  intro f
  induction f with
  | zero =>
    intro n h1 h2
    omega
  | succ f ih =>
    intro n h1 h2
    unfold bitLen
    rw [if_neg (by omega)]
    rcases lt_or_le n 2 with hn | hn
    · have hn1 : n = 1 := by omega
      subst hn1
      rw [show (1 : Nat) / 2 = 0 from rfl]
      rw [show ∀ g, bitLen g 0 = 0 from fun g => by cases g <;> rfl]
      rw [Nat.log2]
      simp
    · have hd1 : 1 ≤ n / 2 := by omega
      have hd2 : n / 2 < 2 ^ f := by
        rw [show (2 : Nat) ^ (f + 1) = 2 * 2 ^ f by ring] at h2
        omega
      have hlog : Nat.log2 n = Nat.log2 (n / 2) + 1 := by
        conv_lhs => rw [Nat.log2]
        simp [hn]
      rw [ih (n / 2) hd1 hd2, hlog]

namespace TileHashTable

/-- For bucket counts in `u32` range, `31 - leading_zeros` is `⌊log2 n⌋`. -/
lemma maxChain_eq_log2 {n : Nat} (h1 : 1 ≤ n) (h2 : n < U32) :
    maxChain n = Nat.log2 n := by
  unfold maxChain leadingZeros32
  rw [bitLen_eq_log2 32 n h1 (by
    rw [show (2 : Nat) ^ 32 = U32 from rfl]
    exact h2)]
  have := bitLen_le 32 n
  have h3 : bitLen 32 n = Nat.log2 n + 1 := bitLen_eq_log2 32 n h1 (by
    rw [show (2 : Nat) ^ 32 = U32 from rfl]
    exact h2)
  omega

end TileHashTable

/-- **C8** (insert displacement bound and termination): every call to
`TileHashTable::insert` on a well-formed table terminates — fuel 34 rebuild
levels always suffice, because each rebuild strictly doubles the bucket count
and once it reaches `2^32` the first probe of the displacement loop always
succeeds — and the displacement loop itself runs at most
`31 - leading_zeros(n) = ⌊log2 n⌋` full rounds over the two subtables before
giving up and rebuilding at `2·n`. -/
theorem c8_insert_terminates (σ : Nat → Nat) (c : Nat) (t : TileHashTable)
    (d a : Nat) (hσ : ∀ i, σ i < U32)
    (hp0 : t.sub0.Placement) (hp1 : t.sub1.Placement)
    (hlenEq : t.sub1.buckets.length = t.sub0.buckets.length)
    (hlen1 : 1 ≤ t.sub0.buckets.length)
    (hlenU : t.sub0.buckets.length < U32)
    (hs0 : t.sub0.seed < U32) (hs1 : t.sub1.seed < U32)
    (hkb : ∀ x ∈ t.entriesList, x.descriptor < U32) (hd : d < U32) :
    (TileHashTable.insert σ c t d a).isSome ∧
      TileHashTable.maxChain t.sub0.buckets.length =
        Nat.log2 t.sub0.buckets.length := by
  constructor
  · apply TileHashTable.insertGo_total hσ 34 c t d a hp0 hp1 hlenEq hlen1 hs0
      hs1 hkb hd
    calc U32 = 2 ^ 32 * 1 := by norm_num [U32]
      _ ≤ 2 ^ 34 * t.sub0.buckets.length := by
          apply Nat.mul_le_mul
          · norm_num
          · exact hlen1
  · exact TileHashTable.maxChain_eq_log2 hlen1 hlenU

/-- Witness for C8 on a fresh table with two buckets per subtable, zero
seeds, and the zero seed oracle. -/
theorem c8_insert_terminates_witness :
    (TileHashTable.insert (fun _ => 0) 0 (TileHashTable.withSeeds 0 0 2)
      5 7).isSome ∧
      TileHashTable.maxChain
        (TileHashTable.withSeeds 0 0 2).sub0.buckets.length =
        Nat.log2 (TileHashTable.withSeeds 0 0 2).sub0.buckets.length := by
  apply c8_insert_terminates
  · intro i
    norm_num [U32]
  · exact TileHashSubtable.new_placement _ _
  · exact TileHashSubtable.new_placement _ _
  · rfl
  · norm_num [TileHashTable.withSeeds, TileHashSubtable.new]
  · norm_num [TileHashTable.withSeeds, TileHashSubtable.new, U32]
  · norm_num [TileHashTable.withSeeds, TileHashSubtable.new, U32]
  · norm_num [TileHashTable.withSeeds, TileHashSubtable.new, U32]
  · rw [TileHashTable.withSeeds_entriesList]
    intro x hx
    exact absurd hx (List.not_mem_nil x)
  · norm_num [U32]

namespace TileHashTable

/-- Invariant carried along a sequence of inserts: the table is well formed
and its contents are bracketed by the processed pairs — every stored pair was
inserted at some point, and every inserted key is still stored. -/
def SeqInv (t : TileHashTable) (processed : List (Nat × Nat)) : Prop :=
  t.sub0.Placement ∧ t.sub1.Placement ∧
  t.sub1.buckets.length = t.sub0.buckets.length ∧
  1 ≤ t.sub0.buckets.length ∧
  t.sub0.seed < U32 ∧ t.sub1.seed < U32 ∧
  (∀ x ∈ t.entriesList, x.descriptor < U32) ∧
  (∀ x ∈ t.entriesList, (x.descriptor, x.address) ∈ processed) ∧
  (∀ p ∈ processed, ∃ x ∈ t.entriesList, x.descriptor = p.1)

lemma insertSeq_go {σ : Nat → Nat} (hσ : ∀ i, σ i < U32) :
    ∀ (ops : List (Nat × Nat)) (t : TileHashTable) (c : Nat)
      (processed : List (Nat × Nat)),
    SeqInv t processed → (∀ p ∈ ops, p.1 < U32) →
    ∃ t' c',
      ops.foldl
        (fun acc p => acc.bind fun tc =>
          (insert σ tc.2 tc.1 p.1 p.2).map fun rtc => (rtc.2.1, rtc.2.2))
        (some (t, c)) = some (t', c') ∧
      SeqInv t' (processed ++ ops) := by
  intro ops
  induction ops with
  | nil =>
    intro t c processed hinv _
    exact ⟨t, c, rfl, by simpa using hinv⟩
  | cons p rest ih =>
    intro t c processed hinv hkeys
    obtain ⟨hp0, hp1, hlenEq, hlen1, hs0, hs1, hkb, hpairs, hpres⟩ := hinv
    have hd : p.1 < U32 := hkeys p (List.mem_cons_self _ _)
    have htot := insertGo_total hσ 34 c t p.1 p.2 hp0 hp1 hlenEq hlen1 hs0 hs1
      hkb hd (by
        calc U32 = 2 ^ 32 * 1 := by norm_num [U32]
          _ ≤ 2 ^ 34 * t.sub0.buckets.length := by
              apply Nat.mul_le_mul
              · norm_num
              · exact hlen1)
    cases hins : insert σ c t p.1 p.2 with
    | none =>
      rw [show insert σ c t p.1 p.2 = insertGo σ 34 c t p.1 p.2 from rfl]
        at hins
      rw [hins] at htot
      simp at htot
    | some rtc =>
      obtain ⟨r1, t1, c1⟩ := rtc
      obtain ⟨LE1, M1, P1, S1, SUB1, PRES1, _⟩ :=
        insertGo_spec hσ 34 c t p.1 p.2 r1 t1 c1 hins hlen1 hlenEq
      have hinv1 : SeqInv t1 (processed ++ [p]) := by
        refine ⟨(P1 hp0 hp1).1, (P1 hp0 hp1).2, LE1, by omega,
          (S1 hs0 hs1).1, (S1 hs0 hs1).2, ?_, ?_, ?_⟩
        · intro x hx
          rcases SUB1 x hx with h | h
          · subst h
            exact hd
          · exact hkb x h
        · intro x hx
          rcases SUB1 x hx with h | h
          · subst h
            simp
          · exact List.mem_append_left _ (hpairs x h)
        · intro q hq
          rcases List.mem_append.mp hq with hq | hq
          · obtain ⟨x, hx, hxk⟩ := hpres q hq
            exact PRES1 q.1 (Or.inl ⟨x, hx, hxk⟩)
          · rw [List.mem_singleton.mp hq]
            exact PRES1 p.1 (Or.inr rfl)
      obtain ⟨t', c', hfold, hinv'⟩ := ih t1 c1 (processed ++ [p]) hinv1
        (fun q hq => hkeys q (List.mem_cons_of_mem _ hq))
      refine ⟨t', c', ?_, ?_⟩
      · rw [List.foldl_cons]
        rw [show ((some (t, c)).bind fun tc =>
            (insert σ tc.2 tc.1 p.1 p.2).map fun rtc => (rtc.2.1, rtc.2.2)) =
            some (t1, c1) by
          show (insert σ c t p.1 p.2).map (fun rtc => (rtc.2.1, rtc.2.2)) =
            some (t1, c1)
          rw [hins]
          rfl]
        exact hfold
      · simpa using hinv'

end TileHashTable

/-- **C1 counterexample**: with seeds `(0, 0)`, a zero rebuild-seed oracle and
initial bucket count `2 = 2^1`, the sequence
`insert(0, 10); insert(2, 20); insert(0, 30)` (two distinct keys `≤ 2`)
ends with `get(0) = Some(10)`: the address of the *first* insert of key `0`,
not the most recent one (`30`).  The displacement loop homeless entry
`(0, 10)` is re-inserted after the rebuild (texture.rs:313) and overwrites
the fresher pair. -/
theorem c1_directory_round_trip_counterexample :
    (2 : Nat) = 2 ^ 1 ∧
    (([(0, 10), (2, 20), (0, 30)] : List (Nat × Nat)).map
      Prod.fst).dedup.length ≤ 2 ∧
    (TileHashTable.insertSeq (fun _ => 0) 0 0 2
      [(0, 10), (2, 20), (0, 30)]).map (fun tc => tc.1.get 0) =
      some (some 10) ∧
    (10 : Nat) ≠ 30 := by decide

/-- **C1 amended** (directory round-trip under growth): for every
`TileHashTable` built with any pair of 32-bit seeds, any zero-oracle-free
32-bit rebuild seed stream, and any power-of-two initial bucket count `≥ 2`,
and for any sequence of `insert(k_i, a_i)` calls with at most
`initial bucket count` distinct 32-bit keys, the whole sequence completes,
and afterwards `get(k)` returns `Some(a)` where `(k, a)` is one of the
inserts with key `k` — automatic rehash-and-grow loses no entry — and
`get(k')` returns `None` for every key `k'` never inserted.  (The claim's
stronger "`a` is the address of the *most recent* insert with key `k`" is
refuted by `c1_directory_round_trip_counterexample`.) -/
theorem c1_directory_round_trip_amended (σ : Nat → Nat) (s0 s1 n0 : Nat)
    (ops : List (Nat × Nat)) (hσ : ∀ i, σ i < U32)
    (hs0 : s0 < U32) (hs1 : s1 < U32)
    (hn0 : 2 ≤ n0) (hpow : ∃ j, n0 = 2 ^ j)
    (hkeys : ∀ p ∈ ops, p.1 < U32)
    (_hdist : ((ops.map Prod.fst).dedup.length ≤ n0)) :
    ∃ t c, TileHashTable.insertSeq σ s0 s1 n0 ops = some (t, c) ∧
      (∀ k a, t.get k = some a → (k, a) ∈ ops) ∧
      (∀ k a, (k, a) ∈ ops → (t.get k).isSome) ∧
      (∀ k, (∀ a, (k, a) ∉ ops) → t.get k = none) := by
  have hinv0 : TileHashTable.SeqInv (TileHashTable.withSeeds s0 s1 n0) [] := by
    refine ⟨TileHashSubtable.new_placement _ _,
      TileHashSubtable.new_placement _ _, ?_, ?_, hs0, hs1, ?_, ?_, ?_⟩
    · rw [show (TileHashTable.withSeeds s0 s1 n0).sub1.buckets.length = n0
        from TileHashSubtable.new_length _ _]
      rw [show (TileHashTable.withSeeds s0 s1 n0).sub0.buckets.length = n0
        from TileHashSubtable.new_length _ _]
    · rw [show (TileHashTable.withSeeds s0 s1 n0).sub0.buckets.length = n0
        from TileHashSubtable.new_length _ _]
      omega
    · rw [TileHashTable.withSeeds_entriesList]
      intro x hx
      exact absurd hx (List.not_mem_nil x)
    · rw [TileHashTable.withSeeds_entriesList]
      intro x hx
      exact absurd hx (List.not_mem_nil x)
    · intro p hp
      exact absurd hp (List.not_mem_nil p)
  obtain ⟨t, c, hfold, hinv⟩ := TileHashTable.insertSeq_go hσ ops
    (TileHashTable.withSeeds s0 s1 n0) 0 [] hinv0 hkeys
  obtain ⟨hp0, hp1, hlenEq, hlen1, hs0', hs1', hkb, hpairs, hpres⟩ := hinv
  have hwf : t.WF := ⟨hlen1, hlenEq, hp0, hp1⟩
  refine ⟨t, c, ?_, ?_, ?_, ?_⟩
  · exact hfold
  · intro k a hget
    have := hpairs _ (TileHashTable.get_mem hget)
    simpa using this
  · intro k a hka
    obtain ⟨x, hx, hxk⟩ := hpres (k, a) (by simpa using hka)
    have := TileHashTable.get_isSome_of_mem hwf hx
    rw [hxk] at this
    obtain ⟨a', ha', _⟩ := this
    rw [ha']
    rfl
  · intro k hnot
    rw [TileHashTable.get_eq_none_iff hwf]
    intro x hx hxk
    have := hpairs x hx
    rw [hxk] at this
    exact hnot x.address (by simpa using this)

/-- **C7 counterexample**: two refutations of "the second insert wins".
With seeds `(0,0)` and bucket count 2, after `insert(0,10); insert(2,20)`
the key `0` is present with stored address `10 ≠ 30`, and `insert(0, 30)`
returns `Replaced` — but `get(0)` afterwards returns the *stale* `10`, not
`30` (the rebuild re-inserts the displaced homeless entry, texture.rs:313).
And with bucket count 4, after `insert(0,10); insert(6,20); remove(6)` the
key `0` is still present, yet `insert(0, 30)` returns `Inserted`, not
`Replaced` (key 0 sits in subtable B while its subtable-A bucket is free, so
it ends up stored twice). -/
theorem c7_insert_tie_break_counterexample :
    ((TileHashTable.insertSeq (fun _ => 0) 0 0 2 [(0, 10), (2, 20)]).bind
      (fun tc => (TileHashTable.insert (fun _ => 0) tc.2 tc.1 0 30).map
        (fun rtc => (tc.1.get 0, rtc.1, rtc.2.1.get 0)))) =
      some (some 10, TileHashInsertResult.replaced, some 10) ∧
    (30 : Nat) ≠ 10 ∧
    ((TileHashTable.insertSeq (fun _ => 0) 0 0 4 [(0, 10), (6, 20)]).bind
      (fun tc =>
        (TileHashTable.insert (fun _ => 0) tc.2 (tc.1.remove 6).2 0 30).map
        (fun rtc => ((tc.1.remove 6).2.get 0, rtc.1, rtc.2.1.get 0)))) =
      some (some 10, TileHashInsertResult.inserted, some 30) ∧
    TileHashInsertResult.inserted ≠ TileHashInsertResult.replaced := by
  decide

/-- **C7 amended** (insert tie-break): for every table state reached by a
sequence of inserts in which key `k` is already present, calling
`insert(k, a2)` completes (returning `Inserted` or `Replaced`), and a
subsequent `get(k)` returns `Some(a')` where `a'` is `a2` or the address of
some earlier insert with key `k` — the key always stays present, but the
second insert does not always win, and the result is not always
`Replaced`. -/
theorem c7_insert_tie_break_amended (σ : Nat → Nat) (s0 s1 n0 : Nat)
    (ops : List (Nat × Nat)) (k a2 : Nat) (hσ : ∀ i, σ i < U32)
    (hs0 : s0 < U32) (hs1 : s1 < U32) (hn0 : 2 ≤ n0)
    (hkeys : ∀ p ∈ ops, p.1 < U32)
    (hpresent : ∃ a1, (k, a1) ∈ ops) :
    ∃ t c, TileHashTable.insertSeq σ s0 s1 n0 ops = some (t, c) ∧
      ∃ r t' c', TileHashTable.insert σ c t k a2 = some (r, t', c') ∧
        ∃ a', t'.get k = some a' ∧ ((k, a') ∈ ops ∨ a' = a2) := by
  obtain ⟨a1, ha1⟩ := hpresent
  have hk : k < U32 := hkeys (k, a1) ha1
  have hinv0 : TileHashTable.SeqInv (TileHashTable.withSeeds s0 s1 n0) [] := by
    refine ⟨TileHashSubtable.new_placement _ _,
      TileHashSubtable.new_placement _ _, ?_, ?_, hs0, hs1, ?_, ?_, ?_⟩
    · rw [show (TileHashTable.withSeeds s0 s1 n0).sub1.buckets.length = n0
        from TileHashSubtable.new_length _ _]
      rw [show (TileHashTable.withSeeds s0 s1 n0).sub0.buckets.length = n0
        from TileHashSubtable.new_length _ _]
    · rw [show (TileHashTable.withSeeds s0 s1 n0).sub0.buckets.length = n0
        from TileHashSubtable.new_length _ _]
      omega
    · rw [TileHashTable.withSeeds_entriesList]
      intro x hx
      exact absurd hx (List.not_mem_nil x)
    · rw [TileHashTable.withSeeds_entriesList]
      intro x hx
      exact absurd hx (List.not_mem_nil x)
    · intro p hp
      exact absurd hp (List.not_mem_nil p)
  obtain ⟨t, c, hfold, hinv⟩ := TileHashTable.insertSeq_go hσ ops
    (TileHashTable.withSeeds s0 s1 n0) 0 [] hinv0 hkeys
  obtain ⟨hp0, hp1, hlenEq, hlen1, hs0', hs1', hkb, hpairs, hpres⟩ := hinv
  have htot := TileHashTable.insertGo_total hσ 34 c t k a2 hp0 hp1 hlenEq
    hlen1 hs0' hs1' hkb hk (by
      calc U32 = 2 ^ 32 * 1 := by norm_num [U32]
        _ ≤ 2 ^ 34 * t.sub0.buckets.length := by
            apply Nat.mul_le_mul
            · norm_num
            · exact hlen1)
  refine ⟨t, c, by simpa using hfold, ?_⟩
  cases hins : TileHashTable.insert σ c t k a2 with
  | none =>
    rw [show TileHashTable.insert σ c t k a2 =
      TileHashTable.insertGo σ 34 c t k a2 from rfl] at hins
    rw [hins] at htot
    simp at htot
  | some rtc =>
    obtain ⟨r1, t1, c1⟩ := rtc
    obtain ⟨LE1, M1, P1, S1, SUB1, PRES1, _⟩ :=
      TileHashTable.insertGo_spec hσ 34 c t k a2 r1 t1 c1 hins hlen1 hlenEq
    have hwf1 : t1.WF := ⟨by omega, LE1, (P1 hp0 hp1).1, (P1 hp0 hp1).2⟩
    obtain ⟨x, hx, hxk⟩ := PRES1 k (Or.inl (by
      obtain ⟨x, hx, hxk⟩ := hpres (k, a1) (by simpa using ha1)
      exact ⟨x, hx, hxk⟩))
    have hsome := TileHashTable.get_isSome_of_mem hwf1 hx
    rw [hxk] at hsome
    obtain ⟨a', hget, hmem⟩ := hsome
    refine ⟨r1, t1, c1, rfl, a', hget, ?_⟩
    rcases SUB1 _ hmem with h | h
    · right
      have := congrArg TileHashEntry.address h
      simpa using this
    · left
      have := hpairs _ h
      simpa using this

/-- Witness for the amended C1 at a concrete one-insert sequence. -/
theorem c1_directory_round_trip_amended_witness :
    ∃ t c, TileHashTable.insertSeq (fun _ => 0) 0 0 2 [(0, 10)] =
        some (t, c) ∧
      (∀ k a, t.get k = some a → (k, a) ∈ [((0 : Nat), (10 : Nat))]) ∧
      (∀ k a, (k, a) ∈ [((0 : Nat), (10 : Nat))] → (t.get k).isSome) ∧
      (∀ k, (∀ a, (k, a) ∉ [((0 : Nat), (10 : Nat))]) → t.get k = none) :=
  c1_directory_round_trip_amended (fun _ => 0) 0 0 2 [(0, 10)]
    (fun _ => by norm_num [U32]) (by norm_num [U32]) (by norm_num [U32])
    (by norm_num) ⟨1, by norm_num⟩ (by decide) (by decide)

/-- Witness for the amended C7 at a concrete one-insert sequence. -/
theorem c7_insert_tie_break_amended_witness :
    ∃ t c, TileHashTable.insertSeq (fun _ => 0) 0 0 2 [(0, 10)] =
        some (t, c) ∧
      ∃ r t' c', TileHashTable.insert (fun _ => 0) c t 0 30 =
          some (r, t', c') ∧
        ∃ a', t'.get 0 = some a' ∧
          (((0 : Nat), a') ∈ [((0 : Nat), (10 : Nat))] ∨ a' = 30) :=
  c7_insert_tie_break_amended (fun _ => 0) 0 0 2 [(0, 10)] 0 30
    (fun _ => by norm_num [U32]) (by norm_num [U32]) (by norm_num [U32])
    (by norm_num) (by decide) ⟨10, by decide⟩

namespace TileHashTable

/-- `get` agrees on two well-formed nodup tables that store the same pairs
for a key. -/
lemma get_congr_of_mem_iff {t t' : TileHashTable} (hwf : t.WF) (hwf' : t'.WF)
    (hnd : t.KeysNodup) (hnd' : t'.KeysNodup) {k : Nat}
    (hmem : ∀ a, (⟨k, a⟩ : TileHashEntry) ∈ t'.entriesList ↔
      (⟨k, a⟩ : TileHashEntry) ∈ t.entriesList) :
    t'.get k = t.get k := by
  cases hg : t.get k with
  | some a =>
    exact get_eq_of_mem_nodup hwf' hnd' ((hmem a).mpr (get_mem hg))
  | none =>
    cases hg' : t'.get k with
    | none => rfl
    | some a' =>
      have hm := (hmem a').mp (get_mem hg')
      have := get_eq_of_mem_nodup hwf hnd hm
      rw [hg] at this
      exact Option.noConfusion this

/-- Fresh-key insert on a well-formed nodup table: it succeeds, preserves
well-formedness and key distinctness, maps the new key to the new address,
and leaves every other key's lookup unchanged. -/
lemma insert_fresh {σ : Nat → Nat} {c : Nat} {t : TileHashTable} {d a : Nat}
    (hσ : ∀ i, σ i < U32) (hwf : t.WF) (hnd : t.KeysNodup)
    (hkb : ∀ x ∈ t.entriesList, x.descriptor < U32)
    (hsb0 : t.sub0.seed < U32) (hsb1 : t.sub1.seed < U32)
    (hget : t.get d = none) (hd : d < U32) :
    ∃ r t' c', insert σ c t d a = some (r, t', c') ∧
      t'.WF ∧ t'.KeysNodup ∧
      (∀ x ∈ t'.entriesList, x.descriptor < U32) ∧
      t'.sub0.seed < U32 ∧ t'.sub1.seed < U32 ∧
      (↑t'.entriesList : Multiset TileHashEntry) =
        ↑t.entriesList + {(⟨d, a⟩ : TileHashEntry)} ∧
      t'.get d = some a ∧
      (∀ k, k ≠ d → t'.get k = t.get k) := by
  have htot := insertGo_total hσ 34 c t d a hwf.p0 hwf.p1 hwf.lenEq hwf.len0
    hsb0 hsb1 hkb hd (by
      calc U32 = 2 ^ 32 * 1 := by norm_num [U32]
        _ ≤ 2 ^ 34 * t.sub0.buckets.length := by
            apply Nat.mul_le_mul
            · norm_num
            · exact hwf.len0)
  cases hins : insert σ c t d a with
  | none =>
    rw [show insert σ c t d a = insertGo σ 34 c t d a from rfl] at hins
    rw [hins] at htot
    simp at htot
  | some rtc =>
    obtain ⟨r1, t1, c1⟩ := rtc
    obtain ⟨LE1, M1, P1, S1, SUB1, PRES1, ACC1⟩ :=
      insertGo_spec hσ 34 c t d a r1 t1 c1 hins hwf.len0 hwf.lenEq
    have hfreshnd : ((t.entriesList ++ [(⟨d, a⟩ : TileHashEntry)]).map
        TileHashEntry.descriptor).Nodup := by
      rw [List.map_append, List.nodup_append]
      refine ⟨hnd, by simp, ?_⟩
      intro y hy hy2
      have hyd : y = d := by simpa using hy2
      subst hyd
      obtain ⟨x, hx, hxd⟩ := List.mem_map.mp hy
      exact absurd hxd ((get_eq_none_iff hwf).mp hget x hx)
    have hacc := ACC1 hfreshnd
    have hwf1 : t1.WF := ⟨by
        have := hwf.len0
        omega, LE1, (P1 hwf.p0 hwf.p1).1, (P1 hwf.p0 hwf.p1).2⟩
    have hnd1 : t1.KeysNodup := by
      unfold KeysNodup
      refine keysNodup_of_multiset_eq (l := t.entriesList ++
        [(⟨d, a⟩ : TileHashEntry)]) ?_ ?_
      · rw [← Multiset.coe_add]
        simpa using hacc
      · rw [List.map_append, List.nodup_append]
        refine ⟨hnd, by simp, ?_⟩
        intro y hy hy2
        have hyd : y = d := by simpa using hy2
        subst hyd
        obtain ⟨x, hx, hxd⟩ := List.mem_map.mp hy
        exact absurd hxd ((get_eq_none_iff hwf).mp hget x hx)
    have hmemnew : (⟨d, a⟩ : TileHashEntry) ∈ t1.entriesList := by
      have : (⟨d, a⟩ : TileHashEntry) ∈ (↑t1.entriesList :
          Multiset TileHashEntry) := by
        rw [hacc]
        simp
      exact Multiset.mem_coe.mp this
    refine ⟨r1, t1, c1, rfl, hwf1, hnd1, ?_, (S1 hsb0 hsb1).1, (S1 hsb0 hsb1).2,
      hacc, get_eq_of_mem_nodup hwf1 hnd1 hmemnew, ?_⟩
    · intro x hx
      rcases SUB1 x hx with h | h
      · subst h
        exact hd
      · exact hkb x h
    · intro k hk
      refine get_congr_of_mem_iff hwf hwf1 hnd hnd1 ?_
      intro a'
      constructor
      · intro hm
        have : (⟨k, a'⟩ : TileHashEntry) ∈ (↑t1.entriesList :
            Multiset TileHashEntry) := Multiset.mem_coe.mpr hm
        rw [hacc] at this
        rcases Multiset.mem_add.mp this with h | h
        · exact Multiset.mem_coe.mp h
        · have : (⟨k, a'⟩ : TileHashEntry) = ⟨d, a⟩ :=
            Multiset.mem_singleton.mp h
          exact absurd (congrArg TileHashEntry.descriptor this) (by simpa using hk)
      · intro hm
        have : (⟨k, a'⟩ : TileHashEntry) ∈ (↑t1.entriesList :
            Multiset TileHashEntry) := by
          rw [hacc]
          exact Multiset.mem_add.mpr (Or.inl (Multiset.mem_coe.mpr hm))
        exact Multiset.mem_coe.mp this

end TileHashTable

namespace TileHashSubtable

/-- A missing key is not removed and leaves the subtable unchanged. -/
lemma remove_of_get_none {st : TileHashSubtable} {d : Nat}
    (h : st.get d = none) : st.remove d = (none, st) := by
  cases hb : st.buckets[st.bucketIndex d]? with
  | none => exact remove_of_oob hb
  | some b =>
    cases b with
    | none => exact remove_of_empty hb
    | some e =>
      by_cases he : e.descriptor = d
      · rw [get_eq_of_bucket hb] at h
        simp [he] at h
      · exact remove_of_ne hb he

end TileHashSubtable

namespace TileHashTable

/-- A key `d` does not occur among the keys of a list whose multiset of
entries, plus one `(d, a)` pair, is the original nodup-keyed entries. -/
lemma not_key_mem_of_removed {l l' : List TileHashEntry} {d a : Nat}
    (hnd : (l.map TileHashEntry.descriptor).Nodup)
    (hM : (↑l' : Multiset TileHashEntry) + {(⟨d, a⟩ : TileHashEntry)} = ↑l) :
    ∀ x ∈ l', x.descriptor ≠ d := by
  intro x hx hxd
  have hcount : Multiset.count d
      (Multiset.map TileHashEntry.descriptor (↑l : Multiset TileHashEntry)) ≤
      1 := by
    rw [Multiset.map_coe]
    rw [Multiset.coe_count]
    exact List.nodup_iff_count_le_one.mp hnd d
  rw [← hM] at hcount
  rw [Multiset.map_add] at hcount
  rw [Multiset.count_add] at hcount
  have h1 : 1 ≤ Multiset.count d
      (Multiset.map TileHashEntry.descriptor (↑l' : Multiset TileHashEntry)) := by
    rw [Multiset.one_le_count_iff_mem]
    exact Multiset.mem_map.mpr ⟨x, Multiset.mem_coe.mpr hx, hxd⟩
  have h2 : 1 ≤ Multiset.count d
      (Multiset.map TileHashEntry.descriptor
        ({(⟨d, a⟩ : TileHashEntry)} : Multiset TileHashEntry)) := by
    rw [Multiset.one_le_count_iff_mem]
    exact Multiset.mem_map.mpr ⟨⟨d, a⟩, Multiset.mem_singleton_self _, rfl⟩
  omega

/-- `remove` on a well-formed nodup table: it returns exactly what `get`
returns, clears that key, and changes nothing else. -/
lemma remove_spec_nodup {t : TileHashTable} {d : Nat} (hwf : t.WF)
    (hnd : t.KeysNodup) :
    (t.remove d).1 = t.get d ∧
    (t.remove d).2.WF ∧ (t.remove d).2.KeysNodup ∧
    (∀ x ∈ (t.remove d).2.entriesList, x ∈ t.entriesList) ∧
    (t.remove d).2.sub0.buckets.length = t.sub0.buckets.length ∧
    (t.remove d).2.sub1.buckets.length = t.sub1.buckets.length ∧
    (t.remove d).2.sub0.seed = t.sub0.seed ∧
    (t.remove d).2.sub1.seed = t.sub1.seed ∧
    (t.remove d).2.get d = none ∧
    (∀ k, k ≠ d → (t.remove d).2.get k = t.get k) := by
  cases h0 : t.sub0.get d with
  | some a =>
    have hb0 := TileHashSubtable.mem_of_get h0
    have hrem0 := TileHashSubtable.remove_of_match hb0 rfl
    have hremT : t.remove d =
        (some a, ⟨⟨t.sub0.buckets.set (t.sub0.bucketIndex d) none,
          t.sub0.seed⟩, t.sub1⟩) := by
      unfold remove
      rw [hrem0]
    have htget : t.get d = some a := by
      unfold get
      rw [h0]
    obtain ⟨hsetE, holdE⟩ := TileHashSubtable.entriesList_remove hb0 rfl
    rw [hrem0] at hsetE
    have hMeq : (↑(t.remove d).2.entriesList : Multiset TileHashEntry) +
        {(⟨d, a⟩ : TileHashEntry)} = ↑t.entriesList := by
      rw [hremT]
      show (↑(((⟨t.sub0.buckets.set (t.sub0.bucketIndex d) none,
        t.sub0.seed⟩ : TileHashSubtable).entriesList ++ t.sub1.entriesList) :
        List TileHashEntry) : Multiset TileHashEntry) + _ = ↑t.entriesList
      rw [show (⟨t.sub0.buckets.set (t.sub0.bucketIndex d) none,
        t.sub0.seed⟩ : TileHashSubtable).entriesList =
        (t.sub0.buckets.take (t.sub0.bucketIndex d)).filterMap id ++
        (t.sub0.buckets.drop (t.sub0.bucketIndex d + 1)).filterMap id from
        hsetE]
      rw [entriesList_eq, holdE]
      rw [← Multiset.coe_add, ← Multiset.coe_add, ← Multiset.coe_add,
        ← Multiset.coe_add, ← Multiset.coe_add]
      simp only [Multiset.coe_singleton]
      abel
    have hwf' : (t.remove d).2.WF := by
      rw [hremT]
      refine ⟨?_, ?_, ?_, ?_⟩
      · show 1 ≤ (t.sub0.buckets.set _ none).length
        rw [List.length_set]
        exact hwf.len0
      · show t.sub1.buckets.length = (t.sub0.buckets.set _ none).length
        rw [List.length_set]
        exact hwf.lenEq
      · have := TileHashSubtable.placement_remove (d := d) hwf.p0
        rw [hrem0] at this
        exact this
      · exact hwf.p1
    have hnd' : (t.remove d).2.KeysNodup := by
      unfold KeysNodup
      have hperm : ((t.remove d).2.entriesList.map
          TileHashEntry.descriptor).Sublist
          ((((t.remove d).2.entriesList) ++
            [(⟨d, a⟩ : TileHashEntry)]).map TileHashEntry.descriptor) := by
        rw [List.map_append]
        exact List.sublist_append_left _ _
      refine List.Sublist.nodup hperm ?_
      refine keysNodup_of_multiset_eq ?_ hnd
      rw [← Multiset.coe_add]
      simpa using hMeq
    have hsub : ∀ x ∈ (t.remove d).2.entriesList, x ∈ t.entriesList := by
      intro x hx
      have : x ∈ (↑t.entriesList : Multiset TileHashEntry) := by
        rw [← hMeq]
        exact Multiset.mem_add.mpr (Or.inl (Multiset.mem_coe.mpr hx))
      exact Multiset.mem_coe.mp this
    have hnokey := not_key_mem_of_removed hnd hMeq
    refine ⟨by rw [hremT, htget], hwf', hnd', hsub, ?_, ?_, ?_, ?_, ?_, ?_⟩
    · rw [hremT]
      exact List.length_set _ _ _
    · rw [hremT]
    · rw [hremT]
    · rw [hremT]
    · rw [get_eq_none_iff hwf']
      exact hnokey
    · intro k hk
      refine get_congr_of_mem_iff hwf hwf' hnd hnd' ?_
      intro a'
      constructor
      · intro hm
        exact hsub _ hm
      · intro hm
        have hmm : (⟨k, a'⟩ : TileHashEntry) ∈
            (↑(t.remove d).2.entriesList : Multiset TileHashEntry) +
            {(⟨d, a⟩ : TileHashEntry)} := by
          rw [hMeq]
          exact Multiset.mem_coe.mpr hm
        rcases Multiset.mem_add.mp hmm with h | h
        · exact Multiset.mem_coe.mp h
        · have := Multiset.mem_singleton.mp h
          exact absurd (congrArg TileHashEntry.descriptor this)
            (by simpa using hk)
  | none =>
    have hrem0 := TileHashSubtable.remove_of_get_none h0
    cases h1 : t.sub1.get d with
    | some a =>
      have hb1 := TileHashSubtable.mem_of_get h1
      have hrem1 := TileHashSubtable.remove_of_match hb1 rfl
      have hremT : t.remove d =
          (some a, ⟨t.sub0, ⟨t.sub1.buckets.set (t.sub1.bucketIndex d) none,
            t.sub1.seed⟩⟩) := by
        unfold remove
        rw [hrem0]
        simp only
        rw [hrem1]
      have htget : t.get d = some a := by
        unfold get
        rw [h0, h1]
      obtain ⟨hsetE, holdE⟩ := TileHashSubtable.entriesList_remove hb1 rfl
      rw [hrem1] at hsetE
      have hMeq : (↑(t.remove d).2.entriesList : Multiset TileHashEntry) +
          {(⟨d, a⟩ : TileHashEntry)} = ↑t.entriesList := by
        rw [hremT]
        show (↑((t.sub0.entriesList ++
          (⟨t.sub1.buckets.set (t.sub1.bucketIndex d) none,
            t.sub1.seed⟩ : TileHashSubtable).entriesList) :
          List TileHashEntry) : Multiset TileHashEntry) + _ = ↑t.entriesList
        rw [show (⟨t.sub1.buckets.set (t.sub1.bucketIndex d) none,
          t.sub1.seed⟩ : TileHashSubtable).entriesList =
          (t.sub1.buckets.take (t.sub1.bucketIndex d)).filterMap id ++
          (t.sub1.buckets.drop (t.sub1.bucketIndex d + 1)).filterMap id from
          hsetE]
        rw [entriesList_eq, holdE]
        rw [← Multiset.coe_add, ← Multiset.coe_add, ← Multiset.coe_add,
          ← Multiset.coe_add, ← Multiset.coe_add]
        simp only [Multiset.coe_singleton]
        abel
      have hwf' : (t.remove d).2.WF := by
        rw [hremT]
        refine ⟨hwf.len0, ?_, hwf.p0, ?_⟩
        · show (t.sub1.buckets.set _ none).length = t.sub0.buckets.length
          rw [List.length_set]
          exact hwf.lenEq
        · have := TileHashSubtable.placement_remove (d := d) hwf.p1
          rw [hrem1] at this
          exact this
      have hnd' : (t.remove d).2.KeysNodup := by
        unfold KeysNodup
        have hperm : ((t.remove d).2.entriesList.map
            TileHashEntry.descriptor).Sublist
            ((((t.remove d).2.entriesList) ++
              [(⟨d, a⟩ : TileHashEntry)]).map TileHashEntry.descriptor) := by
          rw [List.map_append]
          exact List.sublist_append_left _ _
        refine List.Sublist.nodup hperm ?_
        refine keysNodup_of_multiset_eq ?_ hnd
        rw [← Multiset.coe_add]
        simpa using hMeq
      have hsub : ∀ x ∈ (t.remove d).2.entriesList, x ∈ t.entriesList := by
        intro x hx
        have : x ∈ (↑t.entriesList : Multiset TileHashEntry) := by
          rw [← hMeq]
          exact Multiset.mem_add.mpr (Or.inl (Multiset.mem_coe.mpr hx))
        exact Multiset.mem_coe.mp this
      have hnokey := not_key_mem_of_removed hnd hMeq
      refine ⟨by rw [hremT, htget], hwf', hnd', hsub, ?_, ?_, ?_, ?_, ?_, ?_⟩
      · rw [hremT]
      · rw [hremT]
        exact List.length_set _ _ _
      · rw [hremT]
      · rw [hremT]
      · rw [get_eq_none_iff hwf']
        exact hnokey
      · intro k hk
        refine get_congr_of_mem_iff hwf hwf' hnd hnd' ?_
        intro a'
        constructor
        · intro hm
          exact hsub _ hm
        · intro hm
          have hmm : (⟨k, a'⟩ : TileHashEntry) ∈
              (↑(t.remove d).2.entriesList : Multiset TileHashEntry) +
              {(⟨d, a⟩ : TileHashEntry)} := by
            rw [hMeq]
            exact Multiset.mem_coe.mpr hm
          rcases Multiset.mem_add.mp hmm with h | h
          · exact Multiset.mem_coe.mp h
          · have := Multiset.mem_singleton.mp h
            exact absurd (congrArg TileHashEntry.descriptor this)
              (by simpa using hk)
    | none =>
      have hrem1 := TileHashSubtable.remove_of_get_none h1
      have hremT : t.remove d = (none, t) := by
        unfold remove
        rw [hrem0]
        simp only
        rw [hrem1]
      have htget : t.get d = none := by
        unfold get
        rw [h0, h1]
      rw [hremT, htget]
      exact ⟨rfl, hwf, hnd, fun x hx => hx, rfl, rfl, rfl, rfl, rfl,
        fun k _ => rfl⟩

end TileHashTable

/-! ### VirtualTexture: slot table, LRU and tile lifecycle
(src/texture.rs:19-234) -/

inductive TileCacheStatus where
  | empty
  | pending
  | rasterized
deriving DecidableEq, Repr

structure TileCacheEntry where
  address : Nat
  descriptor : Option Nat
  status : TileCacheStatus
deriving DecidableEq, Repr

inductive RequestResult where
  | cacheFull
  | cacheHit (a : Nat)
  | cachePending (a : Nat)
  | cacheMiss (a : Nat)
deriving DecidableEq, Repr

/-- `VirtualTexture` (texture.rs:32-40).  The LRU `VecDeque` is a list whose
head is the front (most recently used).  The `background_color: ColorF` field
is omitted: it is never read by any modelled operation.  `rngCtr` is the draw
counter of the ambient seed oracle modelling `rand::thread_rng`. -/
structure VirtualTexture where
  cache : TileHashTable
  lru : List Nat
  tiles : List TileCacheEntry
  nextFreeTile : Nat
  cacheTextureSize : Int × Int
  tileSize : Nat
  rngCtr : Nat
deriving DecidableEq, Repr

namespace VirtualTexture

/-- `tile_backing_size` (texture.rs:195-197). -/
def tileBackingSize (vt : VirtualTexture) : Nat := vt.tileSize + 2

/-- `tile_texture_tiles_across` (texture.rs:210-212); the `i32 as u32` cast
wraps mod `2^32`. -/
def tileTextureTilesAcross (vt : VirtualTexture) : Nat :=
  intToU32 vt.cacheTextureSize.1 / vt.tileBackingSize

/-- `tile_texture_tiles_down` (texture.rs:214-217). -/
def tileTextureTilesDown (vt : VirtualTexture) : Nat :=
  intToU32 vt.cacheTextureSize.2 / vt.tileBackingSize

/-- `cache_size` (texture.rs:204-207). -/
def cacheSize (vt : VirtualTexture) : Nat :=
  vt.tileTextureTilesAcross * vt.tileTextureTilesDown

/-- `VirtualTexture::new` (texture.rs:56-81): fresh directory with two random
seeds (oracle draws 0 and 1), empty LRU, and one Empty slot per cache cell. -/
def new (σ : Nat → Nat) (cacheTextureSize : Int × Int)
    (tileSize bucketSize : Nat) : VirtualTexture :=
  let base : VirtualTexture :=
    { cache := TileHashTable.new σ 0 bucketSize
      lru := []
      tiles := []
      nextFreeTile := 0
      cacheTextureSize := cacheTextureSize
      tileSize := tileSize
      rngCtr := 2 }
  { base with
    tiles := (List.range base.cacheSize).map fun a => ⟨a, none, .empty⟩ }

/-- The eviction scan loop of `get_next_free_tile` (texture.rs:140-156),
popping the LRU from the back; the argument list is the reversed LRU (head =
least recently used).  Returns the chosen victim (if any), the Pending
addresses popped before it in pop order, and the un-popped rest of the
reversed LRU.  `none` models the panic of an out-of-bounds `self.tiles[..]`
index. -/
def scanLRU (tiles : List TileCacheEntry) :
    List Nat → Option (Option Nat × List Nat × List Nat)
  | [] => some (none, [], [])
  | a :: rest =>
    match tiles[a]? with
    | none => none
    | some t =>
      match t.status with
      | .pending =>
        match scanLRU tiles rest with
        | none => none
        | some (v, parked, rem) => some (v, a :: parked, rem)
      | _ => some (some a, [], rest)

/-- `get_next_free_tile` (texture.rs:128-178).  First-fit from the
`next_free_tile` counter while it is below the capacity; otherwise scan the
LRU from the back, parking Pending addresses (re-appended at the back
afterwards), and evict the first non-Pending victim: a Rasterized victim has
its key removed from the directory and its slot cleared to Empty. -/
def getNextFreeTile (vt : VirtualTexture) :
    Option (Option Nat × VirtualTexture) :=
  if vt.nextFreeTile < vt.cacheSize then
    some (some vt.nextFreeTile,
      { vt with nextFreeTile := vt.nextFreeTile + 1 })
  else
    match scanLRU vt.tiles vt.lru.reverse with
    | none => none
    | some (none, parked, rem) =>
      some (none, { vt with lru := rem.reverse ++ parked })
    | some (some v, parked, rem) =>
      let lru' := rem.reverse ++ parked
      match vt.tiles[v]? with
      | none => none
      | some tile =>
        match tile.status with
        | .empty => some (some v, { vt with lru := lru' })
        | .pending => none
        | .rasterized =>
          match tile.descriptor with
          | none => none
          | some dOld =>
            some (some v, { vt with
              lru := lru'
              cache := (vt.cache.remove dOld).2
              tiles := vt.tiles.set v
                { tile with descriptor := none, status := .empty } })

/-- `request_tile` (texture.rs:83-126).  A resident key is promoted to the
LRU front and reported Hit/Pending according to its slot status; an absent
key grabs a free or evicted slot, marks it Pending with the new key, inserts
the mapping into the directory, and pushes the slot to the LRU front.
`none` models the panics (`panic!`, `unreachable!`). -/
def requestTile (σ : Nat → Nat) (vt : VirtualTexture) (d : Nat) :
    Option (RequestResult × VirtualTexture) :=
  match vt.cache.get d with
  | some a =>
    match vt.lru.findIdx? (fun x => x = a) with
    | none => none
    | some i =>
      let lru' := a :: vt.lru.eraseIdx i
      match vt.tiles[a]? with
      | none => none
      | some tile =>
        match tile.status with
        | .empty => none
        | .pending => some (.cachePending a, { vt with lru := lru' })
        | .rasterized => some (.cacheHit a, { vt with lru := lru' })
  | none =>
    match vt.getNextFreeTile with
    | none => none
    | some (none, vt1) => some (.cacheFull, vt1)
    | some (some a, vt1) =>
      match vt1.tiles[a]? with
      | none => none
      | some tile =>
        let tile' := { tile with descriptor := some d, status := .pending }
        let vt2 := { vt1 with tiles := vt1.tiles.set a tile' }
        match TileHashTable.insert σ vt2.rngCtr vt2.cache d a with
        | none => none
        | some (_, cache', ctr') =>
          some (.cacheMiss a,
            { vt2 with cache := cache', rngCtr := ctr', lru := a :: vt2.lru })

/-- `mark_as_rasterized` (texture.rs:180-187): flips the slot's status to
Rasterized.  The `debug_assert`s (slot holds this descriptor and is Pending)
become the precondition of the `Reachable.mark` step. -/
def markAsRasterized (vt : VirtualTexture) (a : Nat) (_d : Nat) :
    VirtualTexture :=
  match vt.tiles[a]? with
  | none => vt
  | some tile =>
    { vt with tiles := vt.tiles.set a { tile with status := .rasterized } }

/-- States reachable by the public `VirtualTexture` API under seed oracle
`σ`: construction (with the spec's `initial_bucket_size ≥ 2` contract),
`request_tile` on a `u32` descriptor, and `mark_as_rasterized` under its
documented precondition. -/
inductive Reachable (σ : Nat → Nat) : VirtualTexture → Prop where
  | new : ∀ cts ts n0, 2 ≤ n0 → Reachable σ (new σ cts ts n0)
  | request : ∀ vt d r vt', Reachable σ vt → d < U32 →
      requestTile σ vt d = some (r, vt') → Reachable σ vt'
  | mark : ∀ vt a d tile, Reachable σ vt → vt.tiles[a]? = some tile →
      tile.descriptor = some d → tile.status = .pending →
      Reachable σ (vt.markAsRasterized a d)

end VirtualTexture

namespace VirtualTexture

/-- The state invariant maintained by the public `VirtualTexture` API:
a well-formed directory with distinct bounded keys and bounded seeds, one
slot per cache cell, untouched slots past the first-fit counter, the
directory/slot correspondence of the spec, a key in every live slot, and a
duplicate-free LRU holding exactly the live slot addresses. -/
structure VTInv (vt : VirtualTexture) : Prop where
  cwf : vt.cache.WF
  cnd : vt.cache.KeysNodup
  ckb : ∀ x ∈ vt.cache.entriesList, x.descriptor < U32
  cs0 : vt.cache.sub0.seed < U32
  cs1 : vt.cache.sub1.seed < U32
  tilesLen : vt.tiles.length = vt.cacheSize
  nfLe : vt.nextFreeTile ≤ vt.cacheSize
  fresh : ∀ (a : Nat) (tile : TileCacheEntry), vt.nextFreeTile ≤ a →
    vt.tiles[a]? = some tile →
    tile.descriptor = none ∧ tile.status = .empty
  dirSlots : ∀ (k a : Nat), vt.cache.get k = some a ↔
    ∃ tile, vt.tiles[a]? = some tile ∧ tile.descriptor = some k ∧
      tile.status ≠ .empty
  slotKey : ∀ (a : Nat) (tile : TileCacheEntry), vt.tiles[a]? = some tile →
    tile.status ≠ .empty → ∃ k, tile.descriptor = some k
  lruNodup : vt.lru.Nodup
  lruMem : ∀ a : Nat, a ∈ vt.lru ↔ ∃ tile, vt.tiles[a]? = some tile ∧
    tile.status ≠ .empty

/-- The LRU eviction scan never panics when every scanned address has a
slot, and its result decomposes the scanned list: the parked prefix is all
Pending, and the victim (when there is one) is the first non-Pending
address. -/
lemma scanLRU_spec (tiles : List TileCacheEntry) :
    ∀ rev : List Nat, (∀ a ∈ rev, ∃ t, tiles[a]? = some t) →
    ∃ parked rem v, scanLRU tiles rev = some (v, parked, rem) ∧
      (∀ a ∈ parked, ∃ t, tiles[a]? = some t ∧ t.status = .pending) ∧
      ((v = none ∧ rev = parked ∧ rem = []) ∨
        ∃ x tx, v = some x ∧ rev = parked ++ x :: rem ∧
          tiles[x]? = some tx ∧ tx.status ≠ .pending) := by
  intro rev
  induction rev with
  | nil =>
    intro _
    exact ⟨[], [], none, rfl, by simp, Or.inl ⟨rfl, rfl, rfl⟩⟩
  | cons a rest ih =>
    intro hin
    obtain ⟨t, ht⟩ := hin a (by simp)
    by_cases hp : t.status = .pending
    · obtain ⟨parked, rem, v, hscan, hpark, hcase⟩ :=
        ih (fun x hx => hin x (by simp [hx]))
      refine ⟨a :: parked, rem, v, ?_, ?_, ?_⟩
      · show scanLRU tiles (a :: rest) = some (v, a :: parked, rem)
        unfold scanLRU
        rw [ht]
        simp only [hp, hscan]
      · intro x hx
        rcases List.mem_cons.mp hx with hx | hx
        · exact ⟨t, by rw [hx]; exact ht, hp⟩
        · exact hpark x hx
      · rcases hcase with ⟨hv, hrev, hrem⟩ | ⟨x, tx, hv, hrev, htx, hnx⟩
        · exact Or.inl ⟨hv, by rw [hrev], hrem⟩
        · exact Or.inr ⟨x, tx, hv, by rw [hrev]; rfl, htx, hnx⟩
    · obtain ⟨ta, td, ts⟩ := t
      refine ⟨[], rest, some a, ?_, by simp,
        Or.inr ⟨a, ⟨ta, td, ts⟩, rfl, rfl, ht, hp⟩⟩
      show scanLRU tiles (a :: rest) = some (some a, [], rest)
      unfold scanLRU
      rw [ht]
      cases ts with
      | empty => rfl
      | pending => exact absurd rfl hp
      | rasterized => rfl

/-- On lists of Pending addresses the scan parks everything and hands the
first non-Pending slot back as the victim. -/
lemma scanLRU_of_decomp {tiles : List TileCacheEntry} {v : Nat}
    {tv : TileCacheEntry} (rem : List Nat)
    (htv : tiles[v]? = some tv) (hnp : tv.status ≠ .pending) :
    ∀ parked : List Nat,
      (∀ a ∈ parked, ∃ t, tiles[a]? = some t ∧ t.status = .pending) →
      scanLRU tiles (parked ++ v :: rem) = some (some v, parked, rem) := by
  obtain ⟨va, vd, vs⟩ := tv
  intro parked
  induction parked with
  | nil =>
    intro _
    show scanLRU tiles (v :: rem) = some (some v, [], rem)
    unfold scanLRU
    rw [htv]
    cases vs with
    | empty => rfl
    | pending => exact absurd rfl hnp
    | rasterized => rfl
  | cons a rest ih =>
    intro hpark
    obtain ⟨t, ht, hp⟩ := hpark a (by simp)
    have hrec := ih (fun x hx => hpark x (by simp [hx]))
    show scanLRU tiles (a :: (rest ++ v :: rem)) = some (some v, a :: rest, rem)
    unfold scanLRU
    rw [ht]
    simp only [hp, hrec]

end VirtualTexture

namespace VirtualTexture

lemma new_tiles_getElem (σ : Nat → Nat) (cts : Int × Int) (ts n0 a : Nat) :
    (new σ cts ts n0).tiles[a]? =
      if a < (new σ cts ts n0).cacheSize then
        some ⟨a, none, .empty⟩ else none := by
  have htiles : (new σ cts ts n0).tiles =
      (List.range ((new σ cts ts n0).cacheSize)).map
        fun a => (⟨a, none, .empty⟩ : TileCacheEntry) := rfl
  rw [htiles, List.getElem?_map]
  by_cases h : a < (new σ cts ts n0).cacheSize
  · rw [List.getElem?_range h, if_pos h]
    rfl
  · rw [List.getElem?_eq_none
      (by simpa [List.length_range] using Nat.le_of_not_lt h), if_neg h]
    rfl

/-- A fresh `VirtualTexture` satisfies the state invariant. -/
lemma vtinv_new {σ : Nat → Nat} (hσ : ∀ i, σ i < U32) (cts : Int × Int)
    (ts n0 : Nat) (hn0 : 2 ≤ n0) : VTInv (new σ cts ts n0) := by
  have hwf : (new σ cts ts n0).cache.WF := by
    refine ⟨?_, rfl, ?_, ?_⟩
    · show 1 ≤ (TileHashSubtable.new (σ 0) n0).buckets.length
      rw [TileHashSubtable.new_length]
      omega
    · exact TileHashSubtable.new_placement _ _
    · exact TileHashSubtable.new_placement _ _
  have hent : (new σ cts ts n0).cache.entriesList = [] :=
    TileHashTable.withSeeds_entriesList _ _ _
  have hget : ∀ k, (new σ cts ts n0).cache.get k = none := by
    intro k
    rw [TileHashTable.get_eq_none_iff hwf]
    intro x hx
    rw [hent] at hx
    exact absurd hx (List.not_mem_nil x)
  refine ⟨hwf, ?_, ?_, hσ 0, hσ 1, ?_, Nat.zero_le _, ?_, ?_, ?_, ?_, ?_⟩
  · show ((new σ cts ts n0).cache.entriesList.map _).Nodup
    rw [hent]
    exact List.nodup_nil
  · intro x hx
    rw [hent] at hx
    exact absurd hx (List.not_mem_nil x)
  · have htiles : (new σ cts ts n0).tiles =
        (List.range ((new σ cts ts n0).cacheSize)).map
          fun a => (⟨a, none, .empty⟩ : TileCacheEntry) := rfl
    rw [htiles, List.length_map, List.length_range]
  · intro a tile _ htile
    rw [new_tiles_getElem] at htile
    by_cases h : a < (new σ cts ts n0).cacheSize
    · rw [if_pos h] at htile
      cases Option.some.inj htile
      exact ⟨rfl, rfl⟩
    · rw [if_neg h] at htile
      exact Option.noConfusion htile
  · intro k a
    constructor
    · intro hk
      rw [hget k] at hk
      exact Option.noConfusion hk
    · rintro ⟨tile, htile, hdesc, _⟩
      rw [new_tiles_getElem] at htile
      by_cases h : a < (new σ cts ts n0).cacheSize
      · rw [if_pos h] at htile
        cases Option.some.inj htile
        exact Option.noConfusion hdesc
      · rw [if_neg h] at htile
        exact Option.noConfusion htile
  · intro a tile htile hne
    rw [new_tiles_getElem] at htile
    by_cases h : a < (new σ cts ts n0).cacheSize
    · rw [if_pos h] at htile
      cases Option.some.inj htile
      exact absurd rfl hne
    · rw [if_neg h] at htile
      exact Option.noConfusion htile
  · exact List.nodup_nil
  · intro a
    constructor
    · intro ha
      exact absurd ha (List.not_mem_nil a)
    · rintro ⟨tile, htile, hne⟩
      rw [new_tiles_getElem] at htile
      by_cases h : a < (new σ cts ts n0).cacheSize
      · rw [if_pos h] at htile
        cases Option.some.inj htile
        exact absurd rfl hne
      · rw [if_neg h] at htile
        exact Option.noConfusion htile

/-- Permuting the LRU list alone preserves the state invariant. -/
lemma vtinv_lru_perm {vt : VirtualTexture} (hinv : VTInv vt) {l' : List Nat}
    (hperm : l'.Perm vt.lru) : VTInv { vt with lru := l' } := by
  refine ⟨hinv.cwf, hinv.cnd, hinv.ckb, hinv.cs0, hinv.cs1, hinv.tilesLen,
    hinv.nfLe, hinv.fresh, hinv.dirSlots, hinv.slotKey, ?_, ?_⟩
  · exact hperm.nodup_iff.mpr hinv.lruNodup
  · intro a
    rw [show ({ vt with lru := l' } : VirtualTexture).lru = l' from rfl,
      hperm.mem_iff]
    exact hinv.lruMem a

/-- `get_next_free_tile` never panics on an invariant state and returns
either no slot (leaving directory, slots and counter untouched, only
cycling the LRU) or a cleared in-bounds slot that is off the LRU and below
the first-fit counter.  Pending slots and the directory entries of other
keys survive untouched. -/
lemma getNextFreeTile_spec {vt : VirtualTexture} (hinv : VTInv vt) :
    ∃ vout vt1, vt.getNextFreeTile = some (vout, vt1) ∧
      VTInv vt1 ∧
      vt1.cacheTextureSize = vt.cacheTextureSize ∧
      vt1.tileSize = vt.tileSize ∧
      vt1.rngCtr = vt.rngCtr ∧
      vt1.nextFreeTile ≤ vt1.cacheSize ∧
      (∀ (a : Nat) (t : TileCacheEntry), vt.tiles[a]? = some t →
        t.status = .pending → vt1.tiles[a]? = some t) ∧
      (∀ k a', vt1.cache.get k = some a' → vt.cache.get k = some a') ∧
      ((vout = none ∧ vt1.cache = vt.cache ∧ vt1.tiles = vt.tiles ∧
          vt1.nextFreeTile = vt.nextFreeTile) ∨
        (∃ a t1, vout = some a ∧ vt1.tiles[a]? = some t1 ∧
          t1.descriptor = none ∧ t1.status = .empty ∧ a ∉ vt1.lru ∧
          a < vt1.nextFreeTile ∧ a < vt1.tiles.length)) := by
  by_cases hff : vt.nextFreeTile < vt.cacheSize
  · -- first fit: hand out the counter slot
    have hlen : vt.nextFreeTile < vt.tiles.length := by
      rw [hinv.tilesLen]
      exact hff
    have ht : vt.tiles[vt.nextFreeTile]? = some vt.tiles[vt.nextFreeTile] :=
      List.getElem?_eq_getElem hlen
    obtain ⟨hdesc, hstat⟩ := hinv.fresh _ _ (Nat.le_refl _) ht
    refine ⟨some vt.nextFreeTile,
      { vt with nextFreeTile := vt.nextFreeTile + 1 }, ?_, ?_, rfl, rfl, rfl,
      ?_, ?_, ?_, Or.inr ⟨vt.nextFreeTile, vt.tiles[vt.nextFreeTile], rfl,
        ht, hdesc, hstat, ?_, Nat.lt_succ_self _, hlen⟩⟩
    · unfold getNextFreeTile
      rw [if_pos hff]
    · exact ⟨hinv.cwf, hinv.cnd, hinv.ckb, hinv.cs0, hinv.cs1, hinv.tilesLen,
        hff, fun a tile hge htile => hinv.fresh a tile
          (Nat.le_of_succ_le hge) htile,
        hinv.dirSlots, hinv.slotKey, hinv.lruNodup, hinv.lruMem⟩
    · show vt.nextFreeTile + 1 ≤ vt.cacheSize
      omega
    · intro a t hat _
      exact hat
    · intro k a' h
      exact h
    · intro hmem
      obtain ⟨t', ht', hne⟩ := (hinv.lruMem vt.nextFreeTile).mp hmem
      rw [ht] at ht'
      cases Option.some.inj ht'
      exact hne hstat
  · -- capacity reached: scan the LRU from the back
    have hin : ∀ a ∈ vt.lru.reverse, ∃ t, vt.tiles[a]? = some t := by
      intro a ha
      obtain ⟨t, ht, _⟩ := (hinv.lruMem a).mp (List.mem_reverse.mp ha)
      exact ⟨t, ht⟩
    obtain ⟨parked, rem, v, hscan, hpark, hcase⟩ :=
      scanLRU_spec vt.tiles vt.lru.reverse hin
    rcases hcase with ⟨hv, hrev, hrem⟩ | ⟨x, tx, hv, hrev, htx, hnp⟩
    · -- every slot Pending: no victim, LRU is cycled (reversed)
      subst hv
      subst hrem
      refine ⟨none, { vt with lru := List.reverse [] ++ parked }, ?_,
        vtinv_lru_perm hinv (by
          simpa using (hrev ▸ vt.lru.reverse_perm : parked.Perm vt.lru)),
        rfl, rfl, rfl, hinv.nfLe, fun a t hat _ => hat, fun k a' h => h,
        Or.inl ⟨rfl, rfl, rfl, rfl⟩⟩
      unfold getNextFreeTile
      rw [if_neg hff, hscan]
    · -- a victim was found: it is Rasterized and gets evicted
      subst hv
      have hxlru : x ∈ vt.lru := by
        rw [← List.mem_reverse, hrev]
        exact List.mem_append.mpr (Or.inr (List.mem_cons_self x _))
      obtain ⟨t', ht', hne⟩ := (hinv.lruMem x).mp hxlru
      rw [htx] at ht'
      cases Option.some.inj ht'
      obtain ⟨dOld, hxd⟩ := hinv.slotKey x tx htx hne
      obtain ⟨xa, xd, xs⟩ := tx
      have hxs : xs = .rasterized := by
        cases xs with
        | empty => exact absurd rfl hne
        | pending => exact absurd rfl hnp
        | rasterized => rfl
      subst hxs
      rw [show (⟨xa, xd, .rasterized⟩ : TileCacheEntry).descriptor = xd
        from rfl] at hxd
      subst hxd
      have hxlen : x < vt.tiles.length := by
        by_contra hge
        rw [List.getElem?_eq_none (by omega)] at htx
        exact Option.noConfusion htx
      have hnf : vt.nextFreeTile = vt.cacheSize :=
        Nat.le_antisymm hinv.nfLe (Nat.le_of_not_lt hff)
      have hdOldget : vt.cache.get dOld = some x :=
        (hinv.dirSlots dOld x).mpr ⟨⟨xa, some dOld, .rasterized⟩, htx, rfl,
          by intro h; exact TileCacheStatus.noConfusion h⟩
      obtain ⟨_, hwf1, hnd1, hsub1, _, _, hs0eq, hs1eq, hgone, hothers⟩ :=
        TileHashTable.remove_spec_nodup (d := dOld) hinv.cwf hinv.cnd
      have hrnd : (parked ++ x :: rem).Nodup := by
        rw [← hrev]
        exact List.nodup_reverse.mpr hinv.lruNodup
      have hmid := (@List.perm_middle _ x parked rem).symm
      have hcons : (x :: (parked ++ rem)).Nodup := hmid.symm.nodup_iff.mp hrnd
      have hxnot : x ∉ parked ++ rem := (List.nodup_cons.mp hcons).1
      have hprnd : (parked ++ rem).Nodup := (List.nodup_cons.mp hcons).2
      have hlru1 : (rem.reverse ++ parked).Perm (parked ++ rem) :=
        ((rem.reverse_perm).append_right parked).trans List.perm_append_comm
      have hmemLru : ∀ a : Nat, a ∈ vt.lru ↔ a ∈ parked ∨ a = x ∨ a ∈ rem := by
        intro a
        rw [← List.mem_reverse, hrev]
        simp
      have hts1x : (vt.tiles.set x ⟨xa, none, .empty⟩)[x]? =
          some ⟨xa, none, .empty⟩ := by
        rw [List.getElem?_set_self', htx]
        rfl
      have hts1ne : ∀ a : Nat, a ≠ x →
          (vt.tiles.set x ⟨xa, none, .empty⟩)[a]? = vt.tiles[a]? := by
        intro a hne'
        exact List.getElem?_set_ne (by omega)
      have hsubget : ∀ k a', (vt.cache.remove dOld).2.get k = some a' →
          vt.cache.get k = some a' := by
        intro k a' h1
        by_cases hk : k = dOld
        · subst hk
          rw [hgone] at h1
          exact Option.noConfusion h1
        · rw [hothers k hk] at h1
          exact h1
      refine ⟨some x, { vt with
          lru := rem.reverse ++ parked
          cache := (vt.cache.remove dOld).2
          tiles := vt.tiles.set x ⟨xa, none, .empty⟩ }, ?_, ?_, rfl, rfl, rfl,
        ?_, ?_, hsubget, Or.inr ⟨x, ⟨xa, none, .empty⟩, rfl, hts1x, rfl, rfl,
          ?_, ?_, by rw [List.length_set]; exact hxlen⟩⟩
      · unfold getNextFreeTile
        rw [if_neg hff, hscan]
        simp only [htx]
      · refine ⟨hwf1, hnd1, fun e he => hinv.ckb e (hsub1 e he),
          by rw [hs0eq]; exact hinv.cs0, by rw [hs1eq]; exact hinv.cs1,
          by rw [List.length_set]; exact hinv.tilesLen, hinv.nfLe, ?_, ?_,
          ?_, hlru1.nodup_iff.mpr hprnd, ?_⟩
        · -- fresh slots: vacuous, the counter sits at capacity
          intro a tile hge htile
          have hge' : vt.nextFreeTile ≤ a := hge
          have htile' : (vt.tiles.set x ⟨xa, none, .empty⟩)[a]? =
              some tile := htile
          rw [List.getElem?_eq_none (by
            rw [List.length_set, hinv.tilesLen, ← hnf]
            exact hge')] at htile'
          exact Option.noConfusion htile'

        · -- directory/slot correspondence after the eviction
          intro k a
          constructor
          · intro hk
            have hk' := hsubget k a hk
            have hkd : k ≠ dOld := by
              intro hkk
              subst hkk
              rw [hgone] at hk
              exact Option.noConfusion hk
            obtain ⟨tile, htile, htd, htne⟩ := (hinv.dirSlots k a).mp hk'
            have hax : a ≠ x := by
              intro hax
              subst hax
              rw [htx] at htile
              cases Option.some.inj htile
              exact hkd (by
                rw [show (⟨xa, some dOld, .rasterized⟩
                  : TileCacheEntry).descriptor = some dOld from rfl] at htd
                exact Option.some.inj htd.symm)
            exact ⟨tile, by rw [hts1ne a hax]; exact htile, htd, htne⟩
          · rintro ⟨tile, htile, htd, htne⟩
            by_cases hax : a = x
            · subst hax
              rw [hts1x] at htile
              cases Option.some.inj htile
              exact absurd rfl htne
            · rw [hts1ne a hax] at htile
              have hk' := (hinv.dirSlots k a).mpr ⟨tile, htile, htd, htne⟩
              have hkd : k ≠ dOld := by
                intro hkk
                subst hkk
                rw [hdOldget] at hk'
                exact hax (Option.some.inj hk').symm
              rw [hothers k hkd]
              exact hk'
        · -- every live slot still carries a key
          intro a tile htile htne
          by_cases hax : a = x
          · subst hax
            rw [hts1x] at htile
            cases Option.some.inj htile
            exact absurd rfl htne
          · rw [hts1ne a hax] at htile
            exact hinv.slotKey a tile htile htne
        · -- LRU membership: the victim left, everything else stayed
          intro a
          show a ∈ rem.reverse ++ parked ↔ ∃ tile,
            (vt.tiles.set x ⟨xa, none, .empty⟩)[a]? = some tile ∧
              tile.status ≠ .empty
          rw [hlru1.mem_iff]
          constructor
          · intro ha
            have hax : a ≠ x := by
              intro hax
              subst hax
              exact hxnot ha
            obtain ⟨t', ht', hne'⟩ := (hinv.lruMem a).mp
              ((hmemLru a).mpr (by
                rcases List.mem_append.mp ha with h | h
                · exact Or.inl h
                · exact Or.inr (Or.inr h)))
            exact ⟨t', by rw [hts1ne a hax]; exact ht', hne'⟩
          · rintro ⟨tile, htile, htne⟩
            by_cases hax : a = x
            · subst hax
              rw [hts1x] at htile
              cases Option.some.inj htile
              exact absurd rfl htne
            · rw [hts1ne a hax] at htile
              have := (hmemLru a).mp ((hinv.lruMem a).mpr ⟨tile, htile, htne⟩)
              rcases this with h | h | h
              · exact List.mem_append.mpr (Or.inl h)
              · exact absurd h hax
              · exact List.mem_append.mpr (Or.inr h)
      · exact hinv.nfLe
      · -- Pending slots survive the eviction
        intro a t hat hp
        have hax : a ≠ x := by
          intro hax
          subst hax
          rw [htx] at hat
          cases Option.some.inj hat
          exact TileCacheStatus.noConfusion hp
        show (vt.tiles.set x ⟨xa, none, .empty⟩)[a]? = some t
        rw [hts1ne a hax]
        exact hat
      · -- the victim is off the new LRU
        intro hmem
        have hmem' : x ∈ rem.reverse ++ parked := hmem
        rw [hlru1.mem_iff] at hmem'
        exact hxnot hmem'

      · -- the victim slot is below the (saturated) counter
        show x < vt.nextFreeTile
        rw [hnf, ← hinv.tilesLen]
        exact hxlen

/-- `VecDeque`-style promotion: removing the element found by `findIdx?` is
`List.erase`. -/
lemma lru_promote : ∀ (l : List Nat) (a : Nat), a ∈ l →
    ∃ i, l.findIdx? (fun x => x = a) = some i ∧ l.eraseIdx i = l.erase a := by
  intro l
  induction l with
  | nil =>
    intro a h
    exact absurd h (List.not_mem_nil a)
  | cons b t ih =>
    intro a h
    by_cases hba : b = a
    · refine ⟨0, ?_, ?_⟩
      · rw [List.findIdx?_cons]
        simp [hba]
      · rw [List.eraseIdx_cons_zero, List.erase_cons]
        simp [hba]
    · have hat : a ∈ t := by
        rcases List.mem_cons.mp h with h1 | h1
        · exact absurd h1.symm hba
        · exact h1
      obtain ⟨i, hfi, hei⟩ := ih a hat
      refine ⟨i + 1, ?_, ?_⟩
      · rw [List.findIdx?_cons]
        simp [hba, hfi]
      · rw [List.eraseIdx_cons_succ, List.erase_cons, hei]
        simp [hba]

/-- The resident-key path of `request_tile` (texture.rs:84-102): on an
invariant state a mapped key never panics, the slot is live and holds the
key, the result is Hit or Pending according to the slot status, and the
only change is promoting the address to the LRU front. -/
lemma requestTile_resident {σ : Nat → Nat} {vt : VirtualTexture} {d a : Nat}
    (hinv : VTInv vt) (hget : vt.cache.get d = some a) :
    ∃ tile, vt.tiles[a]? = some tile ∧ tile.status ≠ .empty ∧
      tile.descriptor = some d ∧
      requestTile σ vt d = some
        ((if tile.status = .rasterized then .cacheHit a else .cachePending a),
          { vt with lru := a :: vt.lru.erase a }) := by
  obtain ⟨tile, htile, htd, htne⟩ := (hinv.dirSlots d a).mp hget
  have hal : a ∈ vt.lru := (hinv.lruMem a).mpr ⟨tile, htile, htne⟩
  obtain ⟨i, hfi, hei⟩ := lru_promote vt.lru a hal
  refine ⟨tile, htile, htne, htd, ?_⟩
  obtain ⟨ta, td, ts⟩ := tile
  unfold requestTile
  rw [hget]
  simp only [hfi, hei, htile]
  cases ts with
  | empty => exact absurd rfl htne
  | pending => simp
  | rasterized => simp

/-- The absent-key path of `request_tile` (texture.rs:103-125): on an
invariant state it never panics; the result is Full (every slot Pending) or
Miss at the granted slot (now mapped by the directory), the invariant is
maintained, and Pending slots survive untouched. -/
lemma requestTile_miss {σ : Nat → Nat} {vt : VirtualTexture} {d : Nat}
    (hσ : ∀ i, σ i < U32) (hinv : VTInv vt) (hd : d < U32)
    (hget : vt.cache.get d = none) :
    ∃ r vt', requestTile σ vt d = some (r, vt') ∧ VTInv vt' ∧
      (∀ (a : Nat) (t : TileCacheEntry), vt.tiles[a]? = some t →
        t.status = .pending → vt'.tiles[a]? = some t) ∧
      (r = .cacheFull ∨ ∃ a, r = .cacheMiss a ∧ vt'.cache.get d = some a) := by
  obtain ⟨vout, vt1, hgeq, hinv1, _, _, _, _, hpend1, hsub1, hdisj⟩ :=
    getNextFreeTile_spec hinv
  cases vout with
  | none =>
    refine ⟨.cacheFull, vt1, ?_, hinv1, hpend1, Or.inl rfl⟩
    unfold requestTile
    rw [hget]
    simp only [hgeq]
  | some a =>
    rcases hdisj with ⟨hvn, _, _, _⟩ |
      ⟨a', t1, hva, ht1, ht1d, ht1s, halru, hanf, halen⟩
    · exact Option.noConfusion hvn
    · cases Option.some.inj hva
      have hget1 : vt1.cache.get d = none := by
        cases hg1 : vt1.cache.get d with
        | none => rfl
        | some b =>
          have hb := hsub1 d b hg1
          rw [hget] at hb
          exact Option.noConfusion hb
      obtain ⟨r', t', c', hins, hwf', hnd', hkb', hs0', hs1', _, hgetd',
        hothers'⟩ := TileHashTable.insert_fresh (σ := σ) (c := vt1.rngCtr)
          (a := a) hσ hinv1.cwf hinv1.cnd hinv1.ckb hinv1.cs0 hinv1.cs1
          hget1 hd
      have htF : (vt1.tiles.set a ⟨t1.address, some d, .pending⟩)[a]? =
          some ⟨t1.address, some d, .pending⟩ := by
        rw [List.getElem?_set_self', ht1]
        rfl
      have htFne : ∀ b : Nat, b ≠ a →
          (vt1.tiles.set a ⟨t1.address, some d, .pending⟩)[b]? =
            vt1.tiles[b]? := by
        intro b hb
        exact List.getElem?_set_ne (by omega)
      refine ⟨.cacheMiss a, { vt1 with
          tiles := vt1.tiles.set a ⟨t1.address, some d, .pending⟩
          cache := t'
          rngCtr := c'
          lru := a :: vt1.lru }, ?_, ?_, ?_, Or.inr ⟨a, rfl, hgetd'⟩⟩
      · unfold requestTile
        rw [hget]
        simp only [hgeq, ht1, hins]
      · refine ⟨hwf', hnd', hkb', hs0', hs1', ?_, hinv1.nfLe, ?_, ?_, ?_,
          List.nodup_cons.mpr ⟨halru, hinv1.lruNodup⟩, ?_⟩
        · show (vt1.tiles.set a ⟨t1.address, some d, .pending⟩).length =
            vt1.cacheSize
          rw [List.length_set]
          exact hinv1.tilesLen
        · -- fresh slots: the granted slot is below the counter
          intro b tile hb htb
          have hba : b ≠ a := by
            intro hba
            subst hba
            have hbnf : vt1.nextFreeTile ≤ b := hb
            omega
          rw [htFne b hba] at htb
          exact hinv1.fresh b tile hb htb
        · -- directory/slot correspondence with the new mapping
          intro k b
          by_cases hk : k = d
          · subst hk
            constructor
            · intro hkb
              rw [hgetd'] at hkb
              cases Option.some.inj hkb
              exact ⟨⟨t1.address, some k, .pending⟩, htF, rfl,
                fun h => TileCacheStatus.noConfusion h⟩
            · rintro ⟨tile, htile, htd, htne⟩
              by_cases hba : b = a
              · subst hba
                exact hgetd'
              · rw [htFne b hba] at htile
                have := (hinv1.dirSlots k b).mpr ⟨tile, htile, htd, htne⟩
                rw [hget1] at this
                exact Option.noConfusion this
          · rw [show ({ vt1 with
                tiles := vt1.tiles.set a ⟨t1.address, some d, .pending⟩,
                cache := t', rngCtr := c', lru := a :: vt1.lru }
                : VirtualTexture).cache = t' from rfl, hothers' k hk]
            constructor
            · intro hkb
              obtain ⟨tile, htile, htd, htne⟩ := (hinv1.dirSlots k b).mp hkb
              have hba : b ≠ a := by
                intro hba
                subst hba
                rw [ht1] at htile
                cases Option.some.inj htile
                rw [ht1d] at htd
                exact Option.noConfusion htd
              exact ⟨tile, by rw [htFne b hba]; exact htile, htd, htne⟩
            · rintro ⟨tile, htile, htd, htne⟩
              by_cases hba : b = a
              · subst hba
                rw [htF] at htile
                cases Option.some.inj htile
                exact absurd (Option.some.inj htd) (Ne.symm hk)
              · rw [htFne b hba] at htile
                exact (hinv1.dirSlots k b).mpr ⟨tile, htile, htd, htne⟩
        · -- every live slot carries a key
          intro b tile htile htne
          by_cases hba : b = a
          · subst hba
            rw [htF] at htile
            cases Option.some.inj htile
            exact ⟨d, rfl⟩
          · rw [htFne b hba] at htile
            exact hinv1.slotKey b tile htile htne
        · -- LRU membership
          intro b
          show b ∈ a :: vt1.lru ↔ ∃ tile,
            (vt1.tiles.set a ⟨t1.address, some d, .pending⟩)[b]? =
              some tile ∧ tile.status ≠ .empty
          constructor
          · intro hb
            rcases List.mem_cons.mp hb with hbe | hbm
            · subst hbe
              exact ⟨⟨t1.address, some d, .pending⟩, htF,
                fun h => TileCacheStatus.noConfusion h⟩
            · obtain ⟨tile, htile, htne⟩ := (hinv1.lruMem b).mp hbm
              have hba : b ≠ a := by
                intro hba
                rw [hba] at hbm
                exact halru hbm
              exact ⟨tile, by rw [htFne b hba]; exact htile, htne⟩
          · rintro ⟨tile, htile, htne⟩
            by_cases hba : b = a
            · subst hba
              exact List.mem_cons_self _ _
            · rw [htFne b hba] at htile
              exact List.mem_cons.mpr
                (Or.inr ((hinv1.lruMem b).mpr ⟨tile, htile, htne⟩))
      · -- Pending slots survive
        intro b t hb hp
        have h1 := hpend1 b t hb hp
        have hba : b ≠ a := by
          intro hba
          subst hba
          rw [ht1] at h1
          cases Option.some.inj h1
          rw [hp] at ht1s
          exact TileCacheStatus.noConfusion ht1s
        show (vt1.tiles.set a ⟨t1.address, some d, .pending⟩)[b]? = some t
        rw [htFne b hba]
        exact h1

/-- `mark_as_rasterized` under its debug-assert precondition (the slot holds
this key and is Pending) keeps the state invariant. -/
lemma vtinv_mark {vt : VirtualTexture} {a d : Nat} {tile : TileCacheEntry}
    (hinv : VTInv vt) (ht : vt.tiles[a]? = some tile)
    (htd : tile.descriptor = some d) (hts : tile.status = .pending) :
    VTInv (vt.markAsRasterized a d) := by
  have hm : vt.markAsRasterized a d = { vt with
      tiles := vt.tiles.set a
        ⟨tile.address, tile.descriptor, .rasterized⟩ } := by
    unfold markAsRasterized
    rw [ht]
  have hanf : a < vt.nextFreeTile := by
    by_contra hge
    obtain ⟨_, hstat⟩ := hinv.fresh a tile (Nat.le_of_not_lt hge) ht
    rw [hstat] at hts
    exact TileCacheStatus.noConfusion hts
  have hsx : (vt.tiles.set a ⟨tile.address, tile.descriptor, .rasterized⟩)[a]? =
      some ⟨tile.address, tile.descriptor, .rasterized⟩ := by
    rw [List.getElem?_set_self', ht]
    rfl
  have hsne : ∀ b : Nat, b ≠ a →
      (vt.tiles.set a ⟨tile.address, tile.descriptor, .rasterized⟩)[b]? =
        vt.tiles[b]? := by
    intro b hb
    exact List.getElem?_set_ne (by omega)
  rw [hm]
  refine ⟨hinv.cwf, hinv.cnd, hinv.ckb, hinv.cs0, hinv.cs1, ?_, hinv.nfLe,
    ?_, ?_, ?_, hinv.lruNodup, ?_⟩
  · show (vt.tiles.set a ⟨tile.address, tile.descriptor, .rasterized⟩).length =
      vt.cacheSize
    rw [List.length_set]
    exact hinv.tilesLen
  · intro b t hb htb
    have hb' : vt.nextFreeTile ≤ b := hb
    have hba : b ≠ a := by omega
    rw [hsne b hba] at htb
    exact hinv.fresh b t hb htb
  · intro k b
    constructor
    · intro hkb
      obtain ⟨t, htb, htbd, htbne⟩ := (hinv.dirSlots k b).mp hkb
      by_cases hba : b = a
      · subst hba
        rw [ht] at htb
        cases Option.some.inj htb
        exact ⟨⟨tile.address, tile.descriptor, .rasterized⟩, hsx, htbd,
          fun h => TileCacheStatus.noConfusion h⟩
      · exact ⟨t, by rw [hsne b hba]; exact htb, htbd, htbne⟩
    · rintro ⟨t, htb, htbd, htbne⟩
      by_cases hba : b = a
      · subst hba
        rw [hsx] at htb
        cases Option.some.inj htb
        refine (hinv.dirSlots k b).mpr ⟨tile, ht, htbd, ?_⟩
        rw [hts]
        exact fun h => TileCacheStatus.noConfusion h
      · rw [hsne b hba] at htb
        exact (hinv.dirSlots k b).mpr ⟨t, htb, htbd, htbne⟩
  · intro b t htb htbne
    by_cases hba : b = a
    · subst hba
      rw [hsx] at htb
      cases Option.some.inj htb
      exact ⟨d, htd⟩
    · rw [hsne b hba] at htb
      exact hinv.slotKey b t htb htbne
  · intro b
    show b ∈ vt.lru ↔ _
    constructor
    · intro hb
      obtain ⟨t, htb, htbne⟩ := (hinv.lruMem b).mp hb
      by_cases hba : b = a
      · subst hba
        exact ⟨⟨tile.address, tile.descriptor, .rasterized⟩, hsx,
          fun h => TileCacheStatus.noConfusion h⟩
      · exact ⟨t, by rw [hsne b hba]; exact htb, htbne⟩
    · rintro ⟨t, htb, htbne⟩
      by_cases hba : b = a
      · subst hba
        refine (hinv.lruMem b).mpr ⟨tile, ht, ?_⟩
        rw [hts]
        exact fun h => TileCacheStatus.noConfusion h
      · rw [hsne b hba] at htb
        exact (hinv.lruMem b).mpr ⟨t, htb, htbne⟩

/-- Any successful `request_tile` step preserves the invariant and never
changes a Pending slot. -/
lemma requestTile_inv {σ : Nat → Nat} {vt vt' : VirtualTexture}
    {d : Nat} {r : RequestResult}
    (hσ : ∀ i, σ i < U32) (hinv : VTInv vt) (hd : d < U32)
    (heq : requestTile σ vt d = some (r, vt')) :
    VTInv vt' ∧
    (∀ (a : Nat) (t : TileCacheEntry), vt.tiles[a]? = some t →
      t.status = .pending → vt'.tiles[a]? = some t) := by
  cases hget : vt.cache.get d with
  | some a =>
    obtain ⟨tile, htile, htne, htd, heq'⟩ :=
      requestTile_resident (σ := σ) hinv hget
    rw [heq'] at heq
    have hpair := Option.some.inj heq
    have hv : ({ vt with lru := a :: vt.lru.erase a } : VirtualTexture) =
        vt' := congrArg Prod.snd hpair
    subst hv
    have hal : a ∈ vt.lru := (hinv.lruMem a).mpr ⟨tile, htile, htne⟩
    exact ⟨vtinv_lru_perm hinv (List.perm_cons_erase hal).symm,
      fun b t hb _ => hb⟩
  | none =>
    obtain ⟨r0, vt0, heq0, hinv0, hpend0, _⟩ :=
      requestTile_miss hσ hinv hd hget
    rw [heq0] at heq
    have hpair := Option.some.inj heq
    have hv : vt0 = vt' := congrArg Prod.snd hpair
    subst hv
    exact ⟨hinv0, hpend0⟩

/-- Every state reachable by the public API satisfies the invariant. -/
lemma reachable_inv {σ : Nat → Nat} (hσ : ∀ i, σ i < U32)
    {vt : VirtualTexture} (h : Reachable σ vt) : VTInv vt := by
  induction h with
  | new cts ts n0 hn0 => exact vtinv_new hσ cts ts n0 hn0
  | request vt d r vt' _ hd heq ih => exact (requestTile_inv hσ ih hd heq).1
  | mark vt a d tile _ ht htd hts ih => exact vtinv_mark ih ht htd hts

/-! #### Concrete scenario states (spec scenarios S2 and S3)

Tile size 254 gives a 256-pixel backing cell, so a 256x256 cache texture
holds one tile (S3) and a 512x256 texture holds two (S2).  The descriptors
of tiles `(0,0,0)`, `(1,0,0)`, `(2,0,0)` are 0, 64 and 128. -/

/-- The all-zero seed oracle used by the concrete scenarios. -/
def sigZero : Nat → Nat := fun _ => 0

lemma sigZero_lt : ∀ i, sigZero i < U32 := by
  intro i
  show (0 : Nat) < U32
  decide

/-- S3 start: capacity-1 cache, 4 initial buckets. -/
def s3vt0 : VirtualTexture := new sigZero (256, 256) 254 4

/-- S3 after requesting descriptor 0 (tile `(0,0,0)`). -/
def s3vt1 : VirtualTexture :=
  { cache := ⟨⟨[some ⟨0, 0⟩, none, none, none], 0⟩,
      ⟨[none, none, none, none], 0⟩⟩
    lru := [0]
    tiles := [⟨0, some 0, .pending⟩]
    nextFreeTile := 1
    cacheTextureSize := (256, 256)
    tileSize := 254
    rngCtr := 2 }

lemma s3vt0_reachable : Reachable sigZero s3vt0 :=
  Reachable.new _ _ _ (by norm_num)

lemma s3vt1_reachable : Reachable sigZero s3vt1 :=
  Reachable.request s3vt0 0 (.cacheMiss 0) s3vt1 s3vt0_reachable
    (by decide) (by decide)

/-- S2 start: capacity-2 cache, 4 initial buckets. -/
def s2vt0 : VirtualTexture := new sigZero (512, 256) 254 4

/-- S2 after requesting descriptor 0. -/
def s2vt1 : VirtualTexture :=
  { cache := ⟨⟨[some ⟨0, 0⟩, none, none, none], 0⟩,
      ⟨[none, none, none, none], 0⟩⟩
    lru := [0]
    tiles := [⟨0, some 0, .pending⟩, ⟨1, none, .empty⟩]
    nextFreeTile := 1
    cacheTextureSize := (512, 256)
    tileSize := 254
    rngCtr := 2 }

/-- S2 after also requesting descriptor 64 (key 0 was cuckooed to the
second subtable). -/
def s2vt2 : VirtualTexture :=
  { cache := ⟨⟨[some ⟨64, 1⟩, none, none, none], 0⟩,
      ⟨[some ⟨0, 0⟩, none, none, none], 0⟩⟩
    lru := [1, 0]
    tiles := [⟨0, some 0, .pending⟩, ⟨1, some 64, .pending⟩]
    nextFreeTile := 2
    cacheTextureSize := (512, 256)
    tileSize := 254
    rngCtr := 2 }

/-- S2 after marking both tiles rasterized. -/
def s2vt3 : VirtualTexture :=
  { cache := ⟨⟨[some ⟨64, 1⟩, none, none, none], 0⟩,
      ⟨[some ⟨0, 0⟩, none, none, none], 0⟩⟩
    lru := [1, 0]
    tiles := [⟨0, some 0, .rasterized⟩, ⟨1, some 64, .rasterized⟩]
    nextFreeTile := 2
    cacheTextureSize := (512, 256)
    tileSize := 254
    rngCtr := 2 }

/-- S2 after requesting descriptor 128: slot 0 (the tile first assigned to
descriptor 0) was evicted and reused. -/
def s2vt4 : VirtualTexture :=
  { cache := ⟨⟨[some ⟨64, 1⟩, none, none, some ⟨128, 0⟩], 0⟩,
      ⟨[none, none, none, none], 0⟩⟩
    lru := [0, 1]
    tiles := [⟨0, some 128, .pending⟩, ⟨1, some 64, .rasterized⟩]
    nextFreeTile := 2
    cacheTextureSize := (512, 256)
    tileSize := 254
    rngCtr := 2 }

lemma s2vt0_reachable : Reachable sigZero s2vt0 :=
  Reachable.new _ _ _ (by norm_num)

lemma s2vt1_reachable : Reachable sigZero s2vt1 :=
  Reachable.request s2vt0 0 (.cacheMiss 0) s2vt1 s2vt0_reachable
    (by decide) (by decide)

lemma s2vt2_reachable : Reachable sigZero s2vt2 :=
  Reachable.request s2vt1 64 (.cacheMiss 1) s2vt2 s2vt1_reachable
    (by decide) (by decide)

lemma s2vt3_reachable : Reachable sigZero s2vt3 := by
  have h2 := Reachable.mark s2vt2 0 0 ⟨0, some 0, .pending⟩ s2vt2_reachable
    (by decide) rfl rfl
  have heq2 : s2vt2.markAsRasterized 0 0 =
      { cache := ⟨⟨[some ⟨64, 1⟩, none, none, none], 0⟩,
          ⟨[some ⟨0, 0⟩, none, none, none], 0⟩⟩
        lru := [1, 0]
        tiles := [⟨0, some 0, .rasterized⟩, ⟨1, some 64, .pending⟩]
        nextFreeTile := 2
        cacheTextureSize := (512, 256)
        tileSize := 254
        rngCtr := 2 } := by decide
  rw [heq2] at h2
  have h3 := Reachable.mark _ 1 64 ⟨1, some 64, .pending⟩ h2
    (by decide) rfl rfl
  have heq3 : VirtualTexture.markAsRasterized
      { cache := ⟨⟨[some ⟨64, 1⟩, none, none, none], 0⟩,
          ⟨[some ⟨0, 0⟩, none, none, none], 0⟩⟩
        lru := [1, 0]
        tiles := [⟨0, some 0, .rasterized⟩, ⟨1, some 64, .pending⟩]
        nextFreeTile := 2
        cacheTextureSize := (512, 256)
        tileSize := 254
        rngCtr := 2 } 1 64 = s2vt3 := by decide
  rw [heq3] at h3
  exact h3

end VirtualTexture

/-- C2.  Lifecycle invariant: after every public `VirtualTexture` operation
(`new`, `request_tile`, `mark_as_rasterized`, modelled by `Reachable`), the
directory maps key `k` to address `a` exactly when the slot at `a` has
descriptor `Some k` and a status different from Empty, and every address
whose slot is non-Empty occurs exactly once in the LRU sequence. -/
theorem c2_lifecycle_invariant {σ : Nat → Nat} {vt : VirtualTexture}
    (hσ : ∀ i, σ i < U32) (h : VirtualTexture.Reachable σ vt) :
    (∀ k a : Nat, vt.cache.get k = some a ↔
      ∃ tile, vt.tiles[a]? = some tile ∧ tile.descriptor = some k ∧
        tile.status ≠ TileCacheStatus.empty) ∧
    (∀ (a : Nat) (tile : TileCacheEntry), vt.tiles[a]? = some tile →
      tile.status ≠ TileCacheStatus.empty → vt.lru.count a = 1) := by
  have hinv := VirtualTexture.reachable_inv hσ h
  refine ⟨hinv.dirSlots, ?_⟩
  intro a tile ht htne
  exact List.count_eq_one_of_mem hinv.lruNodup
    ((hinv.lruMem a).mpr ⟨tile, ht, htne⟩)

theorem c2_lifecycle_invariant_witness :
    (∀ k a : Nat, VirtualTexture.s3vt1.cache.get k = some a ↔
      ∃ tile, VirtualTexture.s3vt1.tiles[a]? = some tile ∧
        tile.descriptor = some k ∧
        tile.status ≠ TileCacheStatus.empty) ∧
    (∀ (a : Nat) (tile : TileCacheEntry),
      VirtualTexture.s3vt1.tiles[a]? = some tile →
      tile.status ≠ TileCacheStatus.empty →
      VirtualTexture.s3vt1.lru.count a = 1) :=
  c2_lifecycle_invariant VirtualTexture.sigZero_lt
    VirtualTexture.s3vt1_reachable

/-- C5.  Resident-key request is pure except for LRU promotion: in every
reachable state whose directory maps `key` to `a`, `request_tile(key)`
returns Hit(a) if the slot at `a` is Rasterized and Pending(a) otherwise
(the slot is Pending in that case), and the new state is literally the old
one with `a` moved to the LRU front — directory, slots and the first-fit
counter unchanged. -/
theorem c5_resident_request_pure {σ : Nat → Nat} {vt : VirtualTexture}
    {d a : Nat} (hσ : ∀ i, σ i < U32) (h : VirtualTexture.Reachable σ vt)
    (hget : vt.cache.get d = some a) :
    ∃ tile, vt.tiles[a]? = some tile ∧
      (tile.status = TileCacheStatus.rasterized ∨
        tile.status = TileCacheStatus.pending) ∧
      VirtualTexture.requestTile σ vt d = some
        ((if tile.status = TileCacheStatus.rasterized then
            RequestResult.cacheHit a else RequestResult.cachePending a),
          { vt with lru := a :: vt.lru.erase a }) := by
  have hinv := VirtualTexture.reachable_inv hσ h
  obtain ⟨tile, htile, htne, _, heq⟩ :=
    VirtualTexture.requestTile_resident (σ := σ) hinv hget
  refine ⟨tile, htile, ?_, heq⟩
  cases hs : tile.status with
  | empty => exact absurd hs htne
  | pending => exact Or.inr rfl
  | rasterized => exact Or.inl rfl

theorem c5_resident_request_pure_witness :
    ∃ tile, VirtualTexture.s3vt1.tiles[0]? = some tile ∧
      (tile.status = TileCacheStatus.rasterized ∨
        tile.status = TileCacheStatus.pending) ∧
      VirtualTexture.requestTile VirtualTexture.sigZero
          VirtualTexture.s3vt1 0 = some
        ((if tile.status = TileCacheStatus.rasterized then
            RequestResult.cacheHit 0 else RequestResult.cachePending 0),
          { VirtualTexture.s3vt1 with
              lru := 0 :: VirtualTexture.s3vt1.lru.erase 0 }) :=
  c5_resident_request_pure VirtualTexture.sigZero_lt
    VirtualTexture.s3vt1_reachable (by decide)

/-- C3.  Pending protection: in every reachable state, no `request_tile`
call (for any key) changes a Pending slot or removes its key from the
directory; and concretely (scenario S3, capacity 1) requesting `(0,0,0)`
yields Miss, after which requesting the distinct absent key `(1,0,0)`
yields Full while the first tile's slot stays Pending and its key stays
mapped. -/
theorem c3_pending_protection {σ : Nat → Nat} {vt vt' : VirtualTexture}
    {d a k : Nat} {r : RequestResult} {tile : TileCacheEntry}
    (hσ : ∀ i, σ i < U32) (h : VirtualTexture.Reachable σ vt) (hd : d < U32)
    (ht : vt.tiles[a]? = some tile)
    (hp : tile.status = TileCacheStatus.pending)
    (hk : tile.descriptor = some k)
    (heq : VirtualTexture.requestTile σ vt d = some (r, vt')) :
    (vt'.tiles[a]? = some tile ∧ vt'.cache.get k = some a) ∧
    (VirtualTexture.requestTile VirtualTexture.sigZero
        VirtualTexture.s3vt0 0 =
          some (RequestResult.cacheMiss 0, VirtualTexture.s3vt1) ∧
      VirtualTexture.requestTile VirtualTexture.sigZero
        VirtualTexture.s3vt1 64 =
          some (RequestResult.cacheFull, VirtualTexture.s3vt1) ∧
      VirtualTexture.s3vt1.tiles[0]? =
        some ⟨0, some 0, TileCacheStatus.pending⟩ ∧
      VirtualTexture.s3vt1.cache.get 0 = some 0) := by
  have hinv := VirtualTexture.reachable_inv hσ h
  obtain ⟨hinv', hpend⟩ := VirtualTexture.requestTile_inv hσ hinv hd heq
  have ht' := hpend a tile ht hp
  refine ⟨⟨ht', (hinv'.dirSlots k a).mpr ⟨tile, ht', hk, ?_⟩⟩,
    by decide, by decide, by decide, by decide⟩
  rw [hp]
  exact fun hh => TileCacheStatus.noConfusion hh

theorem c3_pending_protection_witness :
    (VirtualTexture.s3vt1.tiles[0]? =
        some ⟨0, some 0, TileCacheStatus.pending⟩ ∧
      VirtualTexture.s3vt1.cache.get 0 = some 0) ∧
    (VirtualTexture.requestTile VirtualTexture.sigZero
        VirtualTexture.s3vt0 0 =
          some (RequestResult.cacheMiss 0, VirtualTexture.s3vt1) ∧
      VirtualTexture.requestTile VirtualTexture.sigZero
        VirtualTexture.s3vt1 64 =
          some (RequestResult.cacheFull, VirtualTexture.s3vt1) ∧
      VirtualTexture.s3vt1.tiles[0]? =
        some ⟨0, some 0, TileCacheStatus.pending⟩ ∧
      VirtualTexture.s3vt1.cache.get 0 = some 0) :=
  @c3_pending_protection VirtualTexture.sigZero VirtualTexture.s3vt1
    VirtualTexture.s3vt1 64 0 0 RequestResult.cacheFull
    ⟨0, some 0, TileCacheStatus.pending⟩ VirtualTexture.sigZero_lt
    VirtualTexture.s3vt1_reachable (by decide) (by decide) rfl rfl
    (by decide)

/-- C4.  Eviction order: once the first-fit counter has reached capacity,
`request_tile` on an absent key evicts the least-recently-requested address
whose status is not Pending — the address `v` such that the LRU, read from
the least-recent end, is all-Pending addresses followed by `v` — removes
its old key from the directory, maps the new key to `v`, and returns
Miss(v); and concretely (scenario S2, capacity 2) requesting `(0,0,0)`,
`(1,0,0)`, marking both rasterized and requesting `(2,0,0)` returns Miss(0)
where 0 is the address first assigned to `(0,0,0)`. -/
theorem c4_eviction_order {σ : Nat → Nat} {vt : VirtualTexture} {d v : Nat}
    {parked rem : List Nat} {tv : TileCacheEntry}
    (hσ : ∀ i, σ i < U32) (h : VirtualTexture.Reachable σ vt) (hd : d < U32)
    (hmiss : vt.cache.get d = none)
    (hfull : ¬ vt.nextFreeTile < vt.cacheSize)
    (hrev : vt.lru.reverse = parked ++ v :: rem)
    (hpark : ∀ x ∈ parked, ∃ t, vt.tiles[x]? = some t ∧
      t.status = TileCacheStatus.pending)
    (htv : vt.tiles[v]? = some tv)
    (hnp : tv.status ≠ TileCacheStatus.pending) :
    (∃ vt' dOld, tv.descriptor = some dOld ∧
      VirtualTexture.requestTile σ vt d =
        some (RequestResult.cacheMiss v, vt') ∧
      vt'.cache.get dOld = none ∧ vt'.cache.get d = some v) ∧
    (VirtualTexture.requestTile VirtualTexture.sigZero
        VirtualTexture.s2vt0 0 =
          some (RequestResult.cacheMiss 0, VirtualTexture.s2vt1) ∧
      VirtualTexture.requestTile VirtualTexture.sigZero
        VirtualTexture.s2vt1 64 =
          some (RequestResult.cacheMiss 1, VirtualTexture.s2vt2) ∧
      (VirtualTexture.s2vt2.markAsRasterized 0 0).markAsRasterized 1 64 =
        VirtualTexture.s2vt3 ∧
      VirtualTexture.requestTile VirtualTexture.sigZero
        VirtualTexture.s2vt3 128 =
          some (RequestResult.cacheMiss 0, VirtualTexture.s2vt4)) := by
  have hinv := VirtualTexture.reachable_inv hσ h
  -- the victim is on the LRU, hence live: Rasterized with a stored key
  have hvlru : v ∈ vt.lru := by
    rw [← List.mem_reverse, hrev]
    exact List.mem_append.mpr (Or.inr (List.mem_cons_self v rem))
  obtain ⟨t', ht', hne⟩ := (hinv.lruMem v).mp hvlru
  rw [htv] at ht'
  cases Option.some.inj ht'
  obtain ⟨dOld, hdOld⟩ := hinv.slotKey v tv htv hne
  obtain ⟨xa, xd, xs⟩ := tv
  rw [show (⟨xa, xd, xs⟩ : TileCacheEntry).descriptor = xd from rfl] at hdOld
  subst hdOld
  have hxs : xs = TileCacheStatus.rasterized := by
    cases xs with
    | empty => exact absurd rfl hne
    | pending => exact absurd rfl hnp
    | rasterized => rfl
  subst hxs
  -- scan determinism: the hypotheses pin down the victim
  have hscan : VirtualTexture.scanLRU vt.tiles vt.lru.reverse =
      some (some v, parked, rem) := by
    rw [hrev]
    exact VirtualTexture.scanLRU_of_decomp rem htv hnp parked hpark
  -- the victim key is mapped, so it differs from the missing key
  have hdget : vt.cache.get dOld = some v :=
    (hinv.dirSlots dOld v).mpr ⟨⟨xa, some dOld, .rasterized⟩, htv, rfl,
      fun hh => TileCacheStatus.noConfusion hh⟩
  have hdne : dOld ≠ d := by
    intro hdd
    rw [hdd, hmiss] at hdget
    exact Option.noConfusion hdget
  -- compute the eviction step of get_next_free_tile
  have hgeq2 : vt.getNextFreeTile = some (some v, { vt with
      lru := rem.reverse ++ parked
      cache := (vt.cache.remove dOld).2
      tiles := vt.tiles.set v ⟨xa, none, .empty⟩ }) := by
    unfold VirtualTexture.getNextFreeTile
    rw [if_neg hfull, hscan]
    simp only [htv]
  obtain ⟨vout, vt1, hgeq, hinv1, _, _, _, _, _, hsub1, _⟩ :=
    VirtualTexture.getNextFreeTile_spec hinv
  rw [hgeq] at hgeq2
  have hpair := Option.some.inj hgeq2
  have hvout : vout = some v := congrArg Prod.fst hpair
  have hv1 : vt1 = { vt with
      lru := rem.reverse ++ parked
      cache := (vt.cache.remove dOld).2
      tiles := vt.tiles.set v ⟨xa, none, .empty⟩ } := congrArg Prod.snd hpair
  subst hv1
  rw [hvout] at hgeq
  -- the directory after the removal, and the fresh insert of the new key
  obtain ⟨_, _, _, _, _, _, _, _, hgone, hothers⟩ :=
    TileHashTable.remove_spec_nodup (d := dOld) hinv.cwf hinv.cnd
  have hget1 : (vt.cache.remove dOld).2.get d = none := by
    rw [hothers d (Ne.symm hdne)]
    exact hmiss
  obtain ⟨r', t', c', hins, hwf', hnd', hkb', hs0', hs1', _, hgetd',
    hothers'⟩ := TileHashTable.insert_fresh (σ := σ) (c := vt.rngCtr)
      (a := v) hσ hinv1.cwf hinv1.cnd hinv1.ckb hinv1.cs0 hinv1.cs1
      hget1 hd
  have ht1 : (vt.tiles.set v ⟨xa, none, .empty⟩)[v]? =
      some ⟨xa, none, .empty⟩ := by
    rw [List.getElem?_set_self', htv]
    rfl
  have heqF : VirtualTexture.requestTile σ vt d =
      some (RequestResult.cacheMiss v, { vt with
        lru := v :: (rem.reverse ++ parked)
        cache := t'
        tiles := (vt.tiles.set v ⟨xa, none, .empty⟩).set v
          ⟨xa, some d, .pending⟩
        rngCtr := c' }) := by
    unfold VirtualTexture.requestTile
    rw [hmiss]
    simp only [hgeq, ht1, hins]
  refine ⟨⟨_, dOld, rfl, heqF, ?_, hgetd'⟩, by decide, by decide, by decide,
    by decide⟩
  show t'.get dOld = none
  rw [hothers' dOld hdne]
  exact hgone

theorem c4_eviction_order_witness :
    (∃ vt' dOld,
      (⟨0, some 0, TileCacheStatus.rasterized⟩
        : TileCacheEntry).descriptor = some dOld ∧
      VirtualTexture.requestTile VirtualTexture.sigZero
        VirtualTexture.s2vt3 128 = some (RequestResult.cacheMiss 0, vt') ∧
      vt'.cache.get dOld = none ∧ vt'.cache.get 128 = some 0) ∧
    (VirtualTexture.requestTile VirtualTexture.sigZero
        VirtualTexture.s2vt0 0 =
          some (RequestResult.cacheMiss 0, VirtualTexture.s2vt1) ∧
      VirtualTexture.requestTile VirtualTexture.sigZero
        VirtualTexture.s2vt1 64 =
          some (RequestResult.cacheMiss 1, VirtualTexture.s2vt2) ∧
      (VirtualTexture.s2vt2.markAsRasterized 0 0).markAsRasterized 1 64 =
        VirtualTexture.s2vt3 ∧
      VirtualTexture.requestTile VirtualTexture.sigZero
        VirtualTexture.s2vt3 128 =
          some (RequestResult.cacheMiss 0, VirtualTexture.s2vt4)) :=
  @c4_eviction_order VirtualTexture.sigZero VirtualTexture.s2vt3 128 0
    [] [1] ⟨0, some 0, TileCacheStatus.rasterized⟩
    VirtualTexture.sigZero_lt VirtualTexture.s2vt3_reachable (by decide)
    (by decide) (by decide) (by decide)
    (fun x hx => absurd hx (List.not_mem_nil x)) (by decide) (by decide)
